import Mathlib

/-!
# Wavefront match extension and termination detection

A shallow embedding of `wavefront/wavefront_extend.c` (Wavefront Alignment
Algorithms): the two termination checks, the packed and the custom match
extension, and theorems about them.

Modelling conventions.

* C `int` and `wf_offset_t` (a 32-bit signed integer) are both the type `Int`
  of mathematical integers.  Indices and offsets that address a buffer are
  bounded by its length.  The antidiagonal `2*offset - k` of the maximum
  tracking is not: it exceeds `INT32_MAX` as soon as text index plus pattern
  index does, so the value the variable `antidiag` of type `wf_offset_t` holds
  is taken modulo `2^32` (`wf_offset_wrap`, two's complement).
* A sequence buffer is the list of the bytes that may be read through the
  `pattern` / `text` pointer, sentinel padding included.  Reading a block that
  is not wholly inside the buffer is undefined behaviour in C and is `none`
  here.
* An 8-byte block is read as a little-endian 64-bit word, which is what the
  trailing-zero count of the source relies on.
* A wavefront pointer that may be `NULL` is an `Option`; the wavefronts stored
  in the component arrays are distinct objects, so that a write through the
  M-wavefront changes that slot only.
* The `offsets` array of a wavefront is indexed by the diagonal `k` and is a
  function on the integers; the source reads and writes it only at diagonals of
  `[lo,hi]`.
-/

namespace WFA

/-- One byte of a sequence buffer. -/
abbrev uint8_t := Fin 256

/-- Modelled from the spec: the macro `WAVEFRONT_OFFSET_NULL` is declared in a
header that is not part of the sources at hand.  The spec calls it the reserved
sentinel value of an inactive diagonal; the library defines it as
`INT32_MIN/2`. -/
def WAVEFRONT_OFFSET_NULL : Int := -1073741824

/-- Modelled from the spec: the macro `WAVEFRONT_H` is declared in a header that
is not part of the sources at hand.  The spec asks for
`toTextIndex - toPatternIndex = k`; the custom loop of the source advances `h`,
`v` and `offset` together, and the corner of the 8 x 8 matrix has offset 8, so
the text index is the offset itself. -/
def WAVEFRONT_H (_k : Int) (offset : Int) : Int := offset

/-- Modelled from the spec: the macro `WAVEFRONT_V` is declared in a header that
is not part of the sources at hand.  With `WAVEFRONT_H` the offset itself, the
law `toTextIndex - toPatternIndex = k` of the spec forces `offset - k`. -/
def WAVEFRONT_V (k : Int) (offset : Int) : Int := offset - k

/-- Modelled from the spec: the macro `WAVEFRONT_ANTIDIAGONAL` is declared in a
header that is not part of the sources at hand.  The spec asks for a scalar
monotone in both indices; the library uses their sum `h + v = 2*offset - k`. -/
def WAVEFRONT_ANTIDIAGONAL (k : Int) (offset : Int) : Int :=
  2 * offset - k

/-- The largest value of the 32-bit type `wf_offset_t` (and of `int`). -/
def INT32_MAX : Int := 2147483647

/-- The value an integer takes when it is stored in the 32-bit type
`wf_offset_t` (`int32_t`): the representative of its class modulo `2^32` in
`[-2^31, 2^31)`.  It is the value itself when that fits in 32 bits. -/
def wf_offset_wrap (x : Int) : Int :=
  (x + 2147483648) % 4294967296 - 2147483648

/-- Modelled from the spec: the macro `DPMATRIX_DIAGONAL` is declared in a
header that is not part of the sources at hand.  The spec defines the diagonal
of cell `(h,v)` as `k = textIndex - patternIndex`. -/
def DPMATRIX_DIAGONAL (h v : Int) : Int := h - v

/-- Modelled from the spec: the macro `DPMATRIX_OFFSET` is declared in a header
that is not part of the sources at hand.  It is the inverse of `WAVEFRONT_H`:
the offset of cell `(h,v)` is its text index. -/
def DPMATRIX_OFFSET (h _v : Int) : Int := h

/-- Modelled from the spec: the macro `DIV_FLOOR` is declared in a header that
is not part of the sources at hand; it is the integer quotient rounded down,
used by the source on a bit count and the constant 8. -/
def DIV_FLOOR (a b : Nat) : Nat := a / b

/-- The wavefront `wavefront_t`: the active diagonals `[lo,hi]` and the offset
of every diagonal. -/
structure wavefront_t where
  lo : Int
  hi : Int
  offsets : Int → Int

/-- The matrix component an alignment is required to end in. -/
inductive affine_matrix_type where
  | affine_matrix_M
  | affine_matrix_I
  | affine_matrix_D
  deriving DecidableEq, Repr

/-- The alignment span of `alignment_form`. -/
inductive alignment_span_t where
  | alignment_end2end
  | alignment_endsfree
  deriving DecidableEq, Repr

/-- The fields of `wf_aligner->alignment_form` that the source reads. -/
structure alignment_form_t where
  span : alignment_span_t
  pattern_end_free : Int
  text_end_free : Int
  deriving DecidableEq, Repr

/-- The record `wf_aligner->alignment_end_pos`. -/
structure wavefront_pos_t where
  score : Int
  k : Int
  offset : Int
  deriving DecidableEq, Repr

/-- The values of `wf_aligner->align_status.status`; the source writes the
second and the third. -/
inductive wf_status_t where
  | WF_STATUS_IN_PROGRESS
  | WF_STATUS_SUCCESSFUL
  | WF_STATUS_HEURISTICALY_DROPPED
  deriving DecidableEq, Repr

/-- The values of `wf_aligner->heuristic.strategy`; the source only tells
`wf_heuristic_none` from the others. -/
inductive wf_heuristic_strategy where
  | wf_heuristic_none
  | wf_heuristic_other
  deriving DecidableEq, Repr

/-- The fields of `wf_aligner->wf_components` that the source reads: the
modular-memory switch, the scope, and the three arrays of wavefront pointers,
indexed by score slot. -/
structure wavefront_components_t where
  memory_modular : Bool
  max_score_scope : Int
  mwavefronts : Int → Option wavefront_t
  i1wavefronts : Int → Option wavefront_t
  d1wavefronts : Int → Option wavefront_t

/-- The aligner `wavefront_aligner_t`, reduced to what the source touches.
`match_funct` stands for the callback together with its argument block
`match_funct_arguments`, and is called as `match_funct v h`. -/
structure wavefront_aligner_t where
  pattern : List uint8_t
  pattern_length : Int
  text : List uint8_t
  text_length : Int
  component_end : affine_matrix_type
  alignment_form : alignment_form_t
  wf_components : wavefront_components_t
  alignment_end_pos : wavefront_pos_t
  align_status : wf_status_t
  heuristic : wf_heuristic_strategy
  match_funct : Int → Int → Bool

open affine_matrix_type alignment_span_t

/-! ## Termination (detect end of alignment) -/

/-- The function `wavefront_extend_end2end_check_termination` of the source:
the new aligner state and the returned verdict. -/
def wavefront_extend_end2end_check_termination (wf_aligner : wavefront_aligner_t)
    (mwavefront : wavefront_t) (score score_mod : Int) : wavefront_aligner_t × Bool :=
  let pattern_length := wf_aligner.pattern_length
  let text_length := wf_aligner.text_length
  let alignment_k := DPMATRIX_DIAGONAL text_length pattern_length
  let alignment_offset := DPMATRIX_OFFSET text_length pattern_length
  match wf_aligner.component_end with
  | affine_matrix_M =>
    if mwavefront.lo > alignment_k ∨ alignment_k > mwavefront.hi then (wf_aligner, false)
    else if mwavefront.offsets alignment_k < alignment_offset then (wf_aligner, false)
    else ({ wf_aligner with
            alignment_end_pos := ⟨score, alignment_k, alignment_offset⟩ }, true)
  | affine_matrix_I =>
    match wf_aligner.wf_components.i1wavefronts score_mod with
    | none => (wf_aligner, false)
    | some iwavefront =>
      if iwavefront.lo > alignment_k ∨ alignment_k > iwavefront.hi then (wf_aligner, false)
      else if iwavefront.offsets alignment_k < alignment_offset then (wf_aligner, false)
      else ({ wf_aligner with
              alignment_end_pos := ⟨score, alignment_k, alignment_offset⟩ }, true)
  | affine_matrix_D =>
    match wf_aligner.wf_components.d1wavefronts score_mod with
    | none => (wf_aligner, false)
    | some dwavefront =>
      if dwavefront.lo > alignment_k ∨ alignment_k > dwavefront.hi then (wf_aligner, false)
      else if dwavefront.offsets alignment_k < alignment_offset then (wf_aligner, false)
      else ({ wf_aligner with
              alignment_end_pos := ⟨score, alignment_k, alignment_offset⟩ }, true)

/-- The function `wavefront_extend_endsfree_check_termination` of the source.
Its parameter `mwavefront` is not used by the body. -/
def wavefront_extend_endsfree_check_termination (wf_aligner : wavefront_aligner_t)
    (_mwavefront : wavefront_t) (score k : Int) (offset : Int) :
    wavefront_aligner_t × Bool :=
  let pattern_length := wf_aligner.pattern_length
  let text_length := wf_aligner.text_length
  let h_pos := WAVEFRONT_H k offset
  let v_pos := WAVEFRONT_V k offset
  if h_pos ≥ text_length ∧
      pattern_length - v_pos ≤ wf_aligner.alignment_form.pattern_end_free then
    ({ wf_aligner with alignment_end_pos := ⟨score, k, offset⟩ }, true)
  else if v_pos ≥ pattern_length ∧
      text_length - h_pos ≤ wf_aligner.alignment_form.text_end_free then
    ({ wf_aligner with alignment_end_pos := ⟨score, k, offset⟩ }, true)
  else (wf_aligner, false)

/-! ## Extension (comparing characters) -/

/-- The little-endian value of a list of bytes. -/
def le_word : List uint8_t → Nat
  | [] => 0
  | b :: bs => b.val + 256 * le_word bs

/-- The read `*(uint64_t*)(buffer + i)`: the 8 bytes from index `i` on, as a
little-endian word; `none` when the block is not inside the buffer. -/
def load_block (buffer : List uint8_t) (i : Int) : Option Nat :=
  if 0 ≤ i ∧ i.toNat + 8 ≤ buffer.length then
    some (le_word ((buffer.drop i.toNat).take 8))
  else none

/-- The count of trailing zero bits of `x`, looking at `width` bits. -/
def ctz_aux : Nat → Nat → Nat
  | 0, _ => 0
  | width + 1, x => if x % 2 = 1 then 0 else 1 + ctz_aux width (x / 2)

/-- The builtin `__builtin_ctzl` on a 64-bit word (the source calls it on a
non-zero word only). -/
def __builtin_ctzl (x : Nat) : Nat := ctz_aux 64 x

/-- The block comparison of `wavefront_extend_matches_packed` for one diagonal:
while the two blocks are equal the offset moves 8 further; the first unequal
pair of blocks adds the count of equal low bytes.  `fuel` bounds the number of
blocks compared; `none` is a read outside a buffer (or no fuel left). -/
def scan_blocks (pattern text : List uint8_t) :
    Nat → Int → Int → Int → Option Int
  | 0, _, _, _ => none
  | fuel + 1, v, h, offset =>
    match load_block pattern v, load_block text h with
    | some pattern_block, some text_block =>
      let cmp := pattern_block ^^^ text_block
      if cmp = 0 then scan_blocks pattern text fuel (v + 8) (h + 8) (offset + 8)
      else
        let equal_right_bits := __builtin_ctzl cmp
        let equal_chars := DIV_FLOOR equal_right_bits 8
        some (offset + equal_chars)
    | _, _ => none

/-- The block comparison of one diagonal with the fuel the buffer allows: every
compared block lies inside the pattern buffer and each step moves 8 bytes on,
so `pattern.length + 1` steps are never used up (`scan_blocks_fuel`). -/
def extend_packed_diagonal (wf_aligner : wavefront_aligner_t) (k : Int)
    (offset : Int) : Option Int :=
  scan_blocks wf_aligner.pattern wf_aligner.text (wf_aligner.pattern.length + 1)
    (WAVEFRONT_V k offset) (WAVEFRONT_H k offset) offset

/-- The loop `for (k=lo;k<=hi;++k)` of `wavefront_extend_matches_packed`, with
`n` diagonals left from `k` on.  The result is the aligner (the termination
check may have written the end position), the M-wavefront with its new offsets,
`max_antidiag`, and whether the loop was left through `return 1`.  The
antidiagonal compared with `max_antidiag` is the value of the 32-bit variable
`antidiag`. -/
def packed_loop (score : Int) (endsfree compute_max : Bool) :
    Nat → Int → wavefront_aligner_t → wavefront_t → Int →
      Option (wavefront_aligner_t × wavefront_t × Int × Bool)
  | 0, _, wf_aligner, mwavefront, max_antidiag =>
    some (wf_aligner, mwavefront, max_antidiag, false)
  | n + 1, k, wf_aligner, mwavefront, max_antidiag =>
    if mwavefront.offsets k = WAVEFRONT_OFFSET_NULL then
      packed_loop score endsfree compute_max n (k + 1) wf_aligner mwavefront max_antidiag
    else
      match extend_packed_diagonal wf_aligner k (mwavefront.offsets k) with
      | none => none
      | some offset =>
        let mwavefront1 : wavefront_t :=
          { mwavefront with offsets := Function.update mwavefront.offsets k offset }
        let max_antidiag1 :=
          if compute_max ∧
              max_antidiag < wf_offset_wrap (WAVEFRONT_ANTIDIAGONAL k offset) then
            wf_offset_wrap (WAVEFRONT_ANTIDIAGONAL k offset)
          else max_antidiag
        if endsfree then
          let check :=
            wavefront_extend_endsfree_check_termination wf_aligner mwavefront1 score k offset
          if check.2 then some (check.1, mwavefront1, max_antidiag1, true)
          else
            packed_loop score endsfree compute_max n (k + 1) check.1 mwavefront1 max_antidiag1
        else
          packed_loop score endsfree compute_max n (k + 1) wf_aligner mwavefront1 max_antidiag1

/-- The write-back of the M-wavefront of slot `score_mod`: in the source the
loop writes through the pointer `mwavefront->offsets`. -/
def store_mwavefront (wf_aligner : wavefront_aligner_t) (score_mod : Int)
    (mwavefront : wavefront_t) : wavefront_aligner_t :=
  { wf_aligner with
    wf_components :=
      { wf_aligner.wf_components with
        mwavefronts :=
          Function.update wf_aligner.wf_components.mwavefronts score_mod (some mwavefront) } }

/-- The function `wavefront_extend_matches_packed` of the source: the new
aligner state and the returned `int`; `none` when a block is read outside a
buffer. -/
def wavefront_extend_matches_packed (wf_aligner : wavefront_aligner_t)
    (score score_mod : Int) (endsfree compute_max : Bool) :
    Option (wavefront_aligner_t × Int) :=
  match wf_aligner.wf_components.mwavefronts score_mod with
  | none => some (wf_aligner, 0)
  | some mwavefront =>
    match packed_loop score endsfree compute_max (mwavefront.hi + 1 - mwavefront.lo).toNat
        mwavefront.lo wf_aligner mwavefront 0 with
    | none => none
    | some (wf_aligner1, mwavefront1, max_antidiag, quit) =>
      let wf_aligner2 := store_mwavefront wf_aligner1 score_mod mwavefront1
      if quit then some (wf_aligner2, 1)
      else if compute_max then some (wf_aligner2, max_antidiag)
      else if !endsfree then
        let check :=
          wavefront_extend_end2end_check_termination wf_aligner2 mwavefront1 score score_mod
        some (check.1, if check.2 then 1 else 0)
      else some (wf_aligner2, 0)

/-- The loop `while (match_funct(v,h,func_arguments))` of
`wavefront_extend_matches_custom` for one diagonal; `none` when the predicate
is still true after `fuel` calls. -/
def scan_custom (match_funct : Int → Int → Bool) :
    Nat → Int → Int → Int → Option Int
  | 0, _, _, _ => none
  | fuel + 1, v, h, offset =>
    if match_funct v h then scan_custom match_funct fuel (v + 1) (h + 1) (offset + 1)
    else some offset

/-- The loop `for (k=lo;k<=hi;++k)` of `wavefront_extend_matches_custom`, with
`n` diagonals left from `k` on: the aligner, the M-wavefront with its new
offsets, and whether the loop was left through `return true`. -/
def custom_loop (fuel : Nat) (score : Int) (endsfree : Bool) :
    Nat → Int → wavefront_aligner_t → wavefront_t →
      Option (wavefront_aligner_t × wavefront_t × Bool)
  | 0, _, wf_aligner, mwavefront => some (wf_aligner, mwavefront, false)
  | n + 1, k, wf_aligner, mwavefront =>
    if mwavefront.offsets k = WAVEFRONT_OFFSET_NULL then
      custom_loop fuel score endsfree n (k + 1) wf_aligner mwavefront
    else
      match scan_custom wf_aligner.match_funct fuel
          (WAVEFRONT_V k (mwavefront.offsets k)) (WAVEFRONT_H k (mwavefront.offsets k))
          (mwavefront.offsets k) with
      | none => none
      | some offset =>
        let mwavefront1 : wavefront_t :=
          { mwavefront with offsets := Function.update mwavefront.offsets k offset }
        if endsfree then
          let check :=
            wavefront_extend_endsfree_check_termination wf_aligner mwavefront1 score k offset
          if check.2 then some (check.1, mwavefront1, true)
          else custom_loop fuel score endsfree n (k + 1) check.1 mwavefront1
        else custom_loop fuel score endsfree n (k + 1) wf_aligner mwavefront1

/-- The function `wavefront_extend_matches_custom` of the source: the new
aligner state and the returned `bool`; `none` when the predicate of some
diagonal is still true after `fuel` calls. -/
def wavefront_extend_matches_custom (fuel : Nat) (wf_aligner : wavefront_aligner_t)
    (score score_mod : Int) (endsfree : Bool) : Option (wavefront_aligner_t × Bool) :=
  match wf_aligner.wf_components.mwavefronts score_mod with
  | none => some (wf_aligner, false)
  | some mwavefront =>
    match custom_loop fuel score endsfree (mwavefront.hi + 1 - mwavefront.lo).toNat
        mwavefront.lo wf_aligner mwavefront with
    | none => none
    | some (wf_aligner1, mwavefront1, quit) =>
      let wf_aligner2 := store_mwavefront wf_aligner1 score_mod mwavefront1
      if quit then some (wf_aligner2, true)
      else if !endsfree then
        some (wavefront_extend_end2end_check_termination wf_aligner2 mwavefront1 score score_mod)
      else some (wf_aligner2, false)

/-! ## The extension with a log of its operations

The functions below are the same translation of the source as the ones above,
with one addition: they return the list of the operations they performed, in
order.  `packed_traced_erase` and `custom_traced_erase` show that, the log
apart, they compute what the functions above compute. -/

/-- The operations the log records: one comparison of a pattern block with a
text block made for diagonal `k`; one call `match_funct(v,h)` made for diagonal
`k`; one evaluation of the ends-free check on `(k, offset)`; one evaluation of
the end-to-end check; one call of the heuristic cutoff. -/
inductive engine_event where
  | block_compare (k : Int)
  | match_call (k v h : Int)
  | endsfree_check (k offset : Int)
  | end2end_check
  | heuristic_cutoff (score : Int)
  deriving DecidableEq, Repr

open engine_event

/-- The block comparison `scan_blocks` for diagonal `k`, with its log. -/
def scan_blocks_traced (pattern text : List uint8_t) (k : Int) :
    Nat → Int → Int → Int → Option (Int × List engine_event)
  | 0, _, _, _ => none
  | fuel + 1, v, h, offset =>
    match load_block pattern v, load_block text h with
    | some pattern_block, some text_block =>
      let cmp := pattern_block ^^^ text_block
      if cmp = 0 then
        (scan_blocks_traced pattern text k fuel (v + 8) (h + 8) (offset + 8)).map
          (fun r => (r.1, block_compare k :: r.2))
      else
        let equal_right_bits := __builtin_ctzl cmp
        let equal_chars := DIV_FLOOR equal_right_bits 8
        some (offset + equal_chars, [block_compare k])
    | _, _ => none

/-- The block comparison of one diagonal `extend_packed_diagonal`, with its
log. -/
def extend_packed_diagonal_traced (wf_aligner : wavefront_aligner_t) (k : Int)
    (offset : Int) : Option (Int × List engine_event) :=
  scan_blocks_traced wf_aligner.pattern wf_aligner.text k (wf_aligner.pattern.length + 1)
    (WAVEFRONT_V k offset) (WAVEFRONT_H k offset) offset

/-- The loop `packed_loop` of `wavefront_extend_matches_packed`, with its
log. -/
def packed_loop_traced (score : Int) (endsfree compute_max : Bool) :
    Nat → Int → wavefront_aligner_t → wavefront_t → Int →
      Option ((wavefront_aligner_t × wavefront_t × Int × Bool) × List engine_event)
  | 0, _, wf_aligner, mwavefront, max_antidiag =>
    some ((wf_aligner, mwavefront, max_antidiag, false), [])
  | n + 1, k, wf_aligner, mwavefront, max_antidiag =>
    if mwavefront.offsets k = WAVEFRONT_OFFSET_NULL then
      packed_loop_traced score endsfree compute_max n (k + 1) wf_aligner mwavefront max_antidiag
    else
      match extend_packed_diagonal_traced wf_aligner k (mwavefront.offsets k) with
      | none => none
      | some (offset, log) =>
        let mwavefront1 : wavefront_t :=
          { mwavefront with offsets := Function.update mwavefront.offsets k offset }
        let max_antidiag1 :=
          if compute_max ∧
              max_antidiag < wf_offset_wrap (WAVEFRONT_ANTIDIAGONAL k offset) then
            wf_offset_wrap (WAVEFRONT_ANTIDIAGONAL k offset)
          else max_antidiag
        if endsfree then
          let check :=
            wavefront_extend_endsfree_check_termination wf_aligner mwavefront1 score k offset
          if check.2 then
            some ((check.1, mwavefront1, max_antidiag1, true), log ++ [endsfree_check k offset])
          else
            (packed_loop_traced score endsfree compute_max n (k + 1) check.1 mwavefront1
              max_antidiag1).map (fun r => (r.1, log ++ endsfree_check k offset :: r.2))
        else
          (packed_loop_traced score endsfree compute_max n (k + 1) wf_aligner mwavefront1
            max_antidiag1).map (fun r => (r.1, log ++ r.2))

/-- The function `wavefront_extend_matches_packed` of the source, with its
log. -/
def wavefront_extend_matches_packed_traced (wf_aligner : wavefront_aligner_t)
    (score score_mod : Int) (endsfree compute_max : Bool) :
    Option ((wavefront_aligner_t × Int) × List engine_event) :=
  match wf_aligner.wf_components.mwavefronts score_mod with
  | none => some ((wf_aligner, 0), [])
  | some mwavefront =>
    match packed_loop_traced score endsfree compute_max (mwavefront.hi + 1 - mwavefront.lo).toNat
        mwavefront.lo wf_aligner mwavefront 0 with
    | none => none
    | some ((wf_aligner1, mwavefront1, max_antidiag, quit), log) =>
      let wf_aligner2 := store_mwavefront wf_aligner1 score_mod mwavefront1
      if quit then some ((wf_aligner2, 1), log)
      else if compute_max then some ((wf_aligner2, max_antidiag), log)
      else if !endsfree then
        let check :=
          wavefront_extend_end2end_check_termination wf_aligner2 mwavefront1 score score_mod
        some ((check.1, if check.2 then 1 else 0), log ++ [end2end_check])
      else some ((wf_aligner2, 0), log)

/-- The loop `scan_custom` of one diagonal `k`, with its log. -/
def scan_custom_traced (match_funct : Int → Int → Bool) (k : Int) :
    Nat → Int → Int → Int → Option (Int × List engine_event)
  | 0, _, _, _ => none
  | fuel + 1, v, h, offset =>
    if match_funct v h then
      (scan_custom_traced match_funct k fuel (v + 1) (h + 1) (offset + 1)).map
        (fun r => (r.1, match_call k v h :: r.2))
    else some (offset, [match_call k v h])

/-- The loop `custom_loop` of `wavefront_extend_matches_custom`, with its
log. -/
def custom_loop_traced (fuel : Nat) (score : Int) (endsfree : Bool) :
    Nat → Int → wavefront_aligner_t → wavefront_t →
      Option ((wavefront_aligner_t × wavefront_t × Bool) × List engine_event)
  | 0, _, wf_aligner, mwavefront => some ((wf_aligner, mwavefront, false), [])
  | n + 1, k, wf_aligner, mwavefront =>
    if mwavefront.offsets k = WAVEFRONT_OFFSET_NULL then
      custom_loop_traced fuel score endsfree n (k + 1) wf_aligner mwavefront
    else
      match scan_custom_traced wf_aligner.match_funct k fuel
          (WAVEFRONT_V k (mwavefront.offsets k)) (WAVEFRONT_H k (mwavefront.offsets k))
          (mwavefront.offsets k) with
      | none => none
      | some (offset, log) =>
        let mwavefront1 : wavefront_t :=
          { mwavefront with offsets := Function.update mwavefront.offsets k offset }
        if endsfree then
          let check :=
            wavefront_extend_endsfree_check_termination wf_aligner mwavefront1 score k offset
          if check.2 then some ((check.1, mwavefront1, true), log ++ [endsfree_check k offset])
          else
            (custom_loop_traced fuel score endsfree n (k + 1) check.1 mwavefront1).map
              (fun r => (r.1, log ++ endsfree_check k offset :: r.2))
        else
          (custom_loop_traced fuel score endsfree n (k + 1) wf_aligner mwavefront1).map
            (fun r => (r.1, log ++ r.2))

/-- The function `wavefront_extend_matches_custom` of the source, with its
log. -/
def wavefront_extend_matches_custom_traced (fuel : Nat) (wf_aligner : wavefront_aligner_t)
    (score score_mod : Int) (endsfree : Bool) :
    Option ((wavefront_aligner_t × Bool) × List engine_event) :=
  match wf_aligner.wf_components.mwavefronts score_mod with
  | none => some ((wf_aligner, false), [])
  | some mwavefront =>
    match custom_loop_traced fuel score endsfree (mwavefront.hi + 1 - mwavefront.lo).toNat
        mwavefront.lo wf_aligner mwavefront with
    | none => none
    | some ((wf_aligner1, mwavefront1, quit), log) =>
      let wf_aligner2 := store_mwavefront wf_aligner1 score_mod mwavefront1
      if quit then some ((wf_aligner2, true), log)
      else if !endsfree then
        some (wavefront_extend_end2end_check_termination wf_aligner2 mwavefront1 score score_mod,
          log ++ [end2end_check])
      else some ((wf_aligner2, false), log)

/-! ## Wavefront exact extension

The heuristic cutoff `wavefront_heuristic_cufoff` is declared in a header that
is not part of the sources at hand; the orchestrators take it as the parameter
`wavefront_heuristic_cufoff`, a function of the aligner and the score that
returns the aligner as the call leaves it and the verdict `alignment_dropped`.
Every orchestrator returns the aligner, the returned `int` and the log. -/

open wf_status_t wf_heuristic_strategy

/-- The function `wavefront_extend_end2end` of the source. -/
def wavefront_extend_end2end
    (wavefront_heuristic_cufoff : wavefront_aligner_t → Int → wavefront_aligner_t × Bool)
    (wf_aligner : wavefront_aligner_t) (score : Int) :
    Option (wavefront_aligner_t × Int × List engine_event) :=
  let memory_modular := wf_aligner.wf_components.memory_modular
  let max_score_scope := wf_aligner.wf_components.max_score_scope
  let score_mod := if memory_modular then Int.tmod score max_score_scope else score
  match wavefront_extend_matches_packed_traced wf_aligner score score_mod false false with
  | none => none
  | some ((wf_aligner1, end_reached), log) =>
    if end_reached ≠ 0 then
      some ({ wf_aligner1 with align_status := WF_STATUS_SUCCESSFUL }, 1, log)
    else if wf_aligner1.heuristic ≠ wf_heuristic_none then
      let cutoff := wavefront_heuristic_cufoff wf_aligner1 score
      if cutoff.2 then
        some ({ cutoff.1 with align_status := WF_STATUS_HEURISTICALY_DROPPED }, 1,
          log ++ [heuristic_cutoff score])
      else some (cutoff.1, 0, log ++ [heuristic_cutoff score])
    else some (wf_aligner1, 0, log)

/-- The function `wavefront_extend_end2end_max` of the source; it does not call
the heuristic cutoff. -/
def wavefront_extend_end2end_max (wf_aligner : wavefront_aligner_t) (score : Int) :
    Option (wavefront_aligner_t × Int × List engine_event) :=
  let memory_modular := wf_aligner.wf_components.memory_modular
  let max_score_scope := wf_aligner.wf_components.max_score_scope
  let score_mod := if memory_modular then Int.tmod score max_score_scope else score
  (wavefront_extend_matches_packed_traced wf_aligner score score_mod false true).map
    (fun r => (r.1.1, r.1.2, r.2))

/-- The function `wavefront_extend_endsfree` of the source. -/
def wavefront_extend_endsfree
    (wavefront_heuristic_cufoff : wavefront_aligner_t → Int → wavefront_aligner_t × Bool)
    (wf_aligner : wavefront_aligner_t) (score : Int) :
    Option (wavefront_aligner_t × Int × List engine_event) :=
  let memory_modular := wf_aligner.wf_components.memory_modular
  let max_score_scope := wf_aligner.wf_components.max_score_scope
  let score_mod := if memory_modular then Int.tmod score max_score_scope else score
  match wavefront_extend_matches_packed_traced wf_aligner score score_mod true false with
  | none => none
  | some ((wf_aligner1, end_reached), log) =>
    if end_reached ≠ 0 then
      some ({ wf_aligner1 with align_status := WF_STATUS_SUCCESSFUL }, 1, log)
    else if wf_aligner1.heuristic ≠ wf_heuristic_none then
      let cutoff := wavefront_heuristic_cufoff wf_aligner1 score
      if cutoff.2 then
        some ({ cutoff.1 with align_status := WF_STATUS_HEURISTICALY_DROPPED }, 1,
          log ++ [heuristic_cutoff score])
      else some (cutoff.1, 0, log ++ [heuristic_cutoff score])
    else some (wf_aligner1, 0, log)

/-- The function `wavefront_extend_custom` of the source; `fuel` bounds the
calls of the match predicate on one diagonal. -/
def wavefront_extend_custom
    (wavefront_heuristic_cufoff : wavefront_aligner_t → Int → wavefront_aligner_t × Bool)
    (fuel : Nat) (wf_aligner : wavefront_aligner_t) (score : Int) :
    Option (wavefront_aligner_t × Int × List engine_event) :=
  let memory_modular := wf_aligner.wf_components.memory_modular
  let max_score_scope := wf_aligner.wf_components.max_score_scope
  let score_mod := if memory_modular then Int.tmod score max_score_scope else score
  let endsfree := decide (wf_aligner.alignment_form.span = alignment_endsfree)
  match wavefront_extend_matches_custom_traced fuel wf_aligner score score_mod endsfree with
  | none => none
  | some ((wf_aligner1, end_reached), log) =>
    if end_reached then
      some ({ wf_aligner1 with align_status := WF_STATUS_SUCCESSFUL }, 1, log)
    else if wf_aligner1.heuristic ≠ wf_heuristic_none then
      let cutoff := wavefront_heuristic_cufoff wf_aligner1 score
      if cutoff.2 then
        some ({ cutoff.1 with align_status := WF_STATUS_HEURISTICALY_DROPPED }, 1,
          log ++ [heuristic_cutoff score])
      else some (cutoff.1, 0, log ++ [heuristic_cutoff score])
    else some (wf_aligner1, 0, log)

/-! ## Vocabulary of the statements -/

/-- The wavefront the end-to-end check is to inspect: the M-wavefront it is
given when the alignment ends in M, else the I (resp. D) wavefront stored at the
score slot, which may be absent. -/
def required_wavefront (wf_aligner : wavefront_aligner_t) (mwavefront : wavefront_t)
    (score_mod : Int) : Option wavefront_t :=
  match wf_aligner.component_end with
  | affine_matrix_M => some mwavefront
  | affine_matrix_I => wf_aligner.wf_components.i1wavefronts score_mod
  | affine_matrix_D => wf_aligner.wf_components.d1wavefronts score_mod

/-- The corner diagonal of the matrix is active in `w` and its offset has
reached or passed the corner offset. -/
def corner_reached (wf_aligner : wavefront_aligner_t) (w : wavefront_t) : Prop :=
  w.lo ≤ DPMATRIX_DIAGONAL wf_aligner.text_length wf_aligner.pattern_length ∧
  DPMATRIX_DIAGONAL wf_aligner.text_length wf_aligner.pattern_length ≤ w.hi ∧
  w.offsets (DPMATRIX_DIAGONAL wf_aligner.text_length wf_aligner.pattern_length) ≥
    DPMATRIX_OFFSET wf_aligner.text_length wf_aligner.pattern_length

instance (wf_aligner : wavefront_aligner_t) (w : wavefront_t) :
    Decidable (corner_reached wf_aligner w) := by
  unfold corner_reached; infer_instance

/-- Byte equality `pattern[v] == text[h]` as a custom match predicate; it is
false at an index outside a buffer. -/
def byte_equality (pattern text : List uint8_t) (v h : Int) : Bool :=
  if 0 ≤ v ∧ 0 ≤ h then
    match pattern[v.toNat]?, text[h.toNat]? with
    | some a, some b => a == b
    | _, _ => false
  else false

/-- The bytes of an ASCII string. -/
def bytes_of (s : String) : List uint8_t := s.toList.map (fun c => Fin.ofNat c.toNat)

/-- A sequence buffer: the symbols of `s` followed by `n` copies of a sentinel
character. -/
def padded (s : String) (sentinel : Char) (n : Nat) : List uint8_t :=
  bytes_of s ++ List.replicate n (Fin.ofNat sentinel.toNat)

/-- A wavefront over `[lo,hi]` whose diagonals all hold the sentinel, but for
the listed (diagonal, offset) pairs. -/
def wavefront_of (lo hi : Int) (entries : List (Int × Int)) : wavefront_t :=
  { lo := lo, hi := hi,
    offsets := fun k => (entries.lookup k).getD WAVEFRONT_OFFSET_NULL }

/-- The aligner of the scenarios: pattern padded with question marks, text
padded with exclamation marks (8 bytes each), one M-wavefront at slot 0, no I
or D wavefront, no heuristic, byte equality as the custom predicate. -/
def scenario (pattern text : String) (component_end : affine_matrix_type)
    (form : alignment_form_t) (mwavefront : wavefront_t) : wavefront_aligner_t :=
  { pattern := padded pattern '?' 8
    pattern_length := pattern.length
    text := padded text '!' 8
    text_length := text.length
    component_end := component_end
    alignment_form := form
    wf_components :=
      { memory_modular := false
        max_score_scope := 1
        mwavefronts := fun s => if s = 0 then some mwavefront else none
        i1wavefronts := fun _ => none
        d1wavefronts := fun _ => none }
    alignment_end_pos := ⟨-1, 0, 0⟩
    align_status := wf_status_t.WF_STATUS_IN_PROGRESS
    heuristic := wf_heuristic_strategy.wf_heuristic_none
    match_funct := byte_equality (padded pattern '?' 8) (padded text '!' 8) }

/-- The aligner of the scenario with long sequences: a pattern of `n` symbols
`a` followed by 8 bytes `ps`, a text of `n` symbols `b` followed by 8 bytes `ts`,
end-to-end alignment ending in M, one M-wavefront at slot 0, no I or D
wavefront, no heuristic. -/
def uniform_scenario (n : Nat) (a b ps ts : uint8_t) (mwavefront : wavefront_t) :
    wavefront_aligner_t :=
  { pattern := List.replicate n a ++ List.replicate 8 ps
    pattern_length := n
    text := List.replicate n b ++ List.replicate 8 ts
    text_length := n
    component_end := affine_matrix_M
    alignment_form := ⟨alignment_end2end, 0, 0⟩
    wf_components :=
      { memory_modular := false
        max_score_scope := 1
        mwavefronts := fun s => if s = 0 then some mwavefront else none
        i1wavefronts := fun _ => none
        d1wavefronts := fun _ => none }
    alignment_end_pos := ⟨-1, 0, 0⟩
    align_status := wf_status_t.WF_STATUS_IN_PROGRESS
    heuristic := wf_heuristic_strategy.wf_heuristic_none
    match_funct :=
      byte_equality (List.replicate n a ++ List.replicate 8 ps)
        (List.replicate n b ++ List.replicate 8 ts) }

/-- The aligner of the scenarios with modular memory and an I-wavefront: the
scope is `scope`, the M-wavefront and the I-wavefront are stored at slot `slot`
and at no other slot. -/
def modular_affine_scenario (pattern text : String) (component_end : affine_matrix_type)
    (form : alignment_form_t) (scope slot : Int) (mwavefront i1wavefront : wavefront_t) :
    wavefront_aligner_t :=
  { scenario pattern text component_end form mwavefront with
    wf_components :=
      { memory_modular := true
        max_score_scope := scope
        mwavefronts := fun s => if s = slot then some mwavefront else none
        i1wavefronts := fun s => if s = slot then some i1wavefront else none
        d1wavefronts := fun _ => none } }

/-- The verdict of the end-to-end check as read from slot `slot`: `al1` is the
state the extension leaves from `al` and `done` its verdict.  When `al` holds no
M-wavefront at the slot the verdict is not-done; when it holds one, `al1` holds
the extended M-wavefront at the slot and the verdict is done exactly when the
wavefront of the ending component stored at that slot (the extended
M-wavefront, or the I or D wavefront of the slot) is present and has reached the
corner. -/
def end2end_verdict_at (al : wavefront_aligner_t) (slot : Int) (al1 : wavefront_aligner_t)
    (done : Bool) : Prop :=
  (al.wf_components.mwavefronts slot = none → done = false) ∧
  ∀ mw, al.wf_components.mwavefronts slot = some mw →
    ∃ mw1, al1.wf_components.mwavefronts slot = some mw1 ∧
      (done = true ↔ ∃ w, required_wavefront al mw1 slot = some w ∧ corner_reached al w)

/-- The length of the longest common run of two byte lists from their heads
on: the number of leading positions at which they agree. -/
def lcp_length : List uint8_t → List uint8_t → Nat
  | a :: l1, b :: l2 => if a = b then 1 + lcp_length l1 l2 else 0
  | _, _ => 0

/-- The padding contract of the packed extension: the logical lengths are
non-negative, the 8 bytes that follow the logical end of the pattern are in the
buffer and hold the sentinel `ps`, the 8 bytes that follow the logical end of
the text are in the buffer and hold the sentinel `ts`, no pattern symbol is
`ts`, no text symbol is `ps`, and the two sentinels differ. -/
def padding_contract (wf_aligner : wavefront_aligner_t) (ps ts : uint8_t) : Prop :=
  0 ≤ wf_aligner.pattern_length ∧ 0 ≤ wf_aligner.text_length ∧
  (∀ i, i < 8 → wf_aligner.pattern[wf_aligner.pattern_length.toNat + i]? = some ps) ∧
  (∀ i, i < 8 → wf_aligner.text[wf_aligner.text_length.toNat + i]? = some ts) ∧
  (∀ i, i < wf_aligner.pattern_length.toNat → wf_aligner.pattern[i]? ≠ some ts) ∧
  (∀ i, i < wf_aligner.text_length.toNat → wf_aligner.text[i]? ≠ some ps) ∧
  ps ≠ ts

instance (wf_aligner : wavefront_aligner_t) (ps ts : uint8_t) :
    Decidable (padding_contract wf_aligner ps ts) := by
  unfold padding_contract; infer_instance

/-- The diagonal `k` of wavefront `w` is inactive, or its indices lie in
`[0, text_length] x [0, pattern_length]`. -/
def diagonal_in_bounds (wf_aligner : wavefront_aligner_t) (w : wavefront_t) (k : Int) : Prop :=
  w.offsets k ≠ WAVEFRONT_OFFSET_NULL →
    (0 ≤ WAVEFRONT_H k (w.offsets k) ∧ WAVEFRONT_H k (w.offsets k) ≤ wf_aligner.text_length) ∧
    (0 ≤ WAVEFRONT_V k (w.offsets k) ∧
      WAVEFRONT_V k (w.offsets k) ≤ wf_aligner.pattern_length)

instance (wf_aligner : wavefront_aligner_t) (w : wavefront_t) (k : Int) :
    Decidable (diagonal_in_bounds wf_aligner w k) := by
  unfold diagonal_in_bounds; infer_instance

/-- The common run of the two buffers from the indices of a diagonal on. -/
def diagonal_run (wf_aligner : wavefront_aligner_t) (k offset : Int) : Nat :=
  lcp_length (wf_aligner.pattern.drop (WAVEFRONT_V k offset).toNat)
    (wf_aligner.text.drop (WAVEFRONT_H k offset).toNat)

/-- The byte `buffer[i]` at an integer index; `none` outside the buffer. -/
def byte_at (buffer : List uint8_t) (i : Int) : Option uint8_t :=
  if 0 ≤ i then buffer[i.toNat]? else none

/-- The first mismatch of `pattern[v..]` against `text[h..]` is `n` symbols on:
`pattern[v+i] = text[h+i]` for every `i < n`, and `pattern[v+n] ≠ text[h+n]`. -/
def first_mismatch_at (wf_aligner : wavefront_aligner_t) (v h : Int) (n : Nat) : Prop :=
  (∀ i : Nat, i < n →
    ∃ a, byte_at wf_aligner.pattern (v + i) = some a ∧ byte_at wf_aligner.text (h + i) = some a) ∧
  ∃ a b, byte_at wf_aligner.pattern (v + n) = some a ∧ byte_at wf_aligner.text (h + n) = some b ∧
    a ≠ b

/-- Wavefront `w1` is wavefront `w` with every active diagonal of `[lo,hi]`
whose indices are in bounds advanced exactly to its first mismatch. -/
def extended_to_first_mismatch (wf_aligner : wavefront_aligner_t) (w w1 : wavefront_t) : Prop :=
  ∀ k, w.lo ≤ k → k ≤ w.hi → w.offsets k ≠ WAVEFRONT_OFFSET_NULL →
    0 ≤ WAVEFRONT_H k (w.offsets k) ∧ WAVEFRONT_H k (w.offsets k) ≤ wf_aligner.text_length →
    0 ≤ WAVEFRONT_V k (w.offsets k) ∧ WAVEFRONT_V k (w.offsets k) ≤ wf_aligner.pattern_length →
    ∃ n : Nat, w1.offsets k = w.offsets k + n ∧
      first_mismatch_at wf_aligner (WAVEFRONT_V k (w.offsets k)) (WAVEFRONT_H k (w.offsets k)) n

/-- The custom predicate of the aligner is byte equality `pattern[v] == text[h]`
wherever both indices lie inside the buffers. -/
def is_byte_equality (wf_aligner : wavefront_aligner_t) : Prop :=
  ∀ (v h : Nat) (a b : uint8_t), wf_aligner.pattern[v]? = some a →
    wf_aligner.text[h]? = some b → wf_aligner.match_funct v h = decide (a = b)

/-- One call of the extension engine, packed or custom, on the M-wavefront of
slot `score_mod`, with any score and flags, that returns. -/
def extension_call (score_mod : Int) (al al1 : wavefront_aligner_t) : Prop :=
  (∃ score endsfree compute_max ret,
    wavefront_extend_matches_packed al score score_mod endsfree compute_max = some (al1, ret)) ∨
  (∃ fuel score endsfree ret,
    wavefront_extend_matches_custom fuel al score score_mod endsfree = some (al1, ret))

/-- The aligner state left by a call of the packed extension (the entry state
when the call does not return). -/
def after_packed (al : wavefront_aligner_t) (score score_mod : Int)
    (endsfree compute_max : Bool) : wavefront_aligner_t :=
  ((wavefront_extend_matches_packed al score score_mod endsfree compute_max).getD (al, 0)).1

/-- The aligner state left by a call of the custom extension (the entry state
when the call does not return). -/
def after_custom (fuel : Nat) (al : wavefront_aligner_t) (score score_mod : Int)
    (endsfree : Bool) : wavefront_aligner_t :=
  ((wavefront_extend_matches_custom fuel al score score_mod endsfree).getD (al, false)).1

/-- The diagonal an entry of the log is about, if any. -/
def event_diagonal : engine_event → Option Int
  | engine_event.block_compare k => some k
  | engine_event.match_call k _ _ => some k
  | engine_event.endsfree_check k _ => some k
  | engine_event.end2end_check => none
  | engine_event.heuristic_cutoff _ => none

/-- The comparison of one diagonal by the custom extension. -/
def custom_diagonal (fuel : Nat) (wf_aligner : wavefront_aligner_t) (k offset : Int) :
    Option Int :=
  scan_custom wf_aligner.match_funct fuel (WAVEFRONT_V k offset) (WAVEFRONT_H k offset) offset

/-- The shape the loops of the packed and of the custom extension share, with
`scan k offset` standing for the comparison of one diagonal: `packed_loop_shape`
and `custom_loop_shape` show that both loops are instances of it.  As in
`packed_loop` the antidiagonal is the value of the 32-bit variable
`antidiag`. -/
def extend_loop (scan : Int → Int → Option Int) (score : Int) (endsfree compute_max : Bool) :
    Nat → Int → wavefront_aligner_t → wavefront_t → Int →
      Option (wavefront_aligner_t × wavefront_t × Int × Bool)
  | 0, _, wf_aligner, mwavefront, max_antidiag =>
    some (wf_aligner, mwavefront, max_antidiag, false)
  | n + 1, k, wf_aligner, mwavefront, max_antidiag =>
    if mwavefront.offsets k = WAVEFRONT_OFFSET_NULL then
      extend_loop scan score endsfree compute_max n (k + 1) wf_aligner mwavefront max_antidiag
    else
      match scan k (mwavefront.offsets k) with
      | none => none
      | some offset =>
        let mwavefront1 : wavefront_t :=
          { mwavefront with offsets := Function.update mwavefront.offsets k offset }
        let max_antidiag1 :=
          if compute_max ∧
              max_antidiag < wf_offset_wrap (WAVEFRONT_ANTIDIAGONAL k offset) then
            wf_offset_wrap (WAVEFRONT_ANTIDIAGONAL k offset)
          else max_antidiag
        if endsfree then
          let check :=
            wavefront_extend_endsfree_check_termination wf_aligner mwavefront1 score k offset
          if check.2 then some (check.1, mwavefront1, max_antidiag1, true)
          else
            extend_loop scan score endsfree compute_max n (k + 1) check.1 mwavefront1 max_antidiag1
        else
          extend_loop scan score endsfree compute_max n (k + 1) wf_aligner mwavefront1 max_antidiag1

/-- The outcome of an ends-free scan of wavefront `mw` that leaves wavefront
`mw1` and aligner `al1`, with `scan k offset` the comparison of one diagonal.
When the scan reports done there is a diagonal `k` of `[lo,hi]`, active on
entry, such that the end position is `{score, k, extended offset of k}`, the
extended offset of `k` passes the ends-free check, every active diagonal below
`k` has been extended and does not pass the check, and every diagonal above `k`
holds its entry offset.  When it reports not-done the end position is as on
entry, and every active diagonal of `[lo,hi]` has been extended and does not
pass the check. -/
def endsfree_exit (scan : Int → Int → Option Int) (al : wavefront_aligner_t) (score : Int)
    (mw mw1 : wavefront_t) (al1 : wavefront_aligner_t) (done : Bool) : Prop :=
  (done = true →
    ∃ k, mw.lo ≤ k ∧ k ≤ mw.hi ∧ mw.offsets k ≠ WAVEFRONT_OFFSET_NULL ∧
      scan k (mw.offsets k) = some (mw1.offsets k) ∧
      (wavefront_extend_endsfree_check_termination al mw score k (mw1.offsets k)).2 = true ∧
      al1.alignment_end_pos = ⟨score, k, mw1.offsets k⟩ ∧
      (∀ j, mw.lo ≤ j → j < k → mw.offsets j ≠ WAVEFRONT_OFFSET_NULL →
        scan j (mw.offsets j) = some (mw1.offsets j) ∧
        (wavefront_extend_endsfree_check_termination al mw score j (mw1.offsets j)).2 = false) ∧
      ∀ j, k < j → mw1.offsets j = mw.offsets j) ∧
  (done = false →
    al1.alignment_end_pos = al.alignment_end_pos ∧
    ∀ j, mw.lo ≤ j → j ≤ mw.hi → mw.offsets j ≠ WAVEFRONT_OFFSET_NULL →
      scan j (mw.offsets j) = some (mw1.offsets j) ∧
      (wavefront_extend_endsfree_check_termination al mw score j (mw1.offsets j)).2 = false)

/-- The slot of the M-wavefront table that the orchestrators pass to the
extension: the expression `(memory_modular) ? score % max_score_scope : score`
of the source, with the remainder of C (truncated division). -/
def resolved_slot (wf_aligner : wavefront_aligner_t) (score : Int) : Int :=
  if wf_aligner.wf_components.memory_modular then
    Int.tmod score wf_aligner.wf_components.max_score_scope
  else score

/-- The slot of a score by the rule "the score modulo the scope under modular
memory, the score itself otherwise", with the mathematical remainder. -/
def score_slot (wf_aligner : wavefront_aligner_t) (score : Int) : Int :=
  if wf_aligner.wf_components.memory_modular then
    score % wf_aligner.wf_components.max_score_scope
  else score

/-- What an orchestrator makes of the outcome of the extension.  The extension
left aligner `al1`, reported `done` and logged `log`; `out` is the outcome of
the orchestrator called on aligner `al` with `score`.  The extension has not
written the status and has not consulted the cutoff.  When the extension reports
done, the status is set to successful, 1 is returned and nothing is added to
the log.  Otherwise, when the strategy is not "none", the cutoff is consulted
once, after the extension: dropped gives the status dropped on the state the
cutoff left and the return value 1, not-dropped gives the state the cutoff left
and the return value 0.  When the strategy is "none" the state of the extension
is returned with the value 0 and the cutoff is not consulted. -/
def orchestrator_contract
    (cutoff : wavefront_aligner_t → Int → wavefront_aligner_t × Bool)
    (al : wavefront_aligner_t) (score : Int) (al1 : wavefront_aligner_t) (done : Bool)
    (log : List engine_event)
    (out : Option (wavefront_aligner_t × Int × List engine_event)) : Prop :=
  al1.align_status = al.align_status ∧
  (∀ e ∈ log, ∀ s, e ≠ heuristic_cutoff s) ∧
  (done = true →
    out = some ({ al1 with align_status := wf_status_t.WF_STATUS_SUCCESSFUL }, 1, log)) ∧
  (done = false → al.heuristic ≠ wf_heuristic_strategy.wf_heuristic_none →
    (cutoff al1 score).2 = true →
    out = some ({ (cutoff al1 score).1 with
        align_status := wf_status_t.WF_STATUS_HEURISTICALY_DROPPED }, 1,
      log ++ [heuristic_cutoff score])) ∧
  (done = false → al.heuristic ≠ wf_heuristic_strategy.wf_heuristic_none →
    (cutoff al1 score).2 = false →
    out = some ((cutoff al1 score).1, 0, log ++ [heuristic_cutoff score])) ∧
  (done = false → al.heuristic = wf_heuristic_strategy.wf_heuristic_none →
    out = some (al1, 0, log))

/-- The offsets of `al1` are those of `al` except for the M-wavefront of slot
`slot`: the offsets of every M-wavefront stored at another slot and of every I-
and D-wavefront are as in `al`. -/
def offsets_kept_outside (slot : Int) (al al1 : wavefront_aligner_t) : Prop :=
  (∀ s, s ≠ slot →
    (al1.wf_components.mwavefronts s).map wavefront_t.offsets =
      (al.wf_components.mwavefronts s).map wavefront_t.offsets) ∧
  (∀ s, (al1.wf_components.i1wavefronts s).map wavefront_t.offsets =
      (al.wf_components.i1wavefronts s).map wavefront_t.offsets) ∧
  (∀ s, (al1.wf_components.d1wavefronts s).map wavefront_t.offsets =
      (al.wf_components.d1wavefronts s).map wavefront_t.offsets)

/-- The value `m` is the maximum of `WAVEFRONT_ANTIDIAGONAL k (offsets k)` over
the active diagonals `k` of `[lo,hi]` of wavefront `w`: it is attained by one of
them and bounds them all. -/
def is_max_antidiagonal (w : wavefront_t) (m : Int) : Prop :=
  (∃ k, w.lo ≤ k ∧ k ≤ w.hi ∧ w.offsets k ≠ WAVEFRONT_OFFSET_NULL ∧
    m = WAVEFRONT_ANTIDIAGONAL k (w.offsets k)) ∧
  ∀ k, w.lo ≤ k → k ≤ w.hi → w.offsets k ≠ WAVEFRONT_OFFSET_NULL →
    WAVEFRONT_ANTIDIAGONAL k (w.offsets k) ≤ m

/-- What an orchestrator called on `al` with `score` makes of the outcome of the
extension on slot `slot` (state `al1`, verdict `done`, log `log`), with `out`
the outcome of the orchestrator: the steps of `orchestrator_contract`; on done
the end position of the extension and of the orchestrator holds `score`; and
the state the orchestrator returns keeps the offsets outside the M-wavefront of
the slot when the cutoff is not consulted (done, or strategy "none") or when the
cutoff keeps them on the state it is given. -/
def slot_outcome (cutoff : wavefront_aligner_t → Int → wavefront_aligner_t × Bool)
    (al : wavefront_aligner_t) (score slot : Int) (al1 : wavefront_aligner_t) (done : Bool)
    (log : List engine_event)
    (out : Option (wavefront_aligner_t × Int × List engine_event)) : Prop :=
  orchestrator_contract cutoff al score al1 done log out ∧
  (done = true → al1.alignment_end_pos.score = score) ∧
  ∃ res, out = some res ∧
    (done = true → res.1.alignment_end_pos.score = score) ∧
    ((done = true ∨ al.heuristic = wf_heuristic_strategy.wf_heuristic_none ∨
        offsets_kept_outside slot al1 (cutoff al1 score).1) →
      offsets_kept_outside slot al res.1)

/-! ## The termination checks -/

/-- The three tests of one branch of the end-to-end check amount to
`corner_reached`. -/
theorem end2end_wavefront_check (al : wavefront_aligner_t) (w : wavefront_t) (score : Int) :
    (if w.lo > DPMATRIX_DIAGONAL al.text_length al.pattern_length ∨
          DPMATRIX_DIAGONAL al.text_length al.pattern_length > w.hi then (al, false)
      else if w.offsets (DPMATRIX_DIAGONAL al.text_length al.pattern_length) <
          DPMATRIX_OFFSET al.text_length al.pattern_length then (al, false)
      else ({ al with alignment_end_pos :=
            ⟨score, DPMATRIX_DIAGONAL al.text_length al.pattern_length,
              DPMATRIX_OFFSET al.text_length al.pattern_length⟩ }, true)) =
      if corner_reached al w then
        ({ al with alignment_end_pos :=
            ⟨score, DPMATRIX_DIAGONAL al.text_length al.pattern_length,
              DPMATRIX_OFFSET al.text_length al.pattern_length⟩ }, true)
      else (al, false) := by
  unfold corner_reached
  by_cases h1 : w.lo > DPMATRIX_DIAGONAL al.text_length al.pattern_length
  · rw [if_pos (Or.inl h1), if_neg (by omega)]
  by_cases h2 : DPMATRIX_DIAGONAL al.text_length al.pattern_length > w.hi
  · rw [if_pos (Or.inr h2), if_neg (by omega)]
  rw [if_neg (not_or.mpr ⟨h1, h2⟩)]
  by_cases h3 : w.offsets (DPMATRIX_DIAGONAL al.text_length al.pattern_length) <
          DPMATRIX_OFFSET al.text_length al.pattern_length
  · rw [if_pos h3, if_neg (by omega)]
  · rw [if_neg h3, if_pos ⟨by omega, by omega, by omega⟩]

/-- The end-to-end check in closed form. -/
theorem end2end_check_spec (al : wavefront_aligner_t) (mw : wavefront_t)
    (score score_mod : Int) :
    wavefront_extend_end2end_check_termination al mw score score_mod =
      if ∃ w, required_wavefront al mw score_mod = some w ∧ corner_reached al w then
        ({ al with alignment_end_pos :=
            ⟨score, DPMATRIX_DIAGONAL al.text_length al.pattern_length,
              DPMATRIX_OFFSET al.text_length al.pattern_length⟩ }, true)
      else (al, false) := by
  unfold wavefront_extend_end2end_check_termination required_wavefront
  simp only []
  split
  · rw [end2end_wavefront_check]; simp
  · split
    · rename_i h; simp [h]
    · rename_i w h; rw [end2end_wavefront_check]; simp [h]
  · split
    · rename_i h; simp [h]
    · rename_i w h; rw [end2end_wavefront_check]; simp [h]

/-- The ends-free check in closed form. -/
theorem endsfree_check_spec (al : wavefront_aligner_t) (mw : wavefront_t)
    (score k offset : Int) :
    wavefront_extend_endsfree_check_termination al mw score k offset =
      if (WAVEFRONT_H k offset ≥ al.text_length ∧
            al.pattern_length - WAVEFRONT_V k offset ≤ al.alignment_form.pattern_end_free) ∨
          (WAVEFRONT_V k offset ≥ al.pattern_length ∧
            al.text_length - WAVEFRONT_H k offset ≤ al.alignment_form.text_end_free) then
        ({ al with alignment_end_pos := ⟨score, k, offset⟩ }, true)
      else (al, false) := by
  unfold wavefront_extend_endsfree_check_termination
  simp only []
  split_ifs with h1 h2 h3 h4 h5 <;> first | rfl | (exfalso; tauto)

/-- The verdict of the end-to-end check. -/
theorem end2end_check_verdict (al : wavefront_aligner_t) (mw : wavefront_t)
    (score score_mod : Int) :
    (wavefront_extend_end2end_check_termination al mw score score_mod).2 = true ↔
      ∃ w, required_wavefront al mw score_mod = some w ∧ corner_reached al w := by
  rw [end2end_check_spec]
  by_cases h : ∃ w, required_wavefront al mw score_mod = some w ∧ corner_reached al w
  · simp only [if_pos h]; simp [h]
  · simp only [if_neg h]; simp [h]

/-- C4: the end-to-end check returns true exactly when the wavefront of the
required ending component (the given M-wavefront for M, the I or D wavefront of
the score slot otherwise) is present and has reached the corner; the end
position is then `{score, k*, offset*}`, and is left as it was on a negative
verdict. -/
theorem end2end_check_component_dispatch (al : wavefront_aligner_t) (mw : wavefront_t)
    (score score_mod : Int) :
    ((wavefront_extend_end2end_check_termination al mw score score_mod).2 = true ↔
      ∃ w, required_wavefront al mw score_mod = some w ∧ corner_reached al w) ∧
    (wavefront_extend_end2end_check_termination al mw score score_mod).1.alignment_end_pos =
      if (wavefront_extend_end2end_check_termination al mw score score_mod).2 then
        ⟨score, DPMATRIX_DIAGONAL al.text_length al.pattern_length,
          DPMATRIX_OFFSET al.text_length al.pattern_length⟩
      else al.alignment_end_pos := by
  rw [end2end_check_spec]
  by_cases h : ∃ w, required_wavefront al mw score_mod = some w ∧ corner_reached al w
  · simp only [if_pos h]; simp [h]
  · simp only [if_neg h]; simp [h]

/-- C5, counterexample: the alignment has to end in I, no I-wavefront is stored,
and the M-wavefront has reached the corner `(k*,offset*) = (0,8)`: the
end-to-end check returns false. -/
theorem end2end_check_not_mwavefront_only :
    corner_reached
        (scenario "ACGTACGT" "ACGTACGT" affine_matrix_I ⟨alignment_end2end, 0, 0⟩
          (wavefront_of 0 0 [(0, 8)]))
        (wavefront_of 0 0 [(0, 8)]) ∧
      (wavefront_extend_end2end_check_termination
        (scenario "ACGTACGT" "ACGTACGT" affine_matrix_I ⟨alignment_end2end, 0, 0⟩
          (wavefront_of 0 0 [(0, 8)]))
        (wavefront_of 0 0 [(0, 8)]) 0 0).2 = false := by
  decide

/-- C5, amended: when the alignment is required to end in M, the end-to-end
check returns true exactly when the corner diagonal is active in the
M-wavefront and its offset has reached or passed the corner offset. -/
theorem end2end_check_corner_arrival (al : wavefront_aligner_t) (mw : wavefront_t)
    (score score_mod : Int) (hM : al.component_end = affine_matrix_M) :
    (wavefront_extend_end2end_check_termination al mw score score_mod).2 = true ↔
      (mw.lo ≤ DPMATRIX_DIAGONAL al.text_length al.pattern_length ∧
        DPMATRIX_DIAGONAL al.text_length al.pattern_length ≤ mw.hi ∧
        mw.offsets (DPMATRIX_DIAGONAL al.text_length al.pattern_length) ≥
          DPMATRIX_OFFSET al.text_length al.pattern_length) := by
  rw [(end2end_check_verdict al mw score score_mod)]
  simp [required_wavefront, hM, corner_reached]

/-- C5, witness: pattern = text = "ACGTACGT", alignment ending in M, corner
`(k*,offset*) = (0,8)`: the check is true on an M-wavefront with offset 8 on
diagonal 0. -/
theorem end2end_check_corner_arrival_witness :
    (wavefront_extend_end2end_check_termination
        (scenario "ACGTACGT" "ACGTACGT" affine_matrix_M ⟨alignment_end2end, 0, 0⟩
          (wavefront_of 0 0 [(0, 8)]))
        (wavefront_of 0 0 [(0, 8)]) 0 0).2 = true :=
  (end2end_check_corner_arrival
    (scenario "ACGTACGT" "ACGTACGT" affine_matrix_M ⟨alignment_end2end, 0, 0⟩
      (wavefront_of 0 0 [(0, 8)]))
    (wavefront_of 0 0 [(0, 8)]) 0 0 rfl).mpr (by decide)

/-- C6: the ends-free check returns true exactly when the text is consumed and
the pattern left over is within the pattern slack, or the pattern is consumed
and the text left over is within the text slack; the end position is then
`{score, k, offset}`, and is left as it was on a negative verdict. -/
theorem endsfree_check_characterisation (al : wavefront_aligner_t) (mw : wavefront_t)
    (score k offset : Int) :
    ((wavefront_extend_endsfree_check_termination al mw score k offset).2 = true ↔
      (WAVEFRONT_H k offset ≥ al.text_length ∧
          al.pattern_length - WAVEFRONT_V k offset ≤ al.alignment_form.pattern_end_free) ∨
        (WAVEFRONT_V k offset ≥ al.pattern_length ∧
          al.text_length - WAVEFRONT_H k offset ≤ al.alignment_form.text_end_free)) ∧
    (wavefront_extend_endsfree_check_termination al mw score k offset).1.alignment_end_pos =
      if (wavefront_extend_endsfree_check_termination al mw score k offset).2 then
        ⟨score, k, offset⟩
      else al.alignment_end_pos := by
  rw [endsfree_check_spec]
  by_cases h : (WAVEFRONT_H k offset ≥ al.text_length ∧
          al.pattern_length - WAVEFRONT_V k offset ≤ al.alignment_form.pattern_end_free) ∨
        (WAVEFRONT_V k offset ≥ al.pattern_length ∧
          al.text_length - WAVEFRONT_H k offset ≤ al.alignment_form.text_end_free)
  · simp only [if_pos h]
    exact ⟨⟨fun _ => h, fun _ => trivial⟩, by simp⟩
  · simp only [if_neg h]
    exact ⟨⟨fun hf => by simp at hf, fun hc => absurd hc h⟩, by simp⟩

/-- C7: with a non-negative pattern slack (the text slack plays no part) and
the text index equal to the text length, the ends-free check returns true when
the pattern left over equals the pattern slack, and false when it is the slack
plus one. -/
theorem endsfree_boundary_inclusive (al : wavefront_aligner_t) (mw : wavefront_t)
    (score k offset : Int) (hp : 0 ≤ al.alignment_form.pattern_end_free)
    (hh : WAVEFRONT_H k offset = al.text_length) :
    (al.pattern_length - WAVEFRONT_V k offset = al.alignment_form.pattern_end_free →
      (wavefront_extend_endsfree_check_termination al mw score k offset).2 = true) ∧
    (al.pattern_length - WAVEFRONT_V k offset = al.alignment_form.pattern_end_free + 1 →
      (wavefront_extend_endsfree_check_termination al mw score k offset).2 = false) := by
  rw [endsfree_check_spec]
  constructor
  · intro h
    rw [if_pos (Or.inl ⟨by omega, by omega⟩)]
  · intro h
    rw [if_neg]
    rintro (⟨-, h2⟩ | ⟨h2, -⟩) <;> omega

/-- C7, witness: text "ACGT", pattern "ACGTXX", diagonal 0 at offset 4, so that
the text index is 4 and 2 pattern symbols are left: true with slack 2, false
with slack 1. -/
theorem endsfree_boundary_inclusive_witness :
    (wavefront_extend_endsfree_check_termination
        (scenario "ACGTXX" "ACGT" affine_matrix_M ⟨alignment_endsfree, 2, 0⟩
          (wavefront_of 0 0 [(0, 4)]))
        (wavefront_of 0 0 [(0, 4)]) 0 0 4).2 = true ∧
      (wavefront_extend_endsfree_check_termination
        (scenario "ACGTXX" "ACGT" affine_matrix_M ⟨alignment_endsfree, 1, 0⟩
          (wavefront_of 0 0 [(0, 4)]))
        (wavefront_of 0 0 [(0, 4)]) 0 0 4).2 = false :=
  ⟨(endsfree_boundary_inclusive _ _ 0 0 4 (by decide) (by decide)).1 (by decide),
    (endsfree_boundary_inclusive _ _ 0 0 4 (by decide) (by decide)).2 (by decide)⟩

/-- C9: either termination check leaves the aligner as it was when it returns
false, and changes nothing but the alignment end position when it returns
true. -/
theorem termination_checks_frame (al : wavefront_aligner_t) (mw : wavefront_t)
    (score score_mod k offset : Int) :
    (wavefront_extend_end2end_check_termination al mw score score_mod).1 =
        (if (wavefront_extend_end2end_check_termination al mw score score_mod).2 then
          { al with alignment_end_pos :=
              (wavefront_extend_end2end_check_termination al mw score
                score_mod).1.alignment_end_pos }
        else al) ∧
      (wavefront_extend_endsfree_check_termination al mw score k offset).1 =
        (if (wavefront_extend_endsfree_check_termination al mw score k offset).2 then
          { al with alignment_end_pos :=
              (wavefront_extend_endsfree_check_termination al mw score k
                offset).1.alignment_end_pos }
        else al) := by
  rw [end2end_check_spec, endsfree_check_spec]
  constructor
  · by_cases h : ∃ w, required_wavefront al mw score_mod = some w ∧ corner_reached al w
    · simp only [if_pos h]; simp
    · simp only [if_neg h]; simp
  · by_cases h : (WAVEFRONT_H k offset ≥ al.text_length ∧
          al.pattern_length - WAVEFRONT_V k offset ≤ al.alignment_form.pattern_end_free) ∨
        (WAVEFRONT_V k offset ≥ al.pattern_length ∧
          al.text_length - WAVEFRONT_H k offset ≤ al.alignment_form.text_end_free)
    · simp only [if_pos h]; simp
    · simp only [if_neg h]; simp

/-! ## The block comparison -/

theorem xor_low_high (a b x y : Nat) (ha : a < 256) (hb : b < 256) :
    (a + 256 * x) ^^^ (b + 256 * y) = (a ^^^ b) + 256 * (x ^^^ y) := by
  have hab : a ^^^ b < 2 ^ 8 := Nat.xor_lt_two_pow (by omega) (by omega)
  apply Nat.eq_of_testBit_eq
  intro i
  have e1 : a + 256 * x = 2 ^ 8 * x + a := by omega
  have e2 : b + 256 * y = 2 ^ 8 * y + b := by omega
  have e3 : (a ^^^ b) + 256 * (x ^^^ y) = 2 ^ 8 * (x ^^^ y) + (a ^^^ b) := by omega
  rw [e1, e2, e3, Nat.testBit_xor, Nat.testBit_mul_pow_two_add x (by omega : a < 2 ^ 8),
    Nat.testBit_mul_pow_two_add y (by omega : b < 2 ^ 8), Nat.testBit_mul_pow_two_add _ hab]
  split_ifs <;> simp [Nat.testBit_xor]

/-- Trailing zeros of a word whose low `j` bits are zero: `j` more than those of
the remaining bits. -/
theorem ctz_aux_high (j : Nat) : ∀ f y, ctz_aux (f + j) (2 ^ j * y) = j + ctz_aux f y := by
  induction j with
  | zero => intro f y; simp
  | succ j ih =>
    intro f y
    have e : f + (j + 1) = (f + j) + 1 := by omega
    have h2 : 2 ^ (j + 1) * y = 2 * (2 ^ j * y) := by rw [pow_succ]; ring
    rw [e, ctz_aux, h2, if_neg (by omega), Nat.mul_div_cancel_left _ (by omega : 0 < 2), ih]
    omega

/-- A word whose low `j` bits are not all zero has fewer than `j` trailing
zeros. -/
theorem ctz_aux_low (j : Nat) :
    ∀ f x y, 0 < x → x < 2 ^ j → ctz_aux (f + j) (x + 2 ^ j * y) < j := by
  induction j with
  | zero => intro f x y h0 h1; simp at h1; omega
  | succ j ih =>
    intro f x y h0 h1
    have e : f + (j + 1) = (f + j) + 1 := by omega
    have h2 : 2 ^ (j + 1) * y = 2 * (2 ^ j * y) := by rw [pow_succ]; ring
    rw [e, ctz_aux, h2]
    split_ifs with hodd
    · omega
    · have h3 : (x + 2 * (2 ^ j * y)) / 2 = x / 2 + 2 ^ j * y := by omega
      rw [h3]
      have h4 : 2 ^ (j + 1) = 2 * 2 ^ j := by rw [pow_succ]; ring
      have := ih f (x / 2) y (by omega) (by omega)
      omega

/-- Byte lists of one length with the same little-endian value are equal. -/
theorem le_word_inj : ∀ l1 l2 : List uint8_t, l1.length = l2.length →
    le_word l1 = le_word l2 → l1 = l2
  | [], [], _, _ => rfl
  | [], _ :: _, h, _ => by simp at h
  | _ :: _, [], h, _ => by simp at h
  | a :: l1, b :: l2, h, hw => by
    simp only [le_word] at hw
    have ha := a.isLt
    have hb := b.isLt
    have h1 : a.val = b.val := by omega
    have h2 : le_word l1 = le_word l2 := by omega
    rw [Fin.ext h1, le_word_inj l1 l2 (by simpa using h) h2]

/-- The block scanner: for two unequal blocks of one length, the trailing-zero
count of the exclusive-or of their words, divided by 8, is the number of
leading bytes on which they agree, and that number is below the block
length. -/
theorem block_mismatch : ∀ l1 l2 : List uint8_t, l1.length = l2.length → l1 ≠ l2 →
    ∀ f, ctz_aux (f + 8 * l1.length) (le_word l1 ^^^ le_word l2) / 8 = lcp_length l1 l2 ∧
      lcp_length l1 l2 < l1.length
  | [], [], _, h => by simp at h
  | [], _ :: _, h, _ => by simp at h
  | _ :: _, [], h, _ => by simp at h
  | a :: l1, b :: l2, h, hne => by
    intro f
    have ha := a.isLt
    have hb := b.isLt
    simp only [le_word, lcp_length, List.length_cons]
    rw [xor_low_high _ _ _ _ ha hb]
    have e : f + 8 * (l1.length + 1) = (f + 8 * l1.length) + 8 := by omega
    rw [e]
    by_cases hab : a = b
    · subst hab
      have hne2 : l1 ≠ l2 := fun hl => hne (by rw [hl])
      have ih := block_mismatch l1 l2 (by simpa using h) hne2 f
      rw [Nat.xor_self, Nat.zero_add, if_pos rfl]
      have := ctz_aux_high 8 (f + 8 * l1.length) (le_word l1 ^^^ le_word l2)
      rw [show (2:Nat) ^ 8 = 256 by norm_num] at this
      rw [this]
      omega
    · rw [if_neg hab]
      have hx : 0 < a.val ^^^ b.val := by
        rcases Nat.eq_zero_or_pos (a.val ^^^ b.val) with h0 | h0
        · exact absurd (Fin.ext (Nat.xor_eq_zero.mp h0)) hab
        · exact h0
      have hx2 : a.val ^^^ b.val < 2 ^ 8 := Nat.xor_lt_two_pow (by omega) (by omega)
      have := ctz_aux_low 8 (f + 8 * l1.length) _ (le_word l1 ^^^ le_word l2) hx hx2
      rw [show (2:Nat) ^ 8 = 256 by norm_num] at this
      omega

/-- The common run of two non-empty lists. -/
theorem lcp_cons (a b : uint8_t) (l1 l2 : List uint8_t) :
    lcp_length (a :: l1) (b :: l2) = if a = b then 1 + lcp_length l1 l2 else 0 := by
  rw [lcp_length]

/-- A shared block in front adds its length to the common run. -/
theorem lcp_append_same : ∀ (A X Y : List uint8_t),
    lcp_length (A ++ X) (A ++ Y) = A.length + lcp_length X Y
  | [], X, Y => by simp
  | a :: A, X, Y => by
    rw [List.cons_append, List.cons_append, lcp_cons, if_pos rfl, lcp_append_same A X Y,
      List.length_cons]
    omega

/-- Behind two unequal blocks of one length, nothing adds to the common run. -/
theorem lcp_append_ne : ∀ (A B X Y : List uint8_t), A.length = B.length → A ≠ B →
    lcp_length (A ++ X) (B ++ Y) = lcp_length A B
  | [], [], _, _, _, h => by simp at h
  | [], _ :: _, _, _, h, _ => by simp at h
  | _ :: _, [], _, _, h, _ => by simp at h
  | a :: A, b :: B, X, Y, h, hne => by
    rw [List.cons_append, List.cons_append, lcp_cons, lcp_cons]
    by_cases hab : a = b
    · subst hab
      rw [if_pos rfl, if_pos rfl,
        lcp_append_ne A B X Y (by simpa using h) (fun hl => hne (by rw [hl]))]
    · rw [if_neg hab, if_neg hab]

/-- Inside the common run the two lists hold the same byte. -/
theorem lcp_getElem : ∀ (X Y : List uint8_t) (i : Nat), i < lcp_length X Y →
    ∃ a, X[i]? = some a ∧ Y[i]? = some a
  | [], _, i, h => by simp [lcp_length] at h
  | _ :: _, [], i, h => by simp [lcp_length] at h
  | a :: X, b :: Y, i, h => by
    simp only [lcp_length] at h
    by_cases hab : a = b
    · subst hab
      rw [if_pos rfl] at h
      cases i with
      | zero => exact ⟨a, by simp⟩
      | succ i =>
        obtain ⟨c, h1, h2⟩ := lcp_getElem X Y i (by omega)
        exact ⟨c, by simpa using h1, by simpa using h2⟩
    · rw [if_neg hab] at h; omega

/-- Right after the common run, when both lists go on, they differ. -/
theorem lcp_stop : ∀ (X Y : List uint8_t), lcp_length X Y < X.length →
    lcp_length X Y < Y.length →
    ∃ a b, X[lcp_length X Y]? = some a ∧ Y[lcp_length X Y]? = some b ∧ a ≠ b
  | [], _, h, _ => by simp at h
  | _ :: _, [], _, h => by simp at h
  | a :: X, b :: Y, h1, h2 => by
    simp only [lcp_length] at h1 h2 ⊢
    by_cases hab : a = b
    · subst hab
      rw [if_pos rfl] at h1 h2 ⊢
      simp only [List.length_cons] at h1 h2
      obtain ⟨c, d, h3, h4, h5⟩ := lcp_stop X Y (by omega) (by omega)
      refine ⟨c, d, ?_, ?_, h5⟩
      · rw [Nat.add_comm]; simpa using h3
      · rw [Nat.add_comm]; simpa using h4
    · rw [if_neg hab]
      exact ⟨a, b, by simp, by simp, hab⟩

/-- The common run ends at the latest where the two lists differ. -/
theorem lcp_le_of_ne : ∀ (X Y : List uint8_t) (j : Nat) (a b : uint8_t),
    X[j]? = some a → Y[j]? = some b → a ≠ b → lcp_length X Y ≤ j
  | [], _, j, _, _, _, _, _ => by simp [lcp_length]
  | _ :: _, [], j, _, _, _, _, _ => by simp [lcp_length]
  | x :: X, y :: Y, j, a, b, h1, h2, hne => by
    simp only [lcp_length]
    by_cases hxy : x = y
    · subst hxy
      rw [if_pos rfl]
      cases j with
      | zero =>
        simp at h1 h2
        exact absurd (h1.symm.trans h2) hne
      | succ j =>
        have := lcp_le_of_ne X Y j a b (by simpa using h1) (by simpa using h2) hne
        omega
    · rw [if_neg hxy]; omega

/-- The common run is no longer than the first list. -/
theorem lcp_le_left : ∀ (X Y : List uint8_t), lcp_length X Y ≤ X.length
  | [], _ => by simp [lcp_length]
  | _ :: _, [] => by simp [lcp_length]
  | x :: X, y :: Y => by
    simp only [lcp_length, List.length_cons]
    split_ifs
    · have := lcp_le_left X Y; omega
    · omega

/-- The block read at a natural index. -/
theorem load_block_nat (buffer : List uint8_t) (i : Nat) :
    load_block buffer i =
      if i + 8 ≤ buffer.length then some (le_word ((buffer.drop i).take 8)) else none := by
  simp [load_block]

/-- No block can be read at a negative index. -/
theorem load_block_neg (buffer : List uint8_t) (i : Int) (h : i < 0) :
    load_block buffer i = none := by
  simp [load_block]; omega

/-- One step of the block comparison when both blocks lie inside the buffers:
equal blocks move 8 bytes on, unequal blocks add their common run. -/
theorem scan_blocks_step (pattern text : List uint8_t) (fuel v h : Nat) (o : Int)
    (hv : v + 8 ≤ pattern.length) (hh : h + 8 ≤ text.length) :
    scan_blocks pattern text (fuel + 1) v h o =
      if (pattern.drop v).take 8 = (text.drop h).take 8 then
        scan_blocks pattern text fuel ((v + 8 : Nat) : Int) ((h + 8 : Nat) : Int) (o + 8)
      else some (o + (lcp_length ((pattern.drop v).take 8) ((text.drop h).take 8) : Nat)) := by
  have lA : ((pattern.drop v).take 8).length = 8 := by simp; omega
  have lB : ((text.drop h).take 8).length = 8 := by simp; omega
  rw [scan_blocks, load_block_nat, load_block_nat, if_pos hv, if_pos hh]
  simp only []
  by_cases hAB : (pattern.drop v).take 8 = (text.drop h).take 8
  · rw [if_pos hAB, hAB, Nat.xor_self, if_pos rfl]
    push_cast
    rfl
  · rw [if_neg hAB, if_neg]
    · have := (block_mismatch _ _ (lA.trans lB.symm) hAB 0).1
      rw [lA] at this
      simp only [__builtin_ctzl, DIV_FLOOR]
      norm_num at this
      rw [this]
    · intro h0
      exact hAB (le_word_inj _ _ (lA.trans lB.symm) (Nat.xor_eq_zero.mp h0))

/-- A buffer from `v` on is its block at `v` followed by the buffer from `v + 8`
on. -/
theorem drop_block (l : List uint8_t) (v : Nat) :
    l.drop v = (l.drop v).take 8 ++ l.drop (v + 8) := by
  have h : l.drop (v + 8) = (l.drop v).drop 8 := by
    rw [List.drop_drop, Nat.add_comm]
  rw [h, List.take_append_drop]

/-- The block comparison returns only from non-negative indices. -/
theorem scan_blocks_nonneg (pattern text : List uint8_t) (fuel : Nat) (v h o o1 : Int)
    (hs : scan_blocks pattern text fuel v h o = some o1) : 0 ≤ v ∧ 0 ≤ h := by
  cases fuel with
  | zero => simp [scan_blocks] at hs
  | succ fuel =>
    by_contra hneg
    rw [not_and_or, not_le, not_le] at hneg
    rw [scan_blocks] at hs
    rcases hneg with hneg | hneg
    · rw [load_block_neg _ _ hneg] at hs
      simp at hs
    · rw [load_block_neg text _ hneg] at hs
      cases hp : load_block pattern v <;> rw [hp] at hs <;> simp at hs

/-- Whenever the block comparison returns, it has added the length of the
common run of the two buffers from `v` and `h` on, and every block up to the
one holding the first mismatch lies inside the buffers. -/
theorem scan_blocks_result (pattern text : List uint8_t) :
    ∀ (fuel v h : Nat) (o o1 : Int), scan_blocks pattern text fuel v h o = some o1 →
      o1 = o + (lcp_length (pattern.drop v) (text.drop h) : Nat) ∧
      v + 8 * (lcp_length (pattern.drop v) (text.drop h) / 8) + 8 ≤ pattern.length ∧
      h + 8 * (lcp_length (pattern.drop v) (text.drop h) / 8) + 8 ≤ text.length := by
  intro fuel
  induction fuel with
  | zero => intro v h o o1 hs; simp [scan_blocks] at hs
  | succ fuel ih =>
    intro v h o o1 hs
    by_cases hv : v + 8 ≤ pattern.length
    · by_cases hh : h + 8 ≤ text.length
      · have lA : ((pattern.drop v).take 8).length = 8 := by simp; omega
        have lB : ((text.drop h).take 8).length = 8 := by simp; omega
        rw [scan_blocks_step _ _ _ _ _ _ hv hh] at hs
        have eL : lcp_length (pattern.drop v) (text.drop h) =
            lcp_length ((pattern.drop v).take 8 ++ pattern.drop (v + 8))
              ((text.drop h).take 8 ++ text.drop (h + 8)) := by
          rw [← drop_block, ← drop_block]
        by_cases hAB : (pattern.drop v).take 8 = (text.drop h).take 8
        · rw [if_pos hAB] at hs
          obtain ⟨h1, h2, h3⟩ := ih _ _ _ _ hs
          have eL2 : lcp_length (pattern.drop v) (text.drop h) =
              8 + lcp_length (pattern.drop (v + 8)) (text.drop (h + 8)) := by
            rw [eL, hAB, lcp_append_same, lB]
          rw [eL2]
          refine ⟨?_, ?_, ?_⟩
          · rw [h1]; push_cast; ring
          · omega
          · omega
        · rw [if_neg hAB] at hs
          have hlt := (block_mismatch _ _ (lA.trans lB.symm) hAB 0).2
          rw [lA] at hlt
          have eL2 : lcp_length (pattern.drop v) (text.drop h) =
              lcp_length ((pattern.drop v).take 8) ((text.drop h).take 8) := by
            rw [eL, lcp_append_ne _ _ _ _ (lA.trans lB.symm) hAB]
          rw [eL2]
          refine ⟨(Option.some.inj hs).symm, ?_, ?_⟩ <;> omega
      · rw [scan_blocks, load_block_nat text, if_neg hh] at hs
        cases hp : load_block pattern v <;> rw [hp] at hs <;> simp at hs
    · rw [scan_blocks, load_block_nat, if_neg hv] at hs
      simp at hs

/-- With fuel for every block of the common run, the block comparison returns
exactly when the blocks up to the one holding the first mismatch lie inside the
buffers, and then adds the length of the common run. -/
theorem scan_blocks_spec (pattern text : List uint8_t) :
    ∀ (fuel v h : Nat) (o : Int), lcp_length (pattern.drop v) (text.drop h) < 8 * fuel →
      scan_blocks pattern text fuel v h o =
        if v + 8 * (lcp_length (pattern.drop v) (text.drop h) / 8) + 8 ≤ pattern.length ∧
            h + 8 * (lcp_length (pattern.drop v) (text.drop h) / 8) + 8 ≤ text.length then
          some (o + (lcp_length (pattern.drop v) (text.drop h) : Nat))
        else none := by
  intro fuel
  induction fuel with
  | zero => intro v h o hf; omega
  | succ fuel ih =>
    intro v h o hf
    by_cases hv : v + 8 ≤ pattern.length
    · by_cases hh : h + 8 ≤ text.length
      · have lA : ((pattern.drop v).take 8).length = 8 := by simp; omega
        have lB : ((text.drop h).take 8).length = 8 := by simp; omega
        rw [scan_blocks_step _ _ _ _ _ _ hv hh]
        have eL : lcp_length (pattern.drop v) (text.drop h) =
            lcp_length ((pattern.drop v).take 8 ++ pattern.drop (v + 8))
              ((text.drop h).take 8 ++ text.drop (h + 8)) := by
          rw [← drop_block, ← drop_block]
        by_cases hAB : (pattern.drop v).take 8 = (text.drop h).take 8
        · have eL2 : lcp_length (pattern.drop v) (text.drop h) =
              8 + lcp_length (pattern.drop (v + 8)) (text.drop (h + 8)) := by
            rw [eL, hAB, lcp_append_same, lB]
          rw [if_pos hAB, ih _ _ _ (by omega), eL2]
          have e : (8 + lcp_length (pattern.drop (v + 8)) (text.drop (h + 8))) / 8 =
              1 + lcp_length (pattern.drop (v + 8)) (text.drop (h + 8)) / 8 := by omega
          rw [e]
          by_cases hc : v + 8 + 8 * (lcp_length (pattern.drop (v + 8)) (text.drop (h + 8)) / 8)
                + 8 ≤ pattern.length ∧
              h + 8 + 8 * (lcp_length (pattern.drop (v + 8)) (text.drop (h + 8)) / 8) + 8 ≤
                text.length
          · rw [if_pos hc, if_pos (by omega)]
            congr 1
            push_cast
            ring
          · rw [if_neg hc, if_neg (by omega)]
        · have hlt := (block_mismatch _ _ (lA.trans lB.symm) hAB 0).2
          rw [lA] at hlt
          have eL2 : lcp_length (pattern.drop v) (text.drop h) =
              lcp_length ((pattern.drop v).take 8) ((text.drop h).take 8) := by
            rw [eL, lcp_append_ne _ _ _ _ (lA.trans lB.symm) hAB]
          rw [if_neg hAB, eL2, if_pos (by omega)]
      · rw [scan_blocks, load_block_nat text, if_neg hh, if_neg (by omega)]
        cases hp : load_block pattern v <;> rfl
    · rw [scan_blocks, load_block_nat, if_neg hv, if_neg (by omega)]

/-! ## One diagonal of the packed extension -/

theorem lcp_le_right : ∀ (X Y : List uint8_t), lcp_length X Y ≤ Y.length
  | [], _ => by simp [lcp_length]
  | _ :: _, [] => by simp [lcp_length]
  | x :: X, y :: Y => by
    simp only [lcp_length, List.length_cons]
    split_ifs
    · have := lcp_le_right X Y; omega
    · omega

/-- Fuel beyond the length of the pattern buffer is never used up: the block
comparison gives the same result with any such fuel. -/
theorem scan_blocks_fuel (pattern text : List uint8_t) (fuel : Nat) (v h o : Int)
    (hf : pattern.length < fuel) :
    scan_blocks pattern text fuel v h o = scan_blocks pattern text (pattern.length + 1) v h o := by
  by_cases hv : 0 ≤ v
  · by_cases hh : 0 ≤ h
    · lift v to Nat using hv
      lift h to Nat using hh
      have hL := lcp_le_left (pattern.drop v) (text.drop h)
      rw [List.length_drop] at hL
      rw [scan_blocks_spec _ _ _ _ _ _ (by omega), scan_blocks_spec _ _ _ _ _ _ (by omega)]
    · have e1 : ∀ f, scan_blocks pattern text f v h o = none := by
        intro f
        cases hs : scan_blocks pattern text f v h o with
        | none => rfl
        | some o1 => exact absurd (scan_blocks_nonneg _ _ _ _ _ _ _ hs).2 hh
      rw [e1, e1]
  · have e1 : ∀ f, scan_blocks pattern text f v h o = none := by
      intro f
      cases hs : scan_blocks pattern text f v h o with
      | none => rfl
      | some o1 => exact absurd (scan_blocks_nonneg _ _ _ _ _ _ _ hs).1 hv
    rw [e1, e1]

/-- Whenever the packed comparison of a diagonal returns, the indices of the
diagonal are non-negative, the offset has grown by the common run of the two
buffers, and the first mismatch lies inside both buffers. -/
theorem packed_diagonal_result (al : wavefront_aligner_t) (k o o1 : Int)
    (hs : extend_packed_diagonal al k o = some o1) :
    0 ≤ WAVEFRONT_V k o ∧ 0 ≤ WAVEFRONT_H k o ∧ o1 = o + (diagonal_run al k o : Nat) ∧
      (WAVEFRONT_V k o).toNat + diagonal_run al k o < al.pattern.length ∧
      (WAVEFRONT_H k o).toNat + diagonal_run al k o < al.text.length := by
  unfold extend_packed_diagonal at hs
  obtain ⟨hv, hh⟩ := scan_blocks_nonneg _ _ _ _ _ _ _ hs
  obtain ⟨v, hv2⟩ := Int.eq_ofNat_of_zero_le hv
  obtain ⟨h, hh2⟩ := Int.eq_ofNat_of_zero_le hh
  rw [hv2, hh2] at hs
  obtain ⟨h1, h2, h3⟩ := scan_blocks_result _ _ _ _ _ _ _ hs
  unfold diagonal_run
  rw [hv2, hh2, Int.toNat_ofNat, Int.toNat_ofNat]
  refine ⟨by omega, by omega, h1, ?_, ?_⟩ <;> omega

/-- Under the padding contract each buffer goes on for 8 bytes past its logical
end. -/
theorem padding_lengths (al : wavefront_aligner_t) (ps ts : uint8_t)
    (hpad : padding_contract al ps ts) :
    al.pattern_length.toNat + 8 ≤ al.pattern.length ∧
      al.text_length.toNat + 8 ≤ al.text.length := by
  obtain ⟨_, _, hpp, htp, -⟩ := hpad
  constructor
  · by_contra hlt
    have h7 := hpp 7 (by omega)
    rw [List.getElem?_eq_none (by omega)] at h7
    cases h7
  · by_contra hlt
    have h7 := htp 7 (by omega)
    rw [List.getElem?_eq_none (by omega)] at h7
    cases h7

/-- Under the padding contract, the common run from in-bounds indices stops at
the logical end of either sequence at the latest. -/
theorem run_within_lengths (al : wavefront_aligner_t) (ps ts : uint8_t)
    (hpad : padding_contract al ps ts) (v h : Nat) (hv : v ≤ al.pattern_length.toNat)
    (hh : h ≤ al.text_length.toNat) :
    v + lcp_length (al.pattern.drop v) (al.text.drop h) ≤ al.pattern_length.toNat ∧
      h + lcp_length (al.pattern.drop v) (al.text.drop h) ≤ al.text_length.toNat := by
  obtain ⟨hpl, htl⟩ := padding_lengths al ps ts hpad
  obtain ⟨_, _, hpp, htp, hps, hts, hne⟩ := hpad
  by_cases hc : al.pattern_length.toNat - v ≤ al.text_length.toNat - h
  · -- the pattern sentinel is met first
    have hX : (al.pattern.drop v)[al.pattern_length.toNat - v]? = some ps := by
      rw [List.getElem?_drop, show v + (al.pattern_length.toNat - v) = al.pattern_length.toNat by omega]
      exact hpp 0 (by omega)
    have hlt : h + (al.pattern_length.toNat - v) < al.text.length := by omega
    have hY : (al.text.drop h)[al.pattern_length.toNat - v]? =
        some (al.text[h + (al.pattern_length.toNat - v)]) := by
      rw [List.getElem?_drop, List.getElem?_eq_getElem hlt]
    have hb : ps ≠ al.text[h + (al.pattern_length.toNat - v)] := by
      intro hb
      by_cases he : h + (al.pattern_length.toNat - v) < al.text_length.toNat
      · exact hts (h + (al.pattern_length.toNat - v)) he
          (by rw [List.getElem?_eq_getElem hlt, hb])
      · have heq : h + (al.pattern_length.toNat - v) = al.text_length.toNat + 0 := by omega
        have := htp 0 (by omega)
        rw [← heq, List.getElem?_eq_getElem hlt, ← hb] at this
        exact hne (Option.some.inj this)
    have := lcp_le_of_ne _ _ _ _ _ hX hY hb
    omega
  · have hY : (al.text.drop h)[al.text_length.toNat - h]? = some ts := by
      rw [List.getElem?_drop, show h + (al.text_length.toNat - h) = al.text_length.toNat by omega]
      exact htp 0 (by omega)
    have hlt : v + (al.text_length.toNat - h) < al.pattern.length := by omega
    have hX : (al.pattern.drop v)[al.text_length.toNat - h]? =
        some (al.pattern[v + (al.text_length.toNat - h)]) := by
      rw [List.getElem?_drop, List.getElem?_eq_getElem hlt]
    have hb : al.pattern[v + (al.text_length.toNat - h)] ≠ ts := by
      intro hb
      exact hps (v + (al.text_length.toNat - h)) (by omega)
        (by rw [List.getElem?_eq_getElem hlt, hb])
    have := lcp_le_of_ne _ _ _ _ _ hX hY hb
    omega

/-- Under the padding contract, the packed comparison of a diagonal with
in-bounds indices returns, adds the common run, and stays in bounds. -/
theorem packed_diagonal_padded (al : wavefront_aligner_t) (ps ts : uint8_t)
    (hpad : padding_contract al ps ts) (k o : Int)
    (hh : 0 ≤ WAVEFRONT_H k o ∧ WAVEFRONT_H k o ≤ al.text_length)
    (hv : 0 ≤ WAVEFRONT_V k o ∧ WAVEFRONT_V k o ≤ al.pattern_length) :
    extend_packed_diagonal al k o = some (o + (diagonal_run al k o : Nat)) ∧
      WAVEFRONT_H k (o + (diagonal_run al k o : Nat)) ≤ al.text_length ∧
      WAVEFRONT_V k (o + (diagonal_run al k o : Nat)) ≤ al.pattern_length := by
  obtain ⟨v, hv2⟩ := Int.eq_ofNat_of_zero_le hv.1
  obtain ⟨h, hh2⟩ := Int.eq_ofNat_of_zero_le hh.1
  have hb := run_within_lengths al ps ts hpad v h (by omega) (by omega)
  obtain ⟨hpl, htl⟩ := padding_lengths al ps ts hpad
  obtain ⟨hpl0, htl0, -⟩ := hpad
  have hL := lcp_le_left (al.pattern.drop v) (al.text.drop h)
  rw [List.length_drop] at hL
  unfold extend_packed_diagonal diagonal_run
  rw [hv2, hh2, Int.toNat_ofNat, Int.toNat_ofNat, scan_blocks_spec _ _ _ _ _ _ (by omega),
    if_pos (by omega)]
  refine ⟨rfl, ?_, ?_⟩
  · simp only [WAVEFRONT_H] at hh2 ⊢; omega
  · simp only [WAVEFRONT_V, WAVEFRONT_H] at hv2 hh2 ⊢; omega

/-! ## The loop of the packed extension -/

theorem endsfree_check_false (al : wavefront_aligner_t) (mw : wavefront_t) (score k o : Int)
    (h : (wavefront_extend_endsfree_check_termination al mw score k o).2 = false) :
    (wavefront_extend_endsfree_check_termination al mw score k o).1 = al := by
  rw [endsfree_check_spec] at h ⊢
  split_ifs at h ⊢ with hc
  rfl

/-- The ends-free check changes nothing but the end position. -/
theorem endsfree_check_frame (al : wavefront_aligner_t) (mw : wavefront_t) (score k o : Int) :
    (wavefront_extend_endsfree_check_termination al mw score k o).1 =
      { al with alignment_end_pos :=
          (wavefront_extend_endsfree_check_termination al mw score k o).1.alignment_end_pos } := by
  rw [endsfree_check_spec]
  split_ifs <;> rfl

/-- What the loop of the packed extension leaves: the range of the wavefront is
kept, nothing of the aligner but the end position changes (and not even that
unless the loop quits), the loop cannot quit without the ends-free flag, every
offset is either as before or the result of the block comparison of an active
diagonal of the range, and it is the latter for every active diagonal of the
range when the loop does not quit. -/
theorem packed_loop_spec (score : Int) (endsfree compute_max : Bool) :
    ∀ (n : Nat) (k0 : Int) (al : wavefront_aligner_t) (w : wavefront_t) (mx : Int)
      (r : wavefront_aligner_t × wavefront_t × Int × Bool),
      packed_loop score endsfree compute_max n k0 al w mx = some r →
      r.2.1.lo = w.lo ∧ r.2.1.hi = w.hi ∧
      r.1 = { al with alignment_end_pos := r.1.alignment_end_pos } ∧
      (r.2.2.2 = false → r.1 = al) ∧
      (endsfree = false → r.2.2.2 = false) ∧
      (∀ k, r.2.1.offsets k = w.offsets k ∨
        (k0 ≤ k ∧ k < k0 + n ∧ w.offsets k ≠ WAVEFRONT_OFFSET_NULL ∧
          extend_packed_diagonal al k (w.offsets k) = some (r.2.1.offsets k))) ∧
      (r.2.2.2 = false → ∀ k, k0 ≤ k → k < k0 + n → w.offsets k ≠ WAVEFRONT_OFFSET_NULL →
        extend_packed_diagonal al k (w.offsets k) = some (r.2.1.offsets k)) := by
  intro n
  induction n with
  | zero =>
    intro k0 al w mx r h
    rw [packed_loop] at h
    cases h
    refine ⟨rfl, rfl, rfl, fun _ => rfl, fun _ => rfl, fun k => Or.inl rfl, ?_⟩
    intro _ k h1 h2
    omega
  | succ n ih =>
    intro k0 al w mx r h
    rw [packed_loop] at h
    by_cases hnull : w.offsets k0 = WAVEFRONT_OFFSET_NULL
    · rw [if_pos hnull] at h
      obtain ⟨h1, h2, h3, h4, h5, h6, h7⟩ := ih _ _ _ _ _ h
      refine ⟨h1, h2, h3, h4, h5, ?_, ?_⟩
      · intro k
        rcases h6 k with h6 | ⟨a, b, c, d⟩
        · exact Or.inl h6
        · exact Or.inr ⟨by omega, by omega, c, d⟩
      · intro hq k hk1 hk2 hk3
        by_cases hk : k = k0
        · subst hk; exact absurd hnull hk3
        · exact h7 hq k (by omega) (by omega) hk3
    · rw [if_neg hnull] at h
      cases hscan : extend_packed_diagonal al k0 (w.offsets k0) with
      | none => rw [hscan] at h; simp at h
      | some o1 =>
        rw [hscan] at h
        simp only [] at h
        -- the offsets after the write at k0
        have hupd_self : Function.update w.offsets k0 o1 k0 = o1 := Function.update_same _ _ _
        have hupd_other : ∀ k, k ≠ k0 → Function.update w.offsets k0 o1 k = w.offsets k :=
          fun k hk => Function.update_noteq hk _ _
        -- what the continuation of the loop gives
        have hcont : ∀ (mx1 : Int),
            packed_loop score endsfree compute_max n (k0 + 1) al
              { w with offsets := Function.update w.offsets k0 o1 } mx1 = some r →
            r.2.1.lo = w.lo ∧ r.2.1.hi = w.hi ∧
            r.1 = { al with alignment_end_pos := r.1.alignment_end_pos } ∧
            (r.2.2.2 = false → r.1 = al) ∧
            (endsfree = false → r.2.2.2 = false) ∧
            (∀ k, r.2.1.offsets k = w.offsets k ∨
              (k0 ≤ k ∧ k < k0 + (n + 1 : Nat) ∧ w.offsets k ≠ WAVEFRONT_OFFSET_NULL ∧
                extend_packed_diagonal al k (w.offsets k) = some (r.2.1.offsets k))) ∧
            (r.2.2.2 = false → ∀ k, k0 ≤ k → k < k0 + (n + 1 : Nat) →
              w.offsets k ≠ WAVEFRONT_OFFSET_NULL →
              extend_packed_diagonal al k (w.offsets k) = some (r.2.1.offsets k)) := by
          intro mx1 hl
          obtain ⟨h1, h2, h3, h4, h5, h6, h7⟩ := ih _ _ _ _ _ hl
          have hk0 : r.2.1.offsets k0 = o1 := by
            rcases h6 k0 with h6 | ⟨a, -⟩
            · rw [h6]; exact hupd_self
            · omega
          refine ⟨h1, h2, h3, h4, h5, ?_, ?_⟩
          · intro k
            by_cases hk : k = k0
            · subst hk
              exact Or.inr ⟨le_refl _, by push_cast; omega, hnull, by rw [hk0]; exact hscan⟩
            · rcases h6 k with h6 | ⟨a, b, c, d⟩
              · left; rw [h6]; exact hupd_other k hk
              · right
                simp only [] at c d
                rw [hupd_other k hk] at c d
                exact ⟨by omega, by push_cast; omega, c, d⟩
          · intro hq k hk1 hk2 hk3
            by_cases hk : k = k0
            · subst hk; rw [hk0]; exact hscan
            · have := h7 hq k (by omega) (by push_cast at hk2; omega)
              simp only [] at this
              rw [hupd_other k hk] at this
              exact this hk3
        cases hef : endsfree with
        | false =>
          rw [hef] at h hcont
          simp only [Bool.false_eq_true, if_false] at h
          exact hcont _ h
        | true =>
          rw [hef] at h hcont
          simp only [if_true] at h
          by_cases hchk : (wavefront_extend_endsfree_check_termination al
              { w with offsets := Function.update w.offsets k0 o1 } score k0 o1).2 = true
          · rw [if_pos hchk] at h
            cases h
            refine ⟨rfl, rfl, endsfree_check_frame _ _ _ _ _, ?_, ?_, ?_, ?_⟩
            · intro hq; simp at hq
            · intro hq; simp at hq
            · intro k
              by_cases hk : k = k0
              · subst hk
                exact Or.inr ⟨le_refl _, by push_cast; omega, hnull, by
                  simp only []; rw [hupd_self]; exact hscan⟩
              · left; exact hupd_other k hk
            · intro hq; simp at hq
          · rw [if_neg hchk, endsfree_check_false _ _ _ _ _ (by simpa using hchk)] at h
            exact hcont _ h

/-- The end-to-end check changes nothing but the end position. -/
theorem end2end_check_frame (al : wavefront_aligner_t) (mw : wavefront_t)
    (score score_mod : Int) :
    (wavefront_extend_end2end_check_termination al mw score score_mod).1 =
      { al with alignment_end_pos :=
          (wavefront_extend_end2end_check_termination al mw score
            score_mod).1.alignment_end_pos } := by
  rw [end2end_check_spec]
  split_ifs <;> rfl

/-- The state a call of the packed extension returns is the entry state with the
M-wavefront of the slot replaced by the one the loop leaves, and
possibly a new end position. -/
theorem packed_result (al : wavefront_aligner_t) (score score_mod : Int)
    (endsfree compute_max : Bool) (mw : wavefront_t)
    (hmw : al.wf_components.mwavefronts score_mod = some mw)
    (res : wavefront_aligner_t × Int)
    (h : wavefront_extend_matches_packed al score score_mod endsfree compute_max = some res) :
    ∃ r, packed_loop score endsfree compute_max (mw.hi + 1 - mw.lo).toNat mw.lo al mw 0 =
        some r ∧
      res.1 = { store_mwavefront al score_mod r.2.1 with
                alignment_end_pos := res.1.alignment_end_pos } := by
  unfold wavefront_extend_matches_packed at h
  rw [hmw] at h
  simp only [] at h
  cases hl : packed_loop score endsfree compute_max (mw.hi + 1 - mw.lo).toNat mw.lo al mw 0 with
  | none => rw [hl] at h; simp at h
  | some r =>
    obtain ⟨al1, w1, mx, q⟩ := r
    rw [hl] at h
    simp only [] at h
    have hal1 := (packed_loop_spec _ _ _ _ _ _ _ _ _ hl).2.2.1
    simp only [] at hal1
    refine ⟨_, rfl, ?_⟩
    simp only []
    have hstore : ∀ x, { store_mwavefront al1 score_mod w1 with alignment_end_pos := x } =
        { store_mwavefront al score_mod w1 with alignment_end_pos := x } := by
      intro x
      rw [hal1]
      rfl
    rw [← hstore]
    split_ifs at h <;> cases h <;> first | rfl | exact end2end_check_frame _ _ _ _

/-- The byte at a natural index. -/
theorem byte_at_nat (buffer : List uint8_t) (n : Nat) : byte_at buffer (n : Int) = buffer[n]? := by
  simp [byte_at]

/-- The common run of a diagonal ends at the first mismatch, provided the
mismatch lies inside both buffers. -/
theorem diagonal_run_first_mismatch (al : wavefront_aligner_t) (k o : Int)
    (hv : 0 ≤ WAVEFRONT_V k o) (hh : 0 ≤ WAVEFRONT_H k o)
    (hvb : (WAVEFRONT_V k o).toNat + diagonal_run al k o < al.pattern.length)
    (hhb : (WAVEFRONT_H k o).toNat + diagonal_run al k o < al.text.length) :
    first_mismatch_at al (WAVEFRONT_V k o) (WAVEFRONT_H k o) (diagonal_run al k o) := by
  obtain ⟨v, hv2⟩ := Int.eq_ofNat_of_zero_le hv
  obtain ⟨h, hh2⟩ := Int.eq_ofNat_of_zero_le hh
  unfold diagonal_run at *
  rw [hv2, hh2] at hvb hhb ⊢
  simp only [Int.toNat_ofNat] at hvb hhb ⊢
  constructor
  · intro i hi
    obtain ⟨a, h1, h2⟩ := lcp_getElem _ _ i hi
    rw [List.getElem?_drop] at h1 h2
    refine ⟨a, ?_, ?_⟩
    · rw [← Nat.cast_add, byte_at_nat]; exact h1
    · rw [← Nat.cast_add, byte_at_nat]; exact h2
  · obtain ⟨a, b, h1, h2, h3⟩ := lcp_stop (al.pattern.drop v) (al.text.drop h)
      (by rw [List.length_drop]; omega) (by rw [List.length_drop]; omega)
    rw [List.getElem?_drop] at h1 h2
    refine ⟨a, b, ?_, ?_, h3⟩
    · rw [← Nat.cast_add, byte_at_nat]; exact h1
    · rw [← Nat.cast_add, byte_at_nat]; exact h2

/-- If every active diagonal of the range can be compared, the loop of the
packed extension returns. -/
theorem packed_loop_some (score : Int) (endsfree compute_max : Bool) :
    ∀ (n : Nat) (k0 : Int) (al : wavefront_aligner_t) (w : wavefront_t) (mx : Int),
      (∀ k, k0 ≤ k → k < k0 + n → w.offsets k ≠ WAVEFRONT_OFFSET_NULL →
        (extend_packed_diagonal al k (w.offsets k)).isSome = true) →
      (packed_loop score endsfree compute_max n k0 al w mx).isSome = true := by
  intro n
  induction n with
  | zero => intro k0 al w mx _; rfl
  | succ n ih =>
    intro k0 al w mx hall
    rw [packed_loop]
    by_cases hnull : w.offsets k0 = WAVEFRONT_OFFSET_NULL
    · rw [if_pos hnull]
      exact ih _ _ _ _ (fun k h1 h2 h3 => hall k (by omega) (by push_cast; omega) h3)
    · rw [if_neg hnull]
      have h0 := hall k0 (le_refl _) (by push_cast; omega) hnull
      obtain ⟨o1, hscan⟩ := Option.isSome_iff_exists.mp h0
      rw [hscan]
      simp only []
      have hrest : ∀ (mx1 : Int), (packed_loop score endsfree compute_max n (k0 + 1) al
          { w with offsets := Function.update w.offsets k0 o1 } mx1).isSome = true := by
        intro mx1
        apply ih
        intro k h1 h2 h3
        have hk : k ≠ k0 := by omega
        simp only [Function.update_noteq hk] at h3 ⊢
        exact hall k (by omega) (by push_cast; omega) h3
      cases hef : endsfree with
      | false =>
        rw [hef] at hrest
        simp only [Bool.false_eq_true, if_false]
        exact hrest _
      | true =>
        rw [hef] at hrest
        simp only [if_true]
        by_cases hchk : (wavefront_extend_endsfree_check_termination al
            { w with offsets := Function.update w.offsets k0 o1 } score k0 o1).2 = true
        · rw [if_pos hchk]; rfl
        · rw [if_neg hchk, endsfree_check_false _ _ _ _ _ (by simpa using hchk)]
          exact hrest _

/-- If the loop of the packed extension returns, so does the call. -/
theorem packed_some_of_loop (al : wavefront_aligner_t) (score score_mod : Int)
    (endsfree compute_max : Bool) (mw : wavefront_t)
    (hmw : al.wf_components.mwavefronts score_mod = some mw)
    (h : (packed_loop score endsfree compute_max (mw.hi + 1 - mw.lo).toNat mw.lo al mw
      0).isSome = true) :
    (wavefront_extend_matches_packed al score score_mod endsfree compute_max).isSome = true := by
  obtain ⟨r, hr⟩ := Option.isSome_iff_exists.mp h
  obtain ⟨al1, w1, mx, q⟩ := r
  unfold wavefront_extend_matches_packed
  rw [hmw]
  simp only [hr]
  split_ifs <;> rfl

/-- C1: under the padding contract and with `endsfree = false`, whenever the
packed extension returns, every active diagonal of `[lo,hi]` whose indices are
in bounds on entry ends with its offset advanced by `n`, where
`pattern[v+i] = text[h+i]` for all `i < n` and `pattern[v+n] ≠ text[h+n]`; and
it does return when every active diagonal of `[lo,hi]` is in bounds. -/
theorem packed_extends_to_first_mismatch (al : wavefront_aligner_t) (ps ts : uint8_t)
    (hpad : padding_contract al ps ts) (score score_mod : Int) (compute_max : Bool)
    (mw : wavefront_t) (hmw : al.wf_components.mwavefronts score_mod = some mw) :
    ((∀ k, mw.lo ≤ k → k ≤ mw.hi → diagonal_in_bounds al mw k) →
      (wavefront_extend_matches_packed al score score_mod false compute_max).isSome = true) ∧
    ∀ res, wavefront_extend_matches_packed al score score_mod false compute_max = some res →
      ∃ mw1, res.1.wf_components.mwavefronts score_mod = some mw1 ∧
        extended_to_first_mismatch al mw mw1 := by
  constructor
  · intro hin
    apply packed_some_of_loop al score score_mod false compute_max mw hmw
    apply packed_loop_some
    intro k h1 h2 h3
    obtain ⟨hh, hv⟩ := hin k h1 (by omega) h3
    rw [(packed_diagonal_padded al ps ts hpad k _ hh hv).1]
    rfl
  · intro res hres
    obtain ⟨r, hl, hr⟩ := packed_result al score score_mod false compute_max mw hmw res hres
    obtain ⟨-, -, -, -, hq, -, hall⟩ := packed_loop_spec _ _ _ _ _ _ _ _ _ hl
    refine ⟨r.2.1, ?_, ?_⟩
    · rw [hr]; simp [store_mwavefront]
    · intro k h1 h2 h3 hh hv
      have hscan := hall (hq rfl) k h1 (by omega) h3
      obtain ⟨hv0, hh0, ho, hvb, hhb⟩ := packed_diagonal_result al k _ _ hscan
      exact ⟨diagonal_run al k (mw.offsets k), ho,
        diagonal_run_first_mismatch al k _ hv0 hh0 hvb hhb⟩

/-- C1, witness: pattern = text = "ACGTACGT", diagonal 0 from offset 0 ends at
offset 8; pattern "AAAA", text "AAAT", diagonal 0 from offset 0 ends at
offset 3. -/
theorem packed_extends_to_first_mismatch_witness :
    (∃ res mw1,
      wavefront_extend_matches_packed
          (scenario "ACGTACGT" "ACGTACGT" affine_matrix_M ⟨alignment_end2end, 0, 0⟩
            (wavefront_of 0 0 [(0, 0)])) 0 0 false false = some res ∧
        res.1.wf_components.mwavefronts 0 = some mw1 ∧ mw1.offsets 0 = 8 ∧
        extended_to_first_mismatch
          (scenario "ACGTACGT" "ACGTACGT" affine_matrix_M ⟨alignment_end2end, 0, 0⟩
            (wavefront_of 0 0 [(0, 0)]))
          (wavefront_of 0 0 [(0, 0)]) mw1) ∧
    (∃ res mw1,
      wavefront_extend_matches_packed
          (scenario "AAAA" "AAAT" affine_matrix_M ⟨alignment_end2end, 0, 0⟩
            (wavefront_of 0 0 [(0, 0)])) 0 0 false false = some res ∧
        res.1.wf_components.mwavefronts 0 = some mw1 ∧ mw1.offsets 0 = 3 ∧
        extended_to_first_mismatch
          (scenario "AAAA" "AAAT" affine_matrix_M ⟨alignment_end2end, 0, 0⟩
            (wavefront_of 0 0 [(0, 0)]))
          (wavefront_of 0 0 [(0, 0)]) mw1) := by
  constructor
  · have hval : (wavefront_extend_matches_packed
        (scenario "ACGTACGT" "ACGTACGT" affine_matrix_M ⟨alignment_end2end, 0, 0⟩
          (wavefront_of 0 0 [(0, 0)])) 0 0 false false).map
        (fun r => (r.1.wf_components.mwavefronts 0).map (fun w => w.offsets 0)) =
        some (some 8) := by decide
    have hthm := packed_extends_to_first_mismatch
      (scenario "ACGTACGT" "ACGTACGT" affine_matrix_M ⟨alignment_end2end, 0, 0⟩
        (wavefront_of 0 0 [(0, 0)])) 63 33 (by decide) 0 0 false (wavefront_of 0 0 [(0, 0)]) rfl
    cases hres : wavefront_extend_matches_packed
        (scenario "ACGTACGT" "ACGTACGT" affine_matrix_M ⟨alignment_end2end, 0, 0⟩
          (wavefront_of 0 0 [(0, 0)])) 0 0 false false with
    | none => rw [hres] at hval; simp at hval
    | some res =>
      obtain ⟨mw1, h1, h2⟩ := hthm.2 res hres
      rw [hres] at hval
      simp [h1] at hval
      exact ⟨res, mw1, rfl, h1, hval, h2⟩
  · have hval : (wavefront_extend_matches_packed
        (scenario "AAAA" "AAAT" affine_matrix_M ⟨alignment_end2end, 0, 0⟩
          (wavefront_of 0 0 [(0, 0)])) 0 0 false false).map
        (fun r => (r.1.wf_components.mwavefronts 0).map (fun w => w.offsets 0)) =
        some (some 3) := by decide
    have hthm := packed_extends_to_first_mismatch
      (scenario "AAAA" "AAAT" affine_matrix_M ⟨alignment_end2end, 0, 0⟩
        (wavefront_of 0 0 [(0, 0)])) 63 33 (by decide) 0 0 false (wavefront_of 0 0 [(0, 0)]) rfl
    cases hres : wavefront_extend_matches_packed
        (scenario "AAAA" "AAAT" affine_matrix_M ⟨alignment_end2end, 0, 0⟩
          (wavefront_of 0 0 [(0, 0)])) 0 0 false false with
    | none => rw [hres] at hval; simp at hval
    | some res =>
      obtain ⟨mw1, h1, h2⟩ := hthm.2 res hres
      rw [hres] at hval
      simp [h1] at hval
      exact ⟨res, mw1, rfl, h1, hval, h2⟩

/-- C10: under the padding contract, when every active diagonal of `[lo,hi]` of
the M-wavefront is in bounds on entry, the block comparison of every active
diagonal returns, the packed extension returns for every flag combination, and
every active diagonal of `[lo,hi]` is still in bounds afterwards. -/
theorem packed_never_overruns (al : wavefront_aligner_t) (ps ts : uint8_t)
    (hpad : padding_contract al ps ts) (score score_mod : Int) (endsfree compute_max : Bool)
    (mw : wavefront_t) (hmw : al.wf_components.mwavefronts score_mod = some mw)
    (hin : ∀ k, mw.lo ≤ k → k ≤ mw.hi → diagonal_in_bounds al mw k) :
    (∀ k, mw.lo ≤ k → k ≤ mw.hi → mw.offsets k ≠ WAVEFRONT_OFFSET_NULL →
      (extend_packed_diagonal al k (mw.offsets k)).isSome = true) ∧
    ∃ res mw1,
      wavefront_extend_matches_packed al score score_mod endsfree compute_max = some res ∧
      res.1.wf_components.mwavefronts score_mod = some mw1 ∧
      mw1.lo = mw.lo ∧ mw1.hi = mw.hi ∧
      res.1.text_length = al.text_length ∧ res.1.pattern_length = al.pattern_length ∧
      ∀ k, mw1.lo ≤ k → k ≤ mw1.hi → diagonal_in_bounds res.1 mw1 k := by
  have hdiag : ∀ k, mw.lo ≤ k → k ≤ mw.hi → mw.offsets k ≠ WAVEFRONT_OFFSET_NULL →
      (extend_packed_diagonal al k (mw.offsets k)).isSome = true := by
    intro k h1 h2 h3
    obtain ⟨hh, hv⟩ := hin k h1 h2 h3
    rw [(packed_diagonal_padded al ps ts hpad k _ hh hv).1]
    rfl
  refine ⟨hdiag, ?_⟩
  have hsome := packed_some_of_loop al score score_mod endsfree compute_max mw hmw
    (packed_loop_some _ _ _ _ _ _ _ _ (fun k h1 h2 h3 => hdiag k h1 (by omega) h3))
  obtain ⟨res, hres⟩ := Option.isSome_iff_exists.mp hsome
  obtain ⟨r, hl, hr⟩ := packed_result al score score_mod endsfree compute_max mw hmw res hres
  obtain ⟨hlo, hhi, -, -, -, hoff, -⟩ := packed_loop_spec _ _ _ _ _ _ _ _ _ hl
  have htl : res.1.text_length = al.text_length := by rw [hr]; rfl
  have hpl : res.1.pattern_length = al.pattern_length := by rw [hr]; rfl
  refine ⟨res, r.2.1, hres, ?_, hlo, hhi, htl, hpl, ?_⟩
  · rw [hr]; simp [store_mwavefront]
  · intro k h1 h2 h3
    rw [htl, hpl]
    rcases hoff k with hsame | ⟨hk1, hk2, hk3, hscan⟩
    · rw [hsame] at h3 ⊢
      exact hin k (by omega) (by omega) h3
    · obtain ⟨hh, hv⟩ := hin k (by omega) (by omega) hk3
      obtain ⟨hs, hhb, hvb⟩ := packed_diagonal_padded al ps ts hpad k _ hh hv
      rw [hs] at hscan
      rw [← Option.some.inj hscan]
      refine ⟨⟨?_, hhb⟩, ⟨?_, hvb⟩⟩
      · simp only [WAVEFRONT_H] at hh ⊢; omega
      · simp only [WAVEFRONT_V] at hv ⊢; omega

/-- C10, witness: text "ACGT", pattern "ACGTXX", diagonals -2 and 0 at offset
0, diagonal -1 inactive, diagonal 1 at offset 1, ends-free with pattern slack
2: the call returns with offsets 0, sentinel, 4, 1, all in bounds. -/
theorem packed_never_overruns_witness :
    (wavefront_extend_matches_packed
        (scenario "ACGTXX" "ACGT" affine_matrix_M ⟨alignment_endsfree, 2, 0⟩
          (wavefront_of (-2) 1 [(-2, 0), (0, 0), (1, 1)])) 0 0 true false).map
        (fun r => (r.1.wf_components.mwavefronts 0).map
          (fun w => [w.offsets (-2), w.offsets (-1), w.offsets 0, w.offsets 1])) =
      some (some [0, WAVEFRONT_OFFSET_NULL, 4, 1]) ∧
    ∃ res mw1,
      wavefront_extend_matches_packed
          (scenario "ACGTXX" "ACGT" affine_matrix_M ⟨alignment_endsfree, 2, 0⟩
            (wavefront_of (-2) 1 [(-2, 0), (0, 0), (1, 1)])) 0 0 true false = some res ∧
      res.1.wf_components.mwavefronts 0 = some mw1 ∧
      mw1.lo = (wavefront_of (-2) 1 [(-2, 0), (0, 0), (1, 1)]).lo ∧
      mw1.hi = (wavefront_of (-2) 1 [(-2, 0), (0, 0), (1, 1)]).hi ∧
      res.1.text_length =
        (scenario "ACGTXX" "ACGT" affine_matrix_M ⟨alignment_endsfree, 2, 0⟩
          (wavefront_of (-2) 1 [(-2, 0), (0, 0), (1, 1)])).text_length ∧
      res.1.pattern_length =
        (scenario "ACGTXX" "ACGT" affine_matrix_M ⟨alignment_endsfree, 2, 0⟩
          (wavefront_of (-2) 1 [(-2, 0), (0, 0), (1, 1)])).pattern_length ∧
      ∀ k, mw1.lo ≤ k → k ≤ mw1.hi → diagonal_in_bounds res.1 mw1 k :=
  ⟨by decide,
    (packed_never_overruns
      (scenario "ACGTXX" "ACGT" affine_matrix_M ⟨alignment_endsfree, 2, 0⟩
        (wavefront_of (-2) 1 [(-2, 0), (0, 0), (1, 1)])) 63 33 (by decide) 0 0 true false
      (wavefront_of (-2) 1 [(-2, 0), (0, 0), (1, 1)]) rfl
      (by
        intro k h1 h2
        simp only [wavefront_of] at h1 h2
        interval_cases k <;> decide)).2⟩

/-! ## The custom extension -/

/-- The custom comparison of a diagonal never lowers the offset. -/
theorem scan_custom_ge (m : Int → Int → Bool) :
    ∀ (fuel : Nat) (v h o o1 : Int), scan_custom m fuel v h o = some o1 → o ≤ o1 := by
  intro fuel
  induction fuel with
  | zero => intro v h o o1 hs; simp [scan_custom] at hs
  | succ fuel ih =>
    intro v h o o1 hs
    rw [scan_custom] at hs
    split_ifs at hs with hm
    · have := ih _ _ _ _ hs; omega
    · cases hs; exact le_refl _

/-- The custom loop stops after `n` steps when the predicate holds on the first
`n` pairs of indices and fails on the next one. -/
theorem scan_custom_run (m : Int → Int → Bool) :
    ∀ (n fuel : Nat) (v h o : Int), n < fuel →
      (∀ i : Nat, i < n → m (v + i) (h + i) = true) → m (v + n) (h + n) = false →
      scan_custom m fuel v h o = some (o + n) := by
  intro n
  induction n with
  | zero =>
    intro fuel v h o hf _ hstop
    obtain ⟨f, rfl⟩ : ∃ f, fuel = f + 1 := ⟨fuel - 1, by omega⟩
    simp only [Nat.cast_zero, add_zero] at hstop
    rw [scan_custom, hstop]
    simp
  | succ n ih =>
    intro fuel v h o hf hrun hstop
    obtain ⟨f, rfl⟩ : ∃ f, fuel = f + 1 := ⟨fuel - 1, by omega⟩
    have h0 := hrun 0 (by omega)
    simp only [Nat.cast_zero, add_zero] at h0
    rw [scan_custom, h0, if_pos rfl, ih f (v + 1) (h + 1) (o + 1) (by omega)]
    · congr 1; push_cast; ring
    · intro i hi
      have := hrun (i + 1) (by omega)
      push_cast at this
      rw [show v + 1 + (i : Int) = v + (i + 1) by ring, show h + 1 + (i : Int) = h + (i + 1) by ring]
      exact this
    · push_cast at hstop
      rw [show v + 1 + (n : Int) = v + (n + 1) by ring, show h + 1 + (n : Int) = h + (n + 1) by ring]
      exact hstop

/-- With byte equality as the predicate and fuel beyond the pattern buffer, the
custom comparison of a diagonal returns what the packed one returns. -/
theorem custom_diagonal_of_packed (al : wavefront_aligner_t) (hm : is_byte_equality al)
    (fuel : Nat) (hf : al.pattern.length < fuel) (k o o1 : Int)
    (hs : extend_packed_diagonal al k o = some o1) :
    scan_custom al.match_funct fuel (WAVEFRONT_V k o) (WAVEFRONT_H k o) o = some o1 := by
  obtain ⟨hv0, hh0, ho, hvb, hhb⟩ := packed_diagonal_result al k o o1 hs
  obtain ⟨hrun, a, b, ha, hb, hab⟩ := diagonal_run_first_mismatch al k o hv0 hh0 hvb hhb
  generalize WAVEFRONT_V k o = V at hv0 hvb hrun ha ⊢
  generalize WAVEFRONT_H k o = H at hh0 hhb hrun hb ⊢
  obtain ⟨v, rfl⟩ := Int.eq_ofNat_of_zero_le hv0
  obtain ⟨h, rfl⟩ := Int.eq_ofNat_of_zero_le hh0
  rw [ho]
  apply scan_custom_run
  · rw [Int.toNat_ofNat] at hvb; omega
  · intro i hi
    obtain ⟨c, h1, h2⟩ := hrun i hi
    rw [← Nat.cast_add, byte_at_nat] at h1 h2
    rw [← Nat.cast_add, ← Nat.cast_add, hm _ _ _ _ h1 h2]
    simp
  · rw [← Nat.cast_add, byte_at_nat] at ha hb
    rw [← Nat.cast_add, ← Nat.cast_add, hm _ _ _ _ ha hb]
    simpa using hab

/-- The predicate `byte_equality` is byte equality inside the buffers. -/
theorem byte_equality_agrees (pattern text : List uint8_t) (v h : Nat) (a b : uint8_t)
    (ha : pattern[v]? = some a) (hb : text[h]? = some b) :
    byte_equality pattern text v h = decide (a = b) := by
  simp [byte_equality, ha, hb]
  rfl

/-- With byte equality as the predicate and fuel beyond the pattern buffer, the
loop of the custom extension returns what the loop of the packed extension
returns when no maximum is tracked. -/
theorem custom_loop_of_packed (fuel : Nat) (score : Int) (endsfree : Bool) :
    ∀ (n : Nat) (k0 : Int) (al : wavefront_aligner_t) (w : wavefront_t) (mx : Int)
      (r : wavefront_aligner_t × wavefront_t × Int × Bool),
      is_byte_equality al → al.pattern.length < fuel →
      packed_loop score endsfree false n k0 al w mx = some r →
      custom_loop fuel score endsfree n k0 al w = some (r.1, r.2.1, r.2.2.2) := by
  intro n
  induction n with
  | zero =>
    intro k0 al w mx r _ _ h
    rw [packed_loop] at h
    cases h
    rfl
  | succ n ih =>
    intro k0 al w mx r hm hf h
    rw [packed_loop] at h
    rw [custom_loop]
    by_cases hnull : w.offsets k0 = WAVEFRONT_OFFSET_NULL
    · rw [if_pos hnull] at h ⊢
      exact ih _ _ _ _ _ hm hf h
    · rw [if_neg hnull] at h ⊢
      cases hscan : extend_packed_diagonal al k0 (w.offsets k0) with
      | none => rw [hscan] at h; simp at h
      | some o1 =>
        rw [hscan] at h
        rw [custom_diagonal_of_packed al hm fuel hf _ _ _ hscan]
        simp only [] at h ⊢
        cases hef : endsfree with
        | false =>
          rw [hef] at h ih
          simp only [Bool.false_eq_true, if_false] at h ⊢
          exact ih _ _ _ _ _ hm hf h
        | true =>
          rw [hef] at h ih
          simp only [if_true] at h ⊢
          by_cases hchk : (wavefront_extend_endsfree_check_termination al
              { w with offsets := Function.update w.offsets k0 o1 } score k0 o1).2 = true
          · rw [if_pos hchk] at h ⊢
            cases h
            rfl
          · rw [if_neg hchk] at h ⊢
            rw [endsfree_check_false _ _ _ _ _ (by simpa using hchk)] at h ⊢
            exact ih _ _ _ _ _ hm hf h

/-- C2: when the custom predicate is byte equality and the packed extension
(without maximum tracking) returns, the custom extension, given fuel beyond the
pattern buffer, returns the very same aligner state (every offset of every
wavefront, the end position) and the same verdict, for every score, slot and
value of the ends-free flag. -/
theorem packed_custom_agree (al : wavefront_aligner_t) (score score_mod : Int)
    (endsfree : Bool) (hm : is_byte_equality al)
    (hterm : (wavefront_extend_matches_packed al score score_mod endsfree false).isSome = true)
    (fuel : Nat) (hf : al.pattern.length < fuel) :
    wavefront_extend_matches_custom fuel al score score_mod endsfree =
      (wavefront_extend_matches_packed al score score_mod endsfree false).map
        (fun res => (res.1, decide (res.2 ≠ 0))) := by
  unfold wavefront_extend_matches_custom wavefront_extend_matches_packed at *
  cases hmw : al.wf_components.mwavefronts score_mod with
  | none => simp
  | some mw =>
    rw [hmw] at hterm
    simp only [] at hterm ⊢
    cases hl : packed_loop score endsfree false (mw.hi + 1 - mw.lo).toNat mw.lo al mw 0 with
    | none => rw [hl] at hterm; simp at hterm
    | some r =>
      obtain ⟨al1, w1, mx, q⟩ := r
      rw [custom_loop_of_packed fuel score endsfree _ _ _ _ _ _ hm hf hl]
      simp only []
      cases q <;> cases endsfree <;> simp

/-- C2, witness: pattern "AAAA", text "AAAT", byte equality as the predicate,
end-to-end and ends-free: the custom extension with fuel 17 returns what the
packed one returns, offset 3 on diagonal 0 and verdict not-done. -/
theorem packed_custom_agree_witness :
    (wavefront_extend_matches_custom 17
        (scenario "AAAA" "AAAT" affine_matrix_M ⟨alignment_end2end, 0, 0⟩
          (wavefront_of 0 0 [(0, 0)])) 0 0 false =
      (wavefront_extend_matches_packed
        (scenario "AAAA" "AAAT" affine_matrix_M ⟨alignment_end2end, 0, 0⟩
          (wavefront_of 0 0 [(0, 0)])) 0 0 false false).map
        (fun res => (res.1, decide (res.2 ≠ 0)))) ∧
    (wavefront_extend_matches_custom 17
        (scenario "AAAA" "AAAT" affine_matrix_M ⟨alignment_end2end, 0, 0⟩
          (wavefront_of 0 0 [(0, 0)])) 0 0 true =
      (wavefront_extend_matches_packed
        (scenario "AAAA" "AAAT" affine_matrix_M ⟨alignment_end2end, 0, 0⟩
          (wavefront_of 0 0 [(0, 0)])) 0 0 true false).map
        (fun res => (res.1, decide (res.2 ≠ 0)))) ∧
    (wavefront_extend_matches_custom 17
        (scenario "AAAA" "AAAT" affine_matrix_M ⟨alignment_end2end, 0, 0⟩
          (wavefront_of 0 0 [(0, 0)])) 0 0 false).map
        (fun r => (r.2, (r.1.wf_components.mwavefronts 0).map (fun w => w.offsets 0))) =
      some (false, some 3) :=
  ⟨packed_custom_agree _ 0 0 false (fun v h a b => byte_equality_agrees _ _ v h a b)
      (by decide) 17 (by decide),
    packed_custom_agree _ 0 0 true (fun v h a b => byte_equality_agrees _ _ v h a b)
      (by decide) 17 (by decide),
    by decide⟩

/-! ## Monotonicity -/

/-- The loop of the custom extension keeps the range of the wavefront, changes
nothing of the aligner but the end position, and lowers no offset. -/
theorem custom_loop_spec (fuel : Nat) (score : Int) (endsfree : Bool) :
    ∀ (n : Nat) (k0 : Int) (al : wavefront_aligner_t) (w : wavefront_t)
      (r : wavefront_aligner_t × wavefront_t × Bool),
      custom_loop fuel score endsfree n k0 al w = some r →
      r.2.1.lo = w.lo ∧ r.2.1.hi = w.hi ∧
      r.1 = { al with alignment_end_pos := r.1.alignment_end_pos } ∧
      ∀ k, w.offsets k ≤ r.2.1.offsets k := by
  intro n
  induction n with
  | zero =>
    intro k0 al w r h
    rw [custom_loop] at h
    cases h
    exact ⟨rfl, rfl, rfl, fun k => le_refl _⟩
  | succ n ih =>
    intro k0 al w r h
    rw [custom_loop] at h
    by_cases hnull : w.offsets k0 = WAVEFRONT_OFFSET_NULL
    · rw [if_pos hnull] at h
      exact ih _ _ _ _ h
    · rw [if_neg hnull] at h
      cases hscan : scan_custom al.match_funct fuel (WAVEFRONT_V k0 (w.offsets k0))
          (WAVEFRONT_H k0 (w.offsets k0)) (w.offsets k0) with
      | none => rw [hscan] at h; simp at h
      | some o1 =>
        rw [hscan] at h
        simp only [] at h
        have hge := scan_custom_ge _ _ _ _ _ _ hscan
        have hupd : ∀ k, w.offsets k ≤ Function.update w.offsets k0 o1 k := by
          intro k
          by_cases hk : k = k0
          · subst hk; rw [Function.update_same]; exact hge
          · rw [Function.update_noteq hk]
        have hcont : custom_loop fuel score endsfree n (k0 + 1) al
              { w with offsets := Function.update w.offsets k0 o1 } = some r →
            r.2.1.lo = w.lo ∧ r.2.1.hi = w.hi ∧
            r.1 = { al with alignment_end_pos := r.1.alignment_end_pos } ∧
            ∀ k, w.offsets k ≤ r.2.1.offsets k := by
          intro hl
          obtain ⟨h1, h2, h3, h4⟩ := ih _ _ _ _ hl
          exact ⟨h1, h2, h3, fun k => le_trans (hupd k) (h4 k)⟩
        cases hef : endsfree with
        | false =>
          rw [hef] at h hcont
          simp only [Bool.false_eq_true, if_false] at h
          exact hcont h
        | true =>
          rw [hef] at h hcont
          simp only [if_true] at h
          by_cases hchk : (wavefront_extend_endsfree_check_termination al
              { w with offsets := Function.update w.offsets k0 o1 } score k0 o1).2 = true
          · rw [if_pos hchk] at h
            cases h
            exact ⟨rfl, rfl, endsfree_check_frame _ _ _ _ _, hupd⟩
          · rw [if_neg hchk, endsfree_check_false _ _ _ _ _ (by simpa using hchk)] at h
            exact hcont h

/-- The state a call of the custom extension returns is the entry state with the
M-wavefront of the slot replaced by the one the loop leaves, and
possibly a new end position. -/
theorem custom_result (fuel : Nat) (al : wavefront_aligner_t) (score score_mod : Int)
    (endsfree : Bool) (mw : wavefront_t)
    (hmw : al.wf_components.mwavefronts score_mod = some mw)
    (res : wavefront_aligner_t × Bool)
    (h : wavefront_extend_matches_custom fuel al score score_mod endsfree = some res) :
    ∃ r, custom_loop fuel score endsfree (mw.hi + 1 - mw.lo).toNat mw.lo al mw = some r ∧
      res.1 = { store_mwavefront al score_mod r.2.1 with
                alignment_end_pos := res.1.alignment_end_pos } := by
  unfold wavefront_extend_matches_custom at h
  rw [hmw] at h
  simp only [] at h
  cases hl : custom_loop fuel score endsfree (mw.hi + 1 - mw.lo).toNat mw.lo al mw with
  | none => rw [hl] at h; simp at h
  | some r =>
    obtain ⟨al1, w1, q⟩ := r
    rw [hl] at h
    simp only [] at h
    have hal1 := (custom_loop_spec _ _ _ _ _ _ _ _ hl).2.2.1
    simp only [] at hal1
    refine ⟨_, rfl, ?_⟩
    simp only []
    have hstore : ∀ x, { store_mwavefront al1 score_mod w1 with alignment_end_pos := x } =
        { store_mwavefront al score_mod w1 with alignment_end_pos := x } := by
      intro x
      rw [hal1]
      rfl
    rw [← hstore]
    split_ifs at h <;> cases h <;> first | rfl | exact end2end_check_frame _ _ _ _

/-- One call of the extension engine keeps the range of the M-wavefront of the
slot and lowers none of its offsets. -/
theorem extension_call_monotone (score_mod : Int) (al al1 : wavefront_aligner_t)
    (h : extension_call score_mod al al1) (mw : wavefront_t)
    (hmw : al.wf_components.mwavefronts score_mod = some mw) :
    ∃ mw1, al1.wf_components.mwavefronts score_mod = some mw1 ∧
      mw1.lo = mw.lo ∧ mw1.hi = mw.hi ∧ ∀ k, mw.offsets k ≤ mw1.offsets k := by
  rcases h with ⟨score, endsfree, compute_max, ret, h⟩ | ⟨fuel, score, endsfree, ret, h⟩
  · obtain ⟨r, hl, hr⟩ := packed_result al score score_mod endsfree compute_max mw hmw _ h
    obtain ⟨hlo, hhi, -, -, -, hoff, -⟩ := packed_loop_spec _ _ _ _ _ _ _ _ _ hl
    refine ⟨r.2.1, ?_, hlo, hhi, ?_⟩
    · simp only [] at hr; rw [hr]; simp [store_mwavefront]
    · intro k
      rcases hoff k with hsame | ⟨-, -, -, hscan⟩
      · rw [hsame]
      · have := (packed_diagonal_result al k _ _ hscan).2.2.1
        omega
  · obtain ⟨r, hl, hr⟩ := custom_result fuel al score score_mod endsfree mw hmw _ h
    obtain ⟨hlo, hhi, -, hoff⟩ := custom_loop_spec _ _ _ _ _ _ _ _ hl
    refine ⟨r.2.1, ?_, hlo, hhi, hoff⟩
    simp only [] at hr; rw [hr]; simp [store_mwavefront]

/-- C3: after any sequence of calls of the extension engine that return (packed
or custom, any score and flags, a single call included) on the same slot, the
M-wavefront of the slot has the same range and every diagonal has an offset
greater than or equal to its offset before. -/
theorem extension_monotone (score_mod : Int) (al al1 : wavefront_aligner_t)
    (hcalls : Relation.ReflTransGen (extension_call score_mod) al al1) (mw : wavefront_t)
    (hmw : al.wf_components.mwavefronts score_mod = some mw) :
    ∃ mw1, al1.wf_components.mwavefronts score_mod = some mw1 ∧
      mw1.lo = mw.lo ∧ mw1.hi = mw.hi ∧ ∀ k, mw.offsets k ≤ mw1.offsets k := by
  induction hcalls with
  | refl => exact ⟨mw, hmw, rfl, rfl, fun k => le_refl _⟩
  | tail _ hstep ih =>
    obtain ⟨mw1, h1, h2, h3, h4⟩ := ih
    obtain ⟨mw2, g1, g2, g3, g4⟩ := extension_call_monotone score_mod _ _ hstep mw1 h1
    exact ⟨mw2, g1, g2.trans h2, g3.trans h3, fun k => le_trans (h4 k) (g4 k)⟩

/-- An option that holds a value is that value. -/
theorem option_eq_some_getD {α : Type} (o : Option α) (d : α) (h : o.isSome = true) :
    o = some (o.getD d) := by
  cases o with
  | none => simp at h
  | some x => rfl

/-! ## Scenarios -/

/-- C3, witness: pattern "AAAA", text "AAAT", diagonal 0 at offset 0; a packed
call takes the offset to 3, a custom call after it leaves it at 3. -/
theorem extension_monotone_witness :
    ((after_custom 17
        (after_packed
          (scenario "AAAA" "AAAT" affine_matrix_M ⟨alignment_end2end, 0, 0⟩
            (wavefront_of 0 0 [(0, 0)])) 0 0 false false) 1 0 false).wf_components.mwavefronts
        0).map (fun w => w.offsets 0) = some 3 ∧
    ∃ mw1,
      (after_custom 17
        (after_packed
          (scenario "AAAA" "AAAT" affine_matrix_M ⟨alignment_end2end, 0, 0⟩
            (wavefront_of 0 0 [(0, 0)])) 0 0 false false) 1 0 false).wf_components.mwavefronts
        0 = some mw1 ∧
      mw1.lo = (wavefront_of 0 0 [(0, 0)]).lo ∧ mw1.hi = (wavefront_of 0 0 [(0, 0)]).hi ∧
      ∀ k, (wavefront_of 0 0 [(0, 0)]).offsets k ≤ mw1.offsets k :=
  ⟨by decide,
    extension_monotone 0
      (scenario "AAAA" "AAAT" affine_matrix_M ⟨alignment_end2end, 0, 0⟩
        (wavefront_of 0 0 [(0, 0)])) _
      (Relation.ReflTransGen.tail
        (Relation.ReflTransGen.single
          (Or.inl ⟨0, false, false, _,
            option_eq_some_getD _
              (scenario "AAAA" "AAAT" affine_matrix_M ⟨alignment_end2end, 0, 0⟩
                (wavefront_of 0 0 [(0, 0)]), 0) (by decide)⟩))
        (Or.inr ⟨17, 1, false, _,
          option_eq_some_getD _
            (after_packed
              (scenario "AAAA" "AAAT" affine_matrix_M ⟨alignment_end2end, 0, 0⟩
                (wavefront_of 0 0 [(0, 0)])) 0 0 false false, false) (by decide)⟩))
      (wavefront_of 0 0 [(0, 0)]) rfl⟩

/-- C8, counterexample: text "ACGT", pattern "ACGTXX", pattern slack 2,
ends-free mode.  On diagonal -2 the packed extension leaves offset 0 at 0 (the
first symbols compared are pattern[2] and text[0]), and the indices of
(k = -2, offset 4) are h = 4 and v = 6, not v = 4, with no pattern left, not
2. -/
theorem endsfree_overhang_diagonal_minus_two :
    (wavefront_extend_matches_packed
        (scenario "ACGTXX" "ACGT" affine_matrix_M ⟨alignment_endsfree, 2, 0⟩
          (wavefront_of (-2) (-2) [(-2, 0)])) 0 0 true false).map
        (fun r => (r.2, (r.1.wf_components.mwavefronts 0).map (fun w => w.offsets (-2)))) =
      some (0, some 0) ∧
    WAVEFRONT_H (-2) 4 = 4 ∧ WAVEFRONT_V (-2) 4 = 6 ∧
    WAVEFRONT_H (-2) 4 - WAVEFRONT_V (-2) 4 = -2 ∧
    (scenario "ACGTXX" "ACGT" affine_matrix_M ⟨alignment_endsfree, 2, 0⟩
        (wavefront_of (-2) (-2) [(-2, 0)])).pattern_length - WAVEFRONT_V (-2) 4 = 0 := by
  decide

/-- C8, amended: text "ACGT", pattern "ACGTXX", pattern slack 2, ends-free
mode.  Diagonal 0 is extended from offset 0 to offset 4, the extension reports
done with end position `{score, 0, 4}`, the indices of (k = 0, offset 4) are
h = 4 and v = 4, 2 pattern symbols are left, and the ends-free check on that
diagonal returns true. -/
theorem endsfree_overhang_diagonal_zero :
    (wavefront_extend_matches_packed
        (scenario "ACGTXX" "ACGT" affine_matrix_M ⟨alignment_endsfree, 2, 0⟩
          (wavefront_of 0 0 [(0, 0)])) 0 0 true false).map
        (fun r => (r.2, r.1.alignment_end_pos,
          (r.1.wf_components.mwavefronts 0).map (fun w => w.offsets 0))) =
      some (1, ⟨0, 0, 4⟩, some 4) ∧
    WAVEFRONT_H 0 4 = 4 ∧ WAVEFRONT_V 0 4 = 4 ∧
    (scenario "ACGTXX" "ACGT" affine_matrix_M ⟨alignment_endsfree, 2, 0⟩
        (wavefront_of 0 0 [(0, 0)])).pattern_length - WAVEFRONT_V 0 4 = 2 ∧
    (wavefront_extend_endsfree_check_termination
        (scenario "ACGTXX" "ACGT" affine_matrix_M ⟨alignment_endsfree, 2, 0⟩
          (wavefront_of 0 0 [(0, 0)]))
        (wavefront_of 0 0 [(0, 4)]) 0 0 4).2 = true := by
  decide

/-! ## The log of the extension -/

/-- The traced block comparison computes what `scan_blocks` computes. -/
theorem scan_blocks_traced_erase (pattern text : List uint8_t) (k : Int) :
    ∀ (fuel : Nat) (v h o : Int),
      (scan_blocks_traced pattern text k fuel v h o).map Prod.fst =
        scan_blocks pattern text fuel v h o := by
  intro fuel
  induction fuel with
  | zero => intro v h o; rfl
  | succ fuel ih =>
    intro v h o
    rw [scan_blocks_traced, scan_blocks]
    cases load_block pattern v with
    | none => rfl
    | some pb =>
      cases load_block text h with
      | none => rfl
      | some tb =>
        simp only []
        split_ifs with hc
        · rw [← ih, Option.map_map]; rfl
        · rfl

/-- Every entry of the log of the block comparison of diagonal `k` is a block
comparison for `k`. -/
theorem scan_blocks_traced_log (pattern text : List uint8_t) (k : Int) :
    ∀ (fuel : Nat) (v h o : Int) (r : Int × List engine_event),
      scan_blocks_traced pattern text k fuel v h o = some r →
      ∀ e ∈ r.2, e = block_compare k := by
  intro fuel
  induction fuel with
  | zero => intro v h o r hs; simp [scan_blocks_traced] at hs
  | succ fuel ih =>
    intro v h o r hs
    rw [scan_blocks_traced] at hs
    cases hp : load_block pattern v with
    | none => rw [hp] at hs; simp at hs
    | some pb =>
      cases ht : load_block text h with
      | none => rw [hp, ht] at hs; simp at hs
      | some tb =>
        rw [hp, ht] at hs
        simp only [] at hs
        split_ifs at hs with hc
        · cases hrec : scan_blocks_traced pattern text k fuel (v + 8) (h + 8) (o + 8) with
          | none => rw [hrec] at hs; simp at hs
          | some r1 =>
            rw [hrec] at hs
            simp only [Option.map_some', Option.some.injEq] at hs
            subst hs
            intro e he
            simp only [List.mem_cons] at he
            rcases he with he | he
            · exact he
            · exact ih _ _ _ _ hrec e he
        · cases hs
          intro e he
          simpa using he

/-- The traced custom comparison computes what `scan_custom` computes. -/
theorem scan_custom_traced_erase (m : Int → Int → Bool) (k : Int) :
    ∀ (fuel : Nat) (v h o : Int),
      (scan_custom_traced m k fuel v h o).map Prod.fst = scan_custom m fuel v h o := by
  intro fuel
  induction fuel with
  | zero => intro v h o; rfl
  | succ fuel ih =>
    intro v h o
    rw [scan_custom_traced, scan_custom]
    split_ifs with hc
    · rw [← ih, Option.map_map]; rfl
    · rfl

/-- Every entry of the log of the custom comparison of diagonal `k` is a call of
the match predicate for `k`. -/
theorem scan_custom_traced_log (m : Int → Int → Bool) (k : Int) :
    ∀ (fuel : Nat) (v h o : Int) (r : Int × List engine_event),
      scan_custom_traced m k fuel v h o = some r →
      ∀ e ∈ r.2, ∃ v1 h1, e = match_call k v1 h1 := by
  intro fuel
  induction fuel with
  | zero => intro v h o r hs; simp [scan_custom_traced] at hs
  | succ fuel ih =>
    intro v h o r hs
    rw [scan_custom_traced] at hs
    split_ifs at hs with hc
    · cases hrec : scan_custom_traced m k fuel (v + 1) (h + 1) (o + 1) with
      | none => rw [hrec] at hs; simp at hs
      | some r1 =>
        rw [hrec] at hs
        simp only [Option.map_some', Option.some.injEq] at hs
        subst hs
        intro e he
        simp only [List.mem_cons] at he
        rcases he with he | he
        · exact ⟨v, h, he⟩
        · exact ih _ _ _ _ hrec e he
    · cases hs
      intro e he
      exact ⟨v, h, by simpa using he⟩

/-- The traced comparison of a diagonal computes what `extend_packed_diagonal`
computes. -/
theorem packed_diagonal_traced_erase (al : wavefront_aligner_t) (k o : Int) :
    (extend_packed_diagonal_traced al k o).map Prod.fst = extend_packed_diagonal al k o :=
  scan_blocks_traced_erase _ _ _ _ _ _ _

/-- The traced loop of the packed extension computes what `packed_loop`
computes. -/
theorem packed_loop_traced_erase (score : Int) (endsfree compute_max : Bool) :
    ∀ (n : Nat) (k0 : Int) (al : wavefront_aligner_t) (w : wavefront_t) (mx : Int),
      (packed_loop_traced score endsfree compute_max n k0 al w mx).map Prod.fst =
        packed_loop score endsfree compute_max n k0 al w mx := by
  intro n
  induction n with
  | zero => intro k0 al w mx; rfl
  | succ n ih =>
    intro k0 al w mx
    rw [packed_loop_traced, packed_loop]
    by_cases hnull : w.offsets k0 = WAVEFRONT_OFFSET_NULL
    · rw [if_pos hnull, if_pos hnull]; exact ih _ _ _ _
    · rw [if_neg hnull, if_neg hnull, ← packed_diagonal_traced_erase]
      cases extend_packed_diagonal_traced al k0 (w.offsets k0) with
      | none => rfl
      | some r =>
        obtain ⟨o1, log⟩ := r
        simp only [Option.map_some']
        cases endsfree with
        | false =>
          simp only [Bool.false_eq_true, if_false]
          rw [← ih, Option.map_map]; rfl
        | true =>
          simp only [if_true]
          split_ifs <;> first | rfl | (rw [← ih, Option.map_map]; rfl)

/-- Every entry of the log of the loop of the packed extension is about a
diagonal of the range that was active on entry. -/
theorem packed_loop_traced_log (score : Int) (endsfree compute_max : Bool) :
    ∀ (n : Nat) (k0 : Int) (al : wavefront_aligner_t) (w : wavefront_t) (mx : Int)
      (r : (wavefront_aligner_t × wavefront_t × Int × Bool) × List engine_event),
      packed_loop_traced score endsfree compute_max n k0 al w mx = some r →
      ∀ e ∈ r.2, ∃ k, event_diagonal e = some k ∧ k0 ≤ k ∧ k < k0 + n ∧
        w.offsets k ≠ WAVEFRONT_OFFSET_NULL := by
  intro n
  induction n with
  | zero =>
    intro k0 al w mx r h
    rw [packed_loop_traced] at h
    cases h
    intro e he
    simp at he
  | succ n ih =>
    intro k0 al w mx r h
    rw [packed_loop_traced] at h
    by_cases hnull : w.offsets k0 = WAVEFRONT_OFFSET_NULL
    · rw [if_pos hnull] at h
      intro e he
      obtain ⟨k, h1, h2, h3, h4⟩ := ih _ _ _ _ _ h e he
      exact ⟨k, h1, by omega, by push_cast; omega, h4⟩
    · rw [if_neg hnull] at h
      cases hscan : extend_packed_diagonal_traced al k0 (w.offsets k0) with
      | none => rw [hscan] at h; simp at h
      | some r1 =>
        obtain ⟨o1, log⟩ := r1
        rw [hscan] at h
        simp only [] at h
        have hlog : ∀ e ∈ log, ∃ k, event_diagonal e = some k ∧ k0 ≤ k ∧
            k < k0 + (n + 1 : Nat) ∧ w.offsets k ≠ WAVEFRONT_OFFSET_NULL := by
          intro e he
          have := scan_blocks_traced_log _ _ _ _ _ _ _ _ hscan e he
          exact ⟨k0, by rw [this]; rfl, le_refl _, by push_cast; omega, hnull⟩
        have hchk : ∃ k, event_diagonal (endsfree_check k0 o1) = some k ∧ k0 ≤ k ∧
            k < k0 + (n + 1 : Nat) ∧ w.offsets k ≠ WAVEFRONT_OFFSET_NULL :=
          ⟨k0, rfl, le_refl _, by push_cast; omega, hnull⟩
        have hrest : ∀ (al1 : wavefront_aligner_t) (mx1 : Int)
            (r2 : (wavefront_aligner_t × wavefront_t × Int × Bool) × List engine_event),
            packed_loop_traced score endsfree compute_max n (k0 + 1) al1
              { w with offsets := Function.update w.offsets k0 o1 } mx1 = some r2 →
            ∀ e ∈ r2.2, ∃ k, event_diagonal e = some k ∧ k0 ≤ k ∧
              k < k0 + (n + 1 : Nat) ∧ w.offsets k ≠ WAVEFRONT_OFFSET_NULL := by
          intro al1 mx1 r2 hl e he
          obtain ⟨k, h1, h2, h3, h4⟩ := ih _ _ _ _ _ hl e he
          have hk : k ≠ k0 := by omega
          simp only [Function.update_noteq hk] at h4
          exact ⟨k, h1, by omega, by push_cast; omega, h4⟩
        generalize (if compute_max = true ∧
          mx < wf_offset_wrap (WAVEFRONT_ANTIDIAGONAL k0 o1) then
          wf_offset_wrap (WAVEFRONT_ANTIDIAGONAL k0 o1) else mx) = mx1 at h
        cases hef : endsfree with
        | false =>
          rw [hef] at h hrest
          simp only [Bool.false_eq_true, if_false] at h
          cases hl : packed_loop_traced score false compute_max n (k0 + 1) al
              { w with offsets := Function.update w.offsets k0 o1 } mx1 with
          | none => rw [hl] at h; simp at h
          | some r2 =>
            rw [hl] at h
            simp only [Option.map_some', Option.some.injEq] at h
            subst h
            intro e he
            simp only [List.mem_append] at he
            rcases he with he | he
            · exact hlog e he
            · exact hrest _ _ _ hl e he
        | true =>
          rw [hef] at h hrest
          simp only [if_true] at h
          split_ifs at h with hc
          · cases h
            intro e he
            simp only [List.mem_append, List.mem_singleton] at he
            rcases he with he | he
            · exact hlog e he
            · rw [he]; exact hchk
          · cases hl : packed_loop_traced score true compute_max n (k0 + 1)
                (wavefront_extend_endsfree_check_termination al
                  { w with offsets := Function.update w.offsets k0 o1 } score k0 o1).1
                { w with offsets := Function.update w.offsets k0 o1 } mx1 with
            | none => rw [hl] at h; simp at h
            | some r2 =>
              rw [hl] at h
              simp only [Option.map_some', Option.some.injEq] at h
              subst h
              intro e he
              simp only [List.mem_append, List.mem_cons] at he
              rcases he with he | he | he
              · exact hlog e he
              · rw [he]; exact hchk
              · exact hrest _ _ _ hl e he

/-- The traced loop of the custom extension computes what `custom_loop`
computes. -/
theorem custom_loop_traced_erase (fuel : Nat) (score : Int) (endsfree : Bool) :
    ∀ (n : Nat) (k0 : Int) (al : wavefront_aligner_t) (w : wavefront_t),
      (custom_loop_traced fuel score endsfree n k0 al w).map Prod.fst =
        custom_loop fuel score endsfree n k0 al w := by
  intro n
  induction n with
  | zero => intro k0 al w; rfl
  | succ n ih =>
    intro k0 al w
    rw [custom_loop_traced, custom_loop]
    by_cases hnull : w.offsets k0 = WAVEFRONT_OFFSET_NULL
    · rw [if_pos hnull, if_pos hnull]; exact ih _ _ _
    · rw [if_neg hnull, if_neg hnull, ← scan_custom_traced_erase al.match_funct k0]
      cases scan_custom_traced al.match_funct k0 fuel (WAVEFRONT_V k0 (w.offsets k0))
          (WAVEFRONT_H k0 (w.offsets k0)) (w.offsets k0) with
      | none => rfl
      | some r =>
        obtain ⟨o1, log⟩ := r
        simp only [Option.map_some']
        cases endsfree with
        | false =>
          simp only [Bool.false_eq_true, if_false]
          rw [← ih, Option.map_map]; rfl
        | true =>
          simp only [if_true]
          split_ifs <;> first | rfl | (rw [← ih, Option.map_map]; rfl)

/-- Every entry of the log of the loop of the custom extension is about a
diagonal of the range that was active on entry. -/
theorem custom_loop_traced_log (fuel : Nat) (score : Int) (endsfree : Bool) :
    ∀ (n : Nat) (k0 : Int) (al : wavefront_aligner_t) (w : wavefront_t)
      (r : (wavefront_aligner_t × wavefront_t × Bool) × List engine_event),
      custom_loop_traced fuel score endsfree n k0 al w = some r →
      ∀ e ∈ r.2, ∃ k, event_diagonal e = some k ∧ k0 ≤ k ∧ k < k0 + n ∧
        w.offsets k ≠ WAVEFRONT_OFFSET_NULL := by
  intro n
  induction n with
  | zero =>
    intro k0 al w r h
    rw [custom_loop_traced] at h
    cases h
    intro e he
    simp at he
  | succ n ih =>
    intro k0 al w r h
    rw [custom_loop_traced] at h
    by_cases hnull : w.offsets k0 = WAVEFRONT_OFFSET_NULL
    · rw [if_pos hnull] at h
      intro e he
      obtain ⟨k, h1, h2, h3, h4⟩ := ih _ _ _ _ h e he
      exact ⟨k, h1, by omega, by push_cast; omega, h4⟩
    · rw [if_neg hnull] at h
      cases hscan : scan_custom_traced al.match_funct k0 fuel (WAVEFRONT_V k0 (w.offsets k0))
          (WAVEFRONT_H k0 (w.offsets k0)) (w.offsets k0) with
      | none => rw [hscan] at h; simp at h
      | some r1 =>
        obtain ⟨o1, log⟩ := r1
        rw [hscan] at h
        simp only [] at h
        have hlog : ∀ e ∈ log, ∃ k, event_diagonal e = some k ∧ k0 ≤ k ∧
            k < k0 + (n + 1 : Nat) ∧ w.offsets k ≠ WAVEFRONT_OFFSET_NULL := by
          intro e he
          obtain ⟨v1, h1, hev⟩ := scan_custom_traced_log _ _ _ _ _ _ _ hscan e he
          exact ⟨k0, by rw [hev]; rfl, le_refl _, by push_cast; omega, hnull⟩
        have hchk : ∃ k, event_diagonal (endsfree_check k0 o1) = some k ∧ k0 ≤ k ∧
            k < k0 + (n + 1 : Nat) ∧ w.offsets k ≠ WAVEFRONT_OFFSET_NULL :=
          ⟨k0, rfl, le_refl _, by push_cast; omega, hnull⟩
        have hrest : ∀ (al1 : wavefront_aligner_t)
            (r2 : (wavefront_aligner_t × wavefront_t × Bool) × List engine_event),
            custom_loop_traced fuel score endsfree n (k0 + 1) al1
              { w with offsets := Function.update w.offsets k0 o1 } = some r2 →
            ∀ e ∈ r2.2, ∃ k, event_diagonal e = some k ∧ k0 ≤ k ∧
              k < k0 + (n + 1 : Nat) ∧ w.offsets k ≠ WAVEFRONT_OFFSET_NULL := by
          intro al1 r2 hl e he
          obtain ⟨k, h1, h2, h3, h4⟩ := ih _ _ _ _ hl e he
          have hk : k ≠ k0 := by omega
          simp only [Function.update_noteq hk] at h4
          exact ⟨k, h1, by omega, by push_cast; omega, h4⟩
        cases hef : endsfree with
        | false =>
          rw [hef] at h hrest
          simp only [Bool.false_eq_true, if_false] at h
          cases hl : custom_loop_traced fuel score false n (k0 + 1) al
              { w with offsets := Function.update w.offsets k0 o1 } with
          | none => rw [hl] at h; simp at h
          | some r2 =>
            rw [hl] at h
            simp only [Option.map_some', Option.some.injEq] at h
            subst h
            intro e he
            simp only [List.mem_append] at he
            rcases he with he | he
            · exact hlog e he
            · exact hrest _ _ hl e he
        | true =>
          rw [hef] at h hrest
          simp only [if_true] at h
          split_ifs at h with hc
          · cases h
            intro e he
            simp only [List.mem_append, List.mem_singleton] at he
            rcases he with he | he
            · exact hlog e he
            · rw [he]; exact hchk
          · cases hl : custom_loop_traced fuel score true n (k0 + 1)
                (wavefront_extend_endsfree_check_termination al
                  { w with offsets := Function.update w.offsets k0 o1 } score k0 o1).1
                { w with offsets := Function.update w.offsets k0 o1 } with
            | none => rw [hl] at h; simp at h
            | some r2 =>
              rw [hl] at h
              simp only [Option.map_some', Option.some.injEq] at h
              subst h
              intro e he
              simp only [List.mem_append, List.mem_cons] at he
              rcases he with he | he | he
              · exact hlog e he
              · rw [he]; exact hchk
              · exact hrest _ _ hl e he

/-- The traced packed extension computes what
`wavefront_extend_matches_packed` computes. -/
theorem packed_traced_erase (al : wavefront_aligner_t) (score score_mod : Int)
    (endsfree compute_max : Bool) :
    (wavefront_extend_matches_packed_traced al score score_mod endsfree compute_max).map
        Prod.fst =
      wavefront_extend_matches_packed al score score_mod endsfree compute_max := by
  unfold wavefront_extend_matches_packed_traced wavefront_extend_matches_packed
  cases al.wf_components.mwavefronts score_mod with
  | none => rfl
  | some mw =>
    simp only []
    rw [← packed_loop_traced_erase]
    cases packed_loop_traced score endsfree compute_max (mw.hi + 1 - mw.lo).toNat mw.lo al mw 0 with
    | none => rfl
    | some r =>
      obtain ⟨⟨al1, w1, mx, q⟩, log⟩ := r
      simp only [Option.map_some']
      split_ifs <;> rfl

/-- The traced custom extension computes what
`wavefront_extend_matches_custom` computes. -/
theorem custom_traced_erase (fuel : Nat) (al : wavefront_aligner_t) (score score_mod : Int)
    (endsfree : Bool) :
    (wavefront_extend_matches_custom_traced fuel al score score_mod endsfree).map Prod.fst =
      wavefront_extend_matches_custom fuel al score score_mod endsfree := by
  unfold wavefront_extend_matches_custom_traced wavefront_extend_matches_custom
  cases al.wf_components.mwavefronts score_mod with
  | none => rfl
  | some mw =>
    simp only []
    rw [← custom_loop_traced_erase]
    cases custom_loop_traced fuel score endsfree (mw.hi + 1 - mw.lo).toNat mw.lo al mw with
    | none => rfl
    | some r =>
      obtain ⟨⟨al1, w1, q⟩, log⟩ := r
      simp only [Option.map_some']
      split_ifs <;> rfl

/-- Every entry of the log of the packed extension is the end-to-end check or is
about a diagonal of `[lo,hi]` that was active on entry. -/
theorem packed_traced_log (al : wavefront_aligner_t) (score score_mod : Int)
    (endsfree compute_max : Bool) (mw : wavefront_t)
    (hmw : al.wf_components.mwavefronts score_mod = some mw)
    (r : (wavefront_aligner_t × Int) × List engine_event)
    (h : wavefront_extend_matches_packed_traced al score score_mod endsfree compute_max =
      some r) :
    ∀ e ∈ r.2, e = end2end_check ∨ ∃ k, event_diagonal e = some k ∧ mw.lo ≤ k ∧ k ≤ mw.hi ∧
      mw.offsets k ≠ WAVEFRONT_OFFSET_NULL := by
  unfold wavefront_extend_matches_packed_traced at h
  rw [hmw] at h
  simp only [] at h
  cases hl : packed_loop_traced score endsfree compute_max (mw.hi + 1 - mw.lo).toNat mw.lo al mw
      0 with
  | none => rw [hl] at h; simp at h
  | some r1 =>
    obtain ⟨⟨al1, w1, mx, q⟩, log⟩ := r1
    rw [hl] at h
    simp only [] at h
    have hlog : ∀ e ∈ log, e = end2end_check ∨ ∃ k, event_diagonal e = some k ∧ mw.lo ≤ k ∧
        k ≤ mw.hi ∧ mw.offsets k ≠ WAVEFRONT_OFFSET_NULL := by
      intro e he
      obtain ⟨k, h1, h2, h3, h4⟩ := packed_loop_traced_log _ _ _ _ _ _ _ _ _ hl e he
      exact Or.inr ⟨k, h1, h2, by omega, h4⟩
    split_ifs at h <;> cases h <;> intro e he
    · exact hlog e he
    · exact hlog e he
    · simp only [List.mem_append, List.mem_singleton] at he
      rcases he with he | he
      · exact hlog e he
      · exact Or.inl he
    · simp only [List.mem_append, List.mem_singleton] at he
      rcases he with he | he
      · exact hlog e he
      · exact Or.inl he
    · exact hlog e he

/-- Every entry of the log of the custom extension is the end-to-end check or is
about a diagonal of `[lo,hi]` that was active on entry. -/
theorem custom_traced_log (fuel : Nat) (al : wavefront_aligner_t) (score score_mod : Int)
    (endsfree : Bool) (mw : wavefront_t)
    (hmw : al.wf_components.mwavefronts score_mod = some mw)
    (r : (wavefront_aligner_t × Bool) × List engine_event)
    (h : wavefront_extend_matches_custom_traced fuel al score score_mod endsfree = some r) :
    ∀ e ∈ r.2, e = end2end_check ∨ ∃ k, event_diagonal e = some k ∧ mw.lo ≤ k ∧ k ≤ mw.hi ∧
      mw.offsets k ≠ WAVEFRONT_OFFSET_NULL := by
  unfold wavefront_extend_matches_custom_traced at h
  rw [hmw] at h
  simp only [] at h
  cases hl : custom_loop_traced fuel score endsfree (mw.hi + 1 - mw.lo).toNat mw.lo al mw with
  | none => rw [hl] at h; simp at h
  | some r1 =>
    obtain ⟨⟨al1, w1, q⟩, log⟩ := r1
    rw [hl] at h
    simp only [] at h
    have hlog : ∀ e ∈ log, e = end2end_check ∨ ∃ k, event_diagonal e = some k ∧ mw.lo ≤ k ∧
        k ≤ mw.hi ∧ mw.offsets k ≠ WAVEFRONT_OFFSET_NULL := by
      intro e he
      obtain ⟨k, h1, h2, h3, h4⟩ := custom_loop_traced_log _ _ _ _ _ _ _ _ hl e he
      exact Or.inr ⟨k, h1, h2, by omega, h4⟩
    split_ifs at h <;> cases h <;> intro e he
    · exact hlog e he
    · simp only [List.mem_append, List.mem_singleton] at he
      rcases he with he | he
      · exact hlog e he
      · exact Or.inl he
    · exact hlog e he

/-! ## The shape of the two loops -/

/-- The loop of the packed extension is an instance of `extend_loop`. -/
theorem packed_loop_shape (score : Int) (endsfree compute_max : Bool) :
    ∀ (n : Nat) (k0 : Int) (al : wavefront_aligner_t) (w : wavefront_t) (mx : Int),
      packed_loop score endsfree compute_max n k0 al w mx =
        extend_loop (extend_packed_diagonal al) score endsfree compute_max n k0 al w mx := by
  intro n
  induction n with
  | zero => intro k0 al w mx; rfl
  | succ n ih =>
    intro k0 al w mx
    rw [packed_loop, extend_loop]
    by_cases hnull : w.offsets k0 = WAVEFRONT_OFFSET_NULL
    · rw [if_pos hnull, if_pos hnull]; exact ih _ _ _ _
    · rw [if_neg hnull, if_neg hnull]
      cases extend_packed_diagonal al k0 (w.offsets k0) with
      | none => rfl
      | some o1 =>
        simp only []
        generalize (if compute_max = true ∧
          mx < wf_offset_wrap (WAVEFRONT_ANTIDIAGONAL k0 o1) then
          wf_offset_wrap (WAVEFRONT_ANTIDIAGONAL k0 o1) else mx) = mx1
        cases endsfree with
        | false =>
          simp only [Bool.false_eq_true, if_false]
          exact ih _ _ _ _
        | true =>
          simp only [if_true]
          by_cases hchk : (wavefront_extend_endsfree_check_termination al
              { w with offsets := Function.update w.offsets k0 o1 } score k0 o1).2 = true
          · rw [if_pos hchk, if_pos hchk]
          · rw [if_neg hchk, if_neg hchk,
              endsfree_check_false _ _ _ _ _ (by simpa using hchk)]
            exact ih _ _ _ _

/-- The loop of the custom extension is an instance of `extend_loop`, run
without maximum tracking. -/
theorem custom_loop_shape (fuel : Nat) (score : Int) (endsfree : Bool) :
    ∀ (n : Nat) (k0 : Int) (al : wavefront_aligner_t) (w : wavefront_t) (mx : Int),
      custom_loop fuel score endsfree n k0 al w =
        (extend_loop (custom_diagonal fuel al) score endsfree false n k0 al w mx).map
          (fun r => (r.1, r.2.1, r.2.2.2)) := by
  intro n
  induction n with
  | zero => intro k0 al w mx; rfl
  | succ n ih =>
    intro k0 al w mx
    rw [custom_loop, extend_loop]
    by_cases hnull : w.offsets k0 = WAVEFRONT_OFFSET_NULL
    · rw [if_pos hnull, if_pos hnull]; exact ih _ _ _ _
    · rw [if_neg hnull, if_neg hnull]
      show (match custom_diagonal fuel al k0 (w.offsets k0) with
        | none => none
        | some offset => _) = _
      cases custom_diagonal fuel al k0 (w.offsets k0) with
      | none => rfl
      | some o1 =>
        simp only [Bool.false_eq_true, false_and, if_false]
        cases endsfree with
        | false =>
          simp only [Bool.false_eq_true, if_false]
          exact ih _ _ _ _
        | true =>
          simp only [if_true]
          by_cases hchk : (wavefront_extend_endsfree_check_termination al
              { w with offsets := Function.update w.offsets k0 o1 } score k0 o1).2 = true
          · rw [if_pos hchk, if_pos hchk]; rfl
          · rw [if_neg hchk, if_neg hchk,
              endsfree_check_false _ _ _ _ _ (by simpa using hchk)]
            exact ih _ _ _ _

/-- The ends-free check does not look at the wavefront it is given. -/
theorem endsfree_check_wavefront (al : wavefront_aligner_t) (w1 w2 : wavefront_t)
    (score k o : Int) :
    wavefront_extend_endsfree_check_termination al w1 score k o =
      wavefront_extend_endsfree_check_termination al w2 score k o := rfl

/-- The ends-free check sets the end position to `{score, k, offset}` when it
returns true. -/
theorem endsfree_check_true (al : wavefront_aligner_t) (mw : wavefront_t) (score k o : Int)
    (h : (wavefront_extend_endsfree_check_termination al mw score k o).2 = true) :
    (wavefront_extend_endsfree_check_termination al mw score k o).1 =
      { al with alignment_end_pos := ⟨score, k, o⟩ } := by
  rw [endsfree_check_spec] at h ⊢
  split_ifs at h ⊢ with hc
  rfl

/-- What a loop of the extension leaves.  The range of the wavefront is kept,
offsets outside the diagonals of the loop and sentinel offsets are kept.  If
the loop does not quit, the aligner is as before, every active diagonal has
been compared and none passed the ends-free check (when that is on).  If it
quits, the ends-free flag is on and there is a diagonal `kq`, active on entry,
whose compared offset passed the check and is recorded as the end position;
the active diagonals below `kq` have been compared and did not pass the check,
and the diagonals above `kq` hold their entry offsets. -/
theorem extend_loop_spec (scan : Int → Int → Option Int) (score : Int)
    (endsfree compute_max : Bool) :
    ∀ (n : Nat) (k0 : Int) (al : wavefront_aligner_t) (w : wavefront_t) (mx : Int)
      (r : wavefront_aligner_t × wavefront_t × Int × Bool),
      extend_loop scan score endsfree compute_max n k0 al w mx = some r →
      r.2.1.lo = w.lo ∧ r.2.1.hi = w.hi ∧
      (∀ k, (k < k0 ∨ k0 + n ≤ k) → r.2.1.offsets k = w.offsets k) ∧
      (∀ k, w.offsets k = WAVEFRONT_OFFSET_NULL → r.2.1.offsets k = WAVEFRONT_OFFSET_NULL) ∧
      (r.2.2.2 = false → r.1 = al ∧
        ∀ k, k0 ≤ k → k < k0 + n → w.offsets k ≠ WAVEFRONT_OFFSET_NULL →
          scan k (w.offsets k) = some (r.2.1.offsets k) ∧
          (endsfree = true →
            (wavefront_extend_endsfree_check_termination al w score k
              (r.2.1.offsets k)).2 = false)) ∧
      (r.2.2.2 = true → endsfree = true ∧
        ∃ kq, k0 ≤ kq ∧ kq < k0 + n ∧ w.offsets kq ≠ WAVEFRONT_OFFSET_NULL ∧
          scan kq (w.offsets kq) = some (r.2.1.offsets kq) ∧
          (wavefront_extend_endsfree_check_termination al w score kq
            (r.2.1.offsets kq)).2 = true ∧
          r.1 = { al with alignment_end_pos := ⟨score, kq, r.2.1.offsets kq⟩ } ∧
          (∀ j, k0 ≤ j → j < kq → w.offsets j ≠ WAVEFRONT_OFFSET_NULL →
            scan j (w.offsets j) = some (r.2.1.offsets j) ∧
            (wavefront_extend_endsfree_check_termination al w score j
              (r.2.1.offsets j)).2 = false) ∧
          ∀ j, kq < j → r.2.1.offsets j = w.offsets j) := by
  intro n
  induction n with
  | zero =>
    intro k0 al w mx r h
    rw [extend_loop] at h
    cases h
    refine ⟨rfl, rfl, fun _ _ => rfl, fun _ hk => hk, fun _ => ⟨rfl, ?_⟩, ?_⟩
    · intro k h1 h2; omega
    · intro hq; simp at hq
  | succ n ih =>
    intro k0 al w mx r h
    rw [extend_loop] at h
    by_cases hnull : w.offsets k0 = WAVEFRONT_OFFSET_NULL
    · rw [if_pos hnull] at h
      obtain ⟨h1, h2, h3, h4, h5, h6⟩ := ih _ _ _ _ _ h
      refine ⟨h1, h2, ?_, h4, ?_, ?_⟩
      · intro k hk
        exact h3 k (by push_cast at hk; omega)
      · intro hq
        obtain ⟨ha, hb⟩ := h5 hq
        refine ⟨ha, ?_⟩
        intro k hk1 hk2 hk3
        have hk : k ≠ k0 := fun hk => hk3 (hk ▸ hnull)
        exact hb k (by omega) (by push_cast at hk2; omega) hk3
      · intro hq
        obtain ⟨hef, kq, a1, a2, a3, a4, a5, a6, a7, a8⟩ := h6 hq
        refine ⟨hef, kq, by omega, by push_cast; omega, a3, a4, a5, a6, ?_, a8⟩
        intro j hj1 hj2 hj3
        have hj : j ≠ k0 := fun hj => hj3 (hj ▸ hnull)
        exact a7 j (by omega) hj2 hj3
    · rw [if_neg hnull] at h
      cases hscan : scan k0 (w.offsets k0) with
      | none => rw [hscan] at h; simp at h
      | some o1 =>
        rw [hscan] at h
        simp only [] at h
        have hupd_self : Function.update w.offsets k0 o1 k0 = o1 := Function.update_same _ _ _
        have hupd_other : ∀ k, k ≠ k0 → Function.update w.offsets k0 o1 k = w.offsets k :=
          fun k hk => Function.update_noteq hk _ _
        -- the case where the loop goes on to the next diagonal
        generalize (if compute_max = true ∧
          mx < wf_offset_wrap (WAVEFRONT_ANTIDIAGONAL k0 o1) then
          wf_offset_wrap (WAVEFRONT_ANTIDIAGONAL k0 o1) else mx) = mx1 at h
        have hcont : (endsfree = true →
              (wavefront_extend_endsfree_check_termination al w score k0 o1).2 = false) →
            extend_loop scan score endsfree compute_max n (k0 + 1) al
              { w with offsets := Function.update w.offsets k0 o1 } mx1 = some r →
            r.2.1.lo = w.lo ∧ r.2.1.hi = w.hi ∧
            (∀ k, (k < k0 ∨ k0 + (n + 1 : Nat) ≤ k) → r.2.1.offsets k = w.offsets k) ∧
            (∀ k, w.offsets k = WAVEFRONT_OFFSET_NULL →
              r.2.1.offsets k = WAVEFRONT_OFFSET_NULL) ∧
            (r.2.2.2 = false → r.1 = al ∧
              ∀ k, k0 ≤ k → k < k0 + (n + 1 : Nat) → w.offsets k ≠ WAVEFRONT_OFFSET_NULL →
                scan k (w.offsets k) = some (r.2.1.offsets k) ∧
                (endsfree = true →
                  (wavefront_extend_endsfree_check_termination al w score k
                    (r.2.1.offsets k)).2 = false)) ∧
            (r.2.2.2 = true → endsfree = true ∧
              ∃ kq, k0 ≤ kq ∧ kq < k0 + (n + 1 : Nat) ∧
                w.offsets kq ≠ WAVEFRONT_OFFSET_NULL ∧
                scan kq (w.offsets kq) = some (r.2.1.offsets kq) ∧
                (wavefront_extend_endsfree_check_termination al w score kq
                  (r.2.1.offsets kq)).2 = true ∧
                r.1 = { al with alignment_end_pos := ⟨score, kq, r.2.1.offsets kq⟩ } ∧
                (∀ j, k0 ≤ j → j < kq → w.offsets j ≠ WAVEFRONT_OFFSET_NULL →
                  scan j (w.offsets j) = some (r.2.1.offsets j) ∧
                  (wavefront_extend_endsfree_check_termination al w score j
                    (r.2.1.offsets j)).2 = false) ∧
                ∀ j, kq < j → r.2.1.offsets j = w.offsets j) := by
          intro hchk0 hl
          obtain ⟨h1, h2, h3, h4, h5, h6⟩ := ih _ _ _ _ _ hl
          simp only [] at h3 h4 h5 h6
          have hk0 : r.2.1.offsets k0 = o1 := by
            rw [h3 k0 (Or.inl (by omega))]; exact hupd_self
          refine ⟨h1, h2, ?_, ?_, ?_, ?_⟩
          · intro k hk
            have hne : k ≠ k0 := by push_cast at hk; omega
            rw [h3 k (by push_cast at hk; omega)]
            exact hupd_other k hne
          · intro k hk
            have hne : k ≠ k0 := fun hne => hnull (hne ▸ hk)
            exact h4 k (by rw [hupd_other k hne]; exact hk)
          · intro hq
            obtain ⟨ha, hb⟩ := h5 hq
            refine ⟨ha, ?_⟩
            intro k hk1 hk2 hk3
            by_cases hk : k = k0
            · subst hk
              rw [hk0]
              exact ⟨hscan, hchk0⟩
            · have := hb k (by omega) (by push_cast at hk2; omega)
                (by rw [hupd_other k hk]; exact hk3)
              rw [hupd_other k hk] at this
              exact this
          · intro hq
            obtain ⟨hef, kq, a1, a2, a3, a4, a5, a6, a7, a8⟩ := h6 hq
            have hkq : kq ≠ k0 := by omega
            rw [hupd_other kq hkq] at a3 a4
            refine ⟨hef, kq, by omega, by push_cast; omega, a3, a4, a5, a6, ?_, ?_⟩
            · intro j hj1 hj2 hj3
              by_cases hj : j = k0
              · subst hj
                rw [hk0]
                exact ⟨hscan, hchk0 hef⟩
              · have := a7 j (by omega) hj2 (by rw [hupd_other j hj]; exact hj3)
                rw [hupd_other j hj] at this
                exact this
            · intro j hj
              rw [a8 j hj]
              exact hupd_other j (by omega)
        cases hef : endsfree with
        | false =>
          rw [hef] at h hcont
          simp only [Bool.false_eq_true, if_false] at h
          exact hcont (fun hf => by simp at hf) h
        | true =>
          rw [hef] at h hcont
          simp only [if_true] at h
          by_cases hchk : (wavefront_extend_endsfree_check_termination al
              { w with offsets := Function.update w.offsets k0 o1 } score k0 o1).2 = true
          · rw [if_pos hchk] at h
            cases h
            refine ⟨rfl, rfl, ?_, ?_, ?_, ?_⟩
            · intro k hk
              exact hupd_other k (by push_cast at hk; omega)
            · intro k hk
              have hne : k ≠ k0 := fun hne => hnull (hne ▸ hk)
              simp only []
              rw [hupd_other k hne]; exact hk
            · intro hq; simp at hq
            · intro _
              refine ⟨rfl, k0, le_refl _, by push_cast; omega, hnull, ?_, ?_, ?_, ?_, ?_⟩
              · simp only []; rw [hupd_self]; exact hscan
              · simp only []; rw [hupd_self]; exact hchk
              · simp only []; rw [hupd_self]; exact endsfree_check_true _ _ _ _ _ hchk
              · intro j hj1 hj2; omega
              · intro j hj
                exact hupd_other j (by omega)
          · rw [if_neg hchk, endsfree_check_false _ _ _ _ _ (by simpa using hchk)] at h
            exact hcont (fun _ => by simpa using hchk) h

/-- The maximum antidiagonal a loop with maximum tracking leaves, with the
antidiagonals as the 32-bit offset type holds them: it is at least the entry
value, it is the entry value or the antidiagonal of an active diagonal of the
loop at its final offset, and, when the loop does not quit, it bounds the
antidiagonal of every active diagonal of the loop at its final offset. -/
theorem extend_loop_max (scan : Int → Int → Option Int) (score : Int) (endsfree : Bool) :
    ∀ (n : Nat) (k0 : Int) (al : wavefront_aligner_t) (w : wavefront_t) (mx : Int)
      (r : wavefront_aligner_t × wavefront_t × Int × Bool),
      extend_loop scan score endsfree true n k0 al w mx = some r →
      mx ≤ r.2.2.1 ∧
      (r.2.2.1 = mx ∨ ∃ k, k0 ≤ k ∧ k < k0 + n ∧ w.offsets k ≠ WAVEFRONT_OFFSET_NULL ∧
        r.2.2.1 = wf_offset_wrap (WAVEFRONT_ANTIDIAGONAL k (r.2.1.offsets k))) ∧
      (r.2.2.2 = false → ∀ k, k0 ≤ k → k < k0 + n → w.offsets k ≠ WAVEFRONT_OFFSET_NULL →
        wf_offset_wrap (WAVEFRONT_ANTIDIAGONAL k (r.2.1.offsets k)) ≤ r.2.2.1) := by
  intro n
  induction n with
  | zero =>
    intro k0 al w mx r h
    rw [extend_loop] at h
    cases h
    refine ⟨le_refl _, Or.inl rfl, ?_⟩
    intro _ k h1 h2; omega
  | succ n ih =>
    intro k0 al w mx r h
    have hspec := extend_loop_spec _ _ _ _ _ _ _ _ _ _ h
    rw [extend_loop] at h
    by_cases hnull : w.offsets k0 = WAVEFRONT_OFFSET_NULL
    · rw [if_pos hnull] at h
      obtain ⟨h1, h2, h3⟩ := ih _ _ _ _ _ h
      refine ⟨h1, ?_, ?_⟩
      · rcases h2 with h2 | ⟨k, a1, a2, a3, a4⟩
        · exact Or.inl h2
        · exact Or.inr ⟨k, by omega, by push_cast; omega, a3, a4⟩
      · intro hq k hk1 hk2 hk3
        have hk : k ≠ k0 := fun hk => hk3 (hk ▸ hnull)
        exact h3 hq k (by omega) (by push_cast at hk2; omega) hk3
    · rw [if_neg hnull] at h
      cases hscan : scan k0 (w.offsets k0) with
      | none => rw [hscan] at h; simp at h
      | some o1 =>
        rw [hscan] at h
        simp only [true_and] at h
        have hupd_self : Function.update w.offsets k0 o1 k0 = o1 := Function.update_same _ _ _
        have hupd_other : ∀ k, k ≠ k0 → Function.update w.offsets k0 o1 k = w.offsets k :=
          fun k hk => Function.update_noteq hk _ _
        have hmx1 : mx ≤ (if mx < wf_offset_wrap (WAVEFRONT_ANTIDIAGONAL k0 o1) then
            wf_offset_wrap (WAVEFRONT_ANTIDIAGONAL k0 o1) else mx) ∧
            wf_offset_wrap (WAVEFRONT_ANTIDIAGONAL k0 o1) ≤
              (if mx < wf_offset_wrap (WAVEFRONT_ANTIDIAGONAL k0 o1) then
                wf_offset_wrap (WAVEFRONT_ANTIDIAGONAL k0 o1) else mx) ∧
            ((if mx < wf_offset_wrap (WAVEFRONT_ANTIDIAGONAL k0 o1) then
              wf_offset_wrap (WAVEFRONT_ANTIDIAGONAL k0 o1) else mx) = mx ∨
             (if mx < wf_offset_wrap (WAVEFRONT_ANTIDIAGONAL k0 o1) then
              wf_offset_wrap (WAVEFRONT_ANTIDIAGONAL k0 o1) else mx) =
                wf_offset_wrap (WAVEFRONT_ANTIDIAGONAL k0 o1)) := by
          split_ifs with hlt
          · exact ⟨by omega, le_refl _, Or.inr rfl⟩
          · exact ⟨le_refl _, by omega, Or.inl rfl⟩
        generalize (if mx < wf_offset_wrap (WAVEFRONT_ANTIDIAGONAL k0 o1) then
          wf_offset_wrap (WAVEFRONT_ANTIDIAGONAL k0 o1) else mx) = mx1 at h hmx1
        obtain ⟨m1, m2, m3⟩ := hmx1
        -- the offset of k0 is final once it is written
        have hcont : extend_loop scan score endsfree true n (k0 + 1) al
              { w with offsets := Function.update w.offsets k0 o1 } mx1 = some r →
            mx ≤ r.2.2.1 ∧
            (r.2.2.1 = mx ∨ ∃ k, k0 ≤ k ∧ k < k0 + (n + 1 : Nat) ∧
              w.offsets k ≠ WAVEFRONT_OFFSET_NULL ∧
              r.2.2.1 = wf_offset_wrap (WAVEFRONT_ANTIDIAGONAL k (r.2.1.offsets k))) ∧
            (r.2.2.2 = false → ∀ k, k0 ≤ k → k < k0 + (n + 1 : Nat) →
              w.offsets k ≠ WAVEFRONT_OFFSET_NULL →
              wf_offset_wrap (WAVEFRONT_ANTIDIAGONAL k (r.2.1.offsets k)) ≤ r.2.2.1) := by
          intro hl
          obtain ⟨h1, h2, h3⟩ := ih _ _ _ _ _ hl
          have hk0 : r.2.1.offsets k0 = o1 := by
            rw [(extend_loop_spec _ _ _ _ _ _ _ _ _ _ hl).2.2.1 k0 (Or.inl (by omega))]
            exact hupd_self
          refine ⟨le_trans m1 h1, ?_, ?_⟩
          · rcases h2 with h2 | ⟨k, a1, a2, a3, a4⟩
            · rcases m3 with m3 | m3
              · exact Or.inl (h2.trans m3)
              · exact Or.inr ⟨k0, le_refl _, by push_cast; omega, hnull, by
                  rw [h2, m3, hk0]⟩
            · have hk : k ≠ k0 := by omega
              simp only [] at a3
              rw [hupd_other k hk] at a3
              exact Or.inr ⟨k, by omega, by push_cast; omega, a3, a4⟩
          · intro hq k hk1 hk2 hk3
            by_cases hk : k = k0
            · subst hk
              rw [hk0]
              exact le_trans m2 h1
            · exact h3 hq k (by omega) (by push_cast at hk2; omega)
                (by simp only []; rw [hupd_other k hk]; exact hk3)
        cases hef : endsfree with
        | false =>
          rw [hef] at h hcont
          simp only [Bool.false_eq_true, if_false] at h
          exact hcont h
        | true =>
          rw [hef] at h hcont
          simp only [if_true] at h
          by_cases hchk : (wavefront_extend_endsfree_check_termination al
              { w with offsets := Function.update w.offsets k0 o1 } score k0 o1).2 = true
          · rw [if_pos hchk] at h
            cases h
            refine ⟨m1, ?_, ?_⟩
            · rcases m3 with m3 | m3
              · exact Or.inl m3
              · exact Or.inr ⟨k0, le_refl _, by push_cast; omega, hnull, by
                  simp only []; rw [hupd_self]; exact m3⟩
            · intro hq; simp at hq
          · rw [if_neg hchk, endsfree_check_false _ _ _ _ _ (by simpa using hchk)] at h
            exact hcont h

/-- Without maximum tracking a loop leaves the maximum antidiagonal as it
was. -/
theorem extend_loop_no_max (scan : Int → Int → Option Int) (score : Int) (endsfree : Bool) :
    ∀ (n : Nat) (k0 : Int) (al : wavefront_aligner_t) (w : wavefront_t) (mx : Int)
      (r : wavefront_aligner_t × wavefront_t × Int × Bool),
      extend_loop scan score endsfree false n k0 al w mx = some r → r.2.2.1 = mx := by
  intro n
  induction n with
  | zero =>
    intro k0 al w mx r h
    rw [extend_loop] at h
    cases h
    rfl
  | succ n ih =>
    intro k0 al w mx r h
    rw [extend_loop] at h
    by_cases hnull : w.offsets k0 = WAVEFRONT_OFFSET_NULL
    · rw [if_pos hnull] at h
      exact ih _ _ _ _ _ h
    · rw [if_neg hnull] at h
      cases hscan : scan k0 (w.offsets k0) with
      | none => rw [hscan] at h; simp at h
      | some o1 =>
        rw [hscan] at h
        simp only [Bool.false_eq_true, false_and, if_false] at h
        split_ifs at h with h1 h2
        · cases h; rfl
        · exact ih _ _ _ _ _ h
        · exact ih _ _ _ _ _ h

/-- The packed extension on a present M-wavefront: the loop, then the write-back
and the return of the source. -/
theorem packed_unfold (al : wavefront_aligner_t) (score score_mod : Int)
    (endsfree compute_max : Bool) (mw : wavefront_t)
    (hmw : al.wf_components.mwavefronts score_mod = some mw) :
    wavefront_extend_matches_packed al score score_mod endsfree compute_max =
      (extend_loop (extend_packed_diagonal al) score endsfree compute_max
        (mw.hi + 1 - mw.lo).toNat mw.lo al mw 0).map
        (fun r =>
          if r.2.2.2 then (store_mwavefront r.1 score_mod r.2.1, 1)
          else if compute_max then (store_mwavefront r.1 score_mod r.2.1, r.2.2.1)
          else if !endsfree then
            ((wavefront_extend_end2end_check_termination
                (store_mwavefront r.1 score_mod r.2.1) r.2.1 score score_mod).1,
              if (wavefront_extend_end2end_check_termination
                (store_mwavefront r.1 score_mod r.2.1) r.2.1 score score_mod).2 then 1 else 0)
          else (store_mwavefront r.1 score_mod r.2.1, 0)) := by
  unfold wavefront_extend_matches_packed
  rw [hmw]
  simp only []
  rw [packed_loop_shape]
  cases extend_loop (extend_packed_diagonal al) score endsfree compute_max
      (mw.hi + 1 - mw.lo).toNat mw.lo al mw 0 with
  | none => rfl
  | some r =>
    obtain ⟨al1, w1, mx, q⟩ := r
    simp only [Option.map_some']
    split_ifs <;> rfl

/-- The custom extension on a present M-wavefront: the loop, then the write-back
and the return of the source. -/
theorem custom_unfold (fuel : Nat) (al : wavefront_aligner_t) (score score_mod : Int)
    (endsfree : Bool) (mw : wavefront_t)
    (hmw : al.wf_components.mwavefronts score_mod = some mw) :
    wavefront_extend_matches_custom fuel al score score_mod endsfree =
      (extend_loop (custom_diagonal fuel al) score endsfree false
        (mw.hi + 1 - mw.lo).toNat mw.lo al mw 0).map
        (fun r =>
          if r.2.2.2 then (store_mwavefront r.1 score_mod r.2.1, true)
          else if !endsfree then
            wavefront_extend_end2end_check_termination
              (store_mwavefront r.1 score_mod r.2.1) r.2.1 score score_mod
          else (store_mwavefront r.1 score_mod r.2.1, false)) := by
  unfold wavefront_extend_matches_custom
  rw [hmw]
  simp only []
  rw [custom_loop_shape fuel score endsfree _ _ _ _ 0]
  cases extend_loop (custom_diagonal fuel al) score endsfree false
      (mw.hi + 1 - mw.lo).toNat mw.lo al mw 0 with
  | none => rfl
  | some r =>
    obtain ⟨al1, w1, mx, q⟩ := r
    simp only [Option.map_some']
    split_ifs <;> rfl

/-- The M-wavefront of the slot after the write-back. -/
theorem store_mwavefront_slot (al : wavefront_aligner_t) (score_mod : Int) (w : wavefront_t) :
    (store_mwavefront al score_mod w).wf_components.mwavefronts score_mod = some w := by
  simp [store_mwavefront]

/-- The outcome of an ends-free loop over `[lo,hi]`, as `endsfree_exit` states
it. -/
theorem extend_loop_endsfree_exit (scan : Int → Int → Option Int) (score : Int)
    (compute_max : Bool) (al : wavefront_aligner_t) (mw : wavefront_t) (mx : Int)
    (r : wavefront_aligner_t × wavefront_t × Int × Bool) (score_mod : Int)
    (h : extend_loop scan score true compute_max (mw.hi + 1 - mw.lo).toNat mw.lo al mw mx =
      some r) :
    endsfree_exit scan al score mw r.2.1 (store_mwavefront r.1 score_mod r.2.1) r.2.2.2 := by
  obtain ⟨-, -, -, -, h5, h6⟩ := extend_loop_spec _ _ _ _ _ _ _ _ _ _ h
  constructor
  · intro hq
    obtain ⟨-, kq, a1, a2, a3, a4, a5, a6, a7, a8⟩ := h6 hq
    refine ⟨kq, a1, by omega, a3, a4, a5, ?_, a7, a8⟩
    rw [a6]; rfl
  · intro hq
    obtain ⟨ha, hb⟩ := h5 hq
    refine ⟨by rw [ha]; rfl, ?_⟩
    intro j hj1 hj2 hj3
    obtain ⟨b1, b2⟩ := hb j hj1 (by omega) hj3
    exact ⟨b1, b2 rfl⟩

/-- The outcome of the packed extension in ends-free mode, without maximum
tracking. -/
theorem packed_endsfree_exit (al : wavefront_aligner_t) (score score_mod : Int)
    (mw : wavefront_t) (hmw : al.wf_components.mwavefronts score_mod = some mw)
    (res : wavefront_aligner_t × Int)
    (hres : wavefront_extend_matches_packed al score score_mod true false = some res) :
    ∃ mw1, res.1.wf_components.mwavefronts score_mod = some mw1 ∧
      endsfree_exit (extend_packed_diagonal al) al score mw mw1 res.1 (decide (res.2 ≠ 0)) := by
  rw [packed_unfold al score score_mod true false mw hmw] at hres
  cases hl : extend_loop (extend_packed_diagonal al) score true false
      (mw.hi + 1 - mw.lo).toNat mw.lo al mw 0 with
  | none => rw [hl] at hres; simp at hres
  | some r =>
    rw [hl] at hres
    have hexit := extend_loop_endsfree_exit _ _ _ _ _ _ _ score_mod hl
    simp only [Option.map_some', Option.some.injEq, Bool.false_eq_true, if_false,
      Bool.not_true] at hres
    subst hres
    cases hq : r.2.2.2 with
    | true =>
      rw [hq] at hexit
      simp only [if_true]
      exact ⟨r.2.1, store_mwavefront_slot _ _ _, by simpa using hexit⟩
    | false =>
      rw [hq] at hexit
      simp only [Bool.false_eq_true, if_false]
      exact ⟨r.2.1, store_mwavefront_slot _ _ _, by simpa using hexit⟩

/-- The outcome of the custom extension in ends-free mode. -/
theorem custom_endsfree_exit (fuel : Nat) (al : wavefront_aligner_t) (score score_mod : Int)
    (mw : wavefront_t) (hmw : al.wf_components.mwavefronts score_mod = some mw)
    (res : wavefront_aligner_t × Bool)
    (hres : wavefront_extend_matches_custom fuel al score score_mod true = some res) :
    ∃ mw1, res.1.wf_components.mwavefronts score_mod = some mw1 ∧
      endsfree_exit (custom_diagonal fuel al) al score mw mw1 res.1 res.2 := by
  rw [custom_unfold fuel al score score_mod true mw hmw] at hres
  cases hl : extend_loop (custom_diagonal fuel al) score true false
      (mw.hi + 1 - mw.lo).toNat mw.lo al mw 0 with
  | none => rw [hl] at hres; simp at hres
  | some r =>
    rw [hl] at hres
    have hexit := extend_loop_endsfree_exit _ _ _ _ _ _ _ score_mod hl
    simp only [Option.map_some', Option.some.injEq, Bool.false_eq_true, if_false,
      Bool.not_true] at hres
    subst hres
    cases hq : r.2.2.2 with
    | true =>
      rw [hq] at hexit
      simp only [if_true]
      exact ⟨r.2.1, store_mwavefront_slot _ _ _, hexit⟩
    | false =>
      rw [hq] at hexit
      simp only [Bool.false_eq_true, if_false]
      exact ⟨r.2.1, store_mwavefront_slot _ _ _, hexit⟩

/-- C18: when the packed extension (no maximum tracking) or the custom extension
is run in ends-free mode and returns, the outcome is as `endsfree_exit` states
it: on done, the end position is `{score, k, extended offset of k}` for the
lowest active diagonal `k` of `[lo,hi]` whose extended offset passes the
ends-free check, the active diagonals below `k` are extended and the diagonals
above `k` hold their entry offsets; on not-done every active diagonal is
extended and none passes the check. -/
theorem endsfree_early_exit (al : wavefront_aligner_t) (score score_mod : Int) (fuel : Nat)
    (mw : wavefront_t) (hmw : al.wf_components.mwavefronts score_mod = some mw) :
    (∀ res, wavefront_extend_matches_packed al score score_mod true false = some res →
      ∃ mw1, res.1.wf_components.mwavefronts score_mod = some mw1 ∧
        endsfree_exit (extend_packed_diagonal al) al score mw mw1 res.1 (decide (res.2 ≠ 0))) ∧
    (∀ res, wavefront_extend_matches_custom fuel al score score_mod true = some res →
      ∃ mw1, res.1.wf_components.mwavefronts score_mod = some mw1 ∧
        endsfree_exit (custom_diagonal fuel al) al score mw mw1 res.1 res.2) :=
  ⟨fun res hres => packed_endsfree_exit al score score_mod mw hmw res hres,
    fun res hres => custom_endsfree_exit fuel al score score_mod mw hmw res hres⟩

/-- C18, witness: text "AAAA", pattern "AAAAXX", pattern slack 2, diagonals -1
and 0 at offset 0 and diagonal 1 at offset 1.  Diagonal -1 is extended to 3 and
does not pass the check, diagonal 0 is extended to 4 and passes it, diagonal 1
is left at 1; both strategies report done with end position `{0, 0, 4}`. -/
theorem endsfree_early_exit_witness :
    (wavefront_extend_matches_packed
        (scenario "AAAAXX" "AAAA" affine_matrix_M ⟨alignment_endsfree, 2, 0⟩
          (wavefront_of (-1) 1 [(-1, 0), (0, 0), (1, 1)])) 0 0 true false).map
        (fun r => (r.2, r.1.alignment_end_pos, (r.1.wf_components.mwavefronts 0).map
          (fun w => [w.offsets (-1), w.offsets 0, w.offsets 1]))) =
      some (1, ⟨0, 0, 4⟩, some [3, 4, 1]) ∧
    (wavefront_extend_matches_custom 17
        (scenario "AAAAXX" "AAAA" affine_matrix_M ⟨alignment_endsfree, 2, 0⟩
          (wavefront_of (-1) 1 [(-1, 0), (0, 0), (1, 1)])) 0 0 true).map
        (fun r => (r.2, r.1.alignment_end_pos, (r.1.wf_components.mwavefronts 0).map
          (fun w => [w.offsets (-1), w.offsets 0, w.offsets 1]))) =
      some (true, ⟨0, 0, 4⟩, some [3, 4, 1]) ∧
    ∃ mw1,
      (after_packed
        (scenario "AAAAXX" "AAAA" affine_matrix_M ⟨alignment_endsfree, 2, 0⟩
          (wavefront_of (-1) 1 [(-1, 0), (0, 0), (1, 1)])) 0 0 true
        false).wf_components.mwavefronts 0 = some mw1 ∧
      endsfree_exit
        (extend_packed_diagonal
          (scenario "AAAAXX" "AAAA" affine_matrix_M ⟨alignment_endsfree, 2, 0⟩
            (wavefront_of (-1) 1 [(-1, 0), (0, 0), (1, 1)])))
        (scenario "AAAAXX" "AAAA" affine_matrix_M ⟨alignment_endsfree, 2, 0⟩
          (wavefront_of (-1) 1 [(-1, 0), (0, 0), (1, 1)])) 0
        (wavefront_of (-1) 1 [(-1, 0), (0, 0), (1, 1)]) mw1
        (after_packed
          (scenario "AAAAXX" "AAAA" affine_matrix_M ⟨alignment_endsfree, 2, 0⟩
            (wavefront_of (-1) 1 [(-1, 0), (0, 0), (1, 1)])) 0 0 true false)
        (decide (((wavefront_extend_matches_packed
          (scenario "AAAAXX" "AAAA" affine_matrix_M ⟨alignment_endsfree, 2, 0⟩
            (wavefront_of (-1) 1 [(-1, 0), (0, 0), (1, 1)])) 0 0 true false).getD
          (scenario "AAAAXX" "AAAA" affine_matrix_M ⟨alignment_endsfree, 2, 0⟩
            (wavefront_of (-1) 1 [(-1, 0), (0, 0), (1, 1)]), 0)).2 ≠ 0)) :=
  ⟨by decide, by decide,
    (endsfree_early_exit
      (scenario "AAAAXX" "AAAA" affine_matrix_M ⟨alignment_endsfree, 2, 0⟩
        (wavefront_of (-1) 1 [(-1, 0), (0, 0), (1, 1)])) 0 0 17
      (wavefront_of (-1) 1 [(-1, 0), (0, 0), (1, 1)]) rfl).1 _
      (option_eq_some_getD _
        (scenario "AAAAXX" "AAAA" affine_matrix_M ⟨alignment_endsfree, 2, 0⟩
          (wavefront_of (-1) 1 [(-1, 0), (0, 0), (1, 1)]), 0) (by decide))⟩

/-- The M-wavefront the packed extension leaves holds the sentinel wherever the
entry wavefront held it. -/
theorem packed_keeps_sentinel (al : wavefront_aligner_t) (score score_mod : Int)
    (endsfree compute_max : Bool) (mw : wavefront_t)
    (hmw : al.wf_components.mwavefronts score_mod = some mw)
    (res : wavefront_aligner_t × Int)
    (h : wavefront_extend_matches_packed al score score_mod endsfree compute_max = some res) :
    ∃ mw1, res.1.wf_components.mwavefronts score_mod = some mw1 ∧
      ∀ k, mw.offsets k = WAVEFRONT_OFFSET_NULL → mw1.offsets k = WAVEFRONT_OFFSET_NULL := by
  obtain ⟨r, hl, hr⟩ := packed_result al score score_mod endsfree compute_max mw hmw res h
  rw [packed_loop_shape] at hl
  refine ⟨r.2.1, ?_, (extend_loop_spec _ _ _ _ _ _ _ _ _ _ hl).2.2.2.1⟩
  rw [hr]; simp [store_mwavefront]

/-- The M-wavefront the custom extension leaves holds the sentinel wherever the
entry wavefront held it. -/
theorem custom_keeps_sentinel (fuel : Nat) (al : wavefront_aligner_t) (score score_mod : Int)
    (endsfree : Bool) (mw : wavefront_t)
    (hmw : al.wf_components.mwavefronts score_mod = some mw)
    (res : wavefront_aligner_t × Bool)
    (h : wavefront_extend_matches_custom fuel al score score_mod endsfree = some res) :
    ∃ mw1, res.1.wf_components.mwavefronts score_mod = some mw1 ∧
      ∀ k, mw.offsets k = WAVEFRONT_OFFSET_NULL → mw1.offsets k = WAVEFRONT_OFFSET_NULL := by
  obtain ⟨r, hl, hr⟩ := custom_result fuel al score score_mod endsfree mw hmw res h
  rw [custom_loop_shape fuel score endsfree _ _ _ _ 0] at hl
  cases hl2 : extend_loop (custom_diagonal fuel al) score endsfree false
      (mw.hi + 1 - mw.lo).toNat mw.lo al mw 0 with
  | none => rw [hl2] at hl; simp at hl
  | some r2 =>
    rw [hl2] at hl
    simp only [Option.map_some', Option.some.injEq] at hl
    subst hl
    refine ⟨r2.2.1, ?_, (extend_loop_spec _ _ _ _ _ _ _ _ _ _ hl2).2.2.2.1⟩
    rw [hr]; simp [store_mwavefront]

/-- C11: a diagonal whose entry offset is the sentinel still holds the sentinel
after the packed and after the custom extension, whatever the flags; no entry of
the log (block comparison, call of the match predicate, ends-free check) is
about it; and the end position an ends-free scan records on done is on a
diagonal that was active on entry. -/
theorem sentinel_skip (al : wavefront_aligner_t) (score score_mod : Int)
    (endsfree compute_max : Bool) (fuel : Nat) (mw : wavefront_t)
    (hmw : al.wf_components.mwavefronts score_mod = some mw) (k : Int)
    (hnull : mw.offsets k = WAVEFRONT_OFFSET_NULL) :
    (∀ r, wavefront_extend_matches_packed_traced al score score_mod endsfree compute_max =
        some r →
      (∃ mw1, r.1.1.wf_components.mwavefronts score_mod = some mw1 ∧
        mw1.offsets k = WAVEFRONT_OFFSET_NULL) ∧
      (∀ e ∈ r.2, event_diagonal e ≠ some k) ∧
      (endsfree = true → compute_max = false → r.1.2 ≠ 0 →
        r.1.1.alignment_end_pos.k ≠ k)) ∧
    (∀ r, wavefront_extend_matches_custom_traced fuel al score score_mod endsfree = some r →
      (∃ mw1, r.1.1.wf_components.mwavefronts score_mod = some mw1 ∧
        mw1.offsets k = WAVEFRONT_OFFSET_NULL) ∧
      (∀ e ∈ r.2, event_diagonal e ≠ some k) ∧
      (endsfree = true → r.1.2 = true → r.1.1.alignment_end_pos.k ≠ k)) := by
  constructor
  · intro r hr
    have hplain : wavefront_extend_matches_packed al score score_mod endsfree compute_max =
        some r.1 := by
      rw [← packed_traced_erase, hr]; rfl
    refine ⟨?_, ?_, ?_⟩
    · obtain ⟨mw1, h1, h2⟩ := packed_keeps_sentinel al score score_mod endsfree compute_max mw
        hmw r.1 hplain
      exact ⟨mw1, h1, h2 k hnull⟩
    · intro e he heq
      rcases packed_traced_log al score score_mod endsfree compute_max mw hmw r hr e he with
        h1 | ⟨k1, h1, -, -, h4⟩
      · rw [h1] at heq; cases heq
      · rw [h1] at heq
        cases heq
        exact h4 hnull
    · intro hef hcm hdone heq
      subst hef hcm
      obtain ⟨mw1, -, hexit, -⟩ := packed_endsfree_exit al score score_mod mw hmw r.1 hplain
      obtain ⟨kq, -, -, h3, -, -, h6, -⟩ := hexit (by simpa using hdone)
      rw [h6] at heq
      simp only [] at heq
      exact h3 (heq ▸ hnull)
  · intro r hr
    have hplain : wavefront_extend_matches_custom fuel al score score_mod endsfree =
        some r.1 := by
      rw [← custom_traced_erase, hr]; rfl
    refine ⟨?_, ?_, ?_⟩
    · obtain ⟨mw1, h1, h2⟩ := custom_keeps_sentinel fuel al score score_mod endsfree mw
        hmw r.1 hplain
      exact ⟨mw1, h1, h2 k hnull⟩
    · intro e he heq
      rcases custom_traced_log fuel al score score_mod endsfree mw hmw r hr e he with
        h1 | ⟨k1, h1, -, -, h4⟩
      · rw [h1] at heq; cases heq
      · rw [h1] at heq
        cases heq
        exact h4 hnull
    · intro hef hdone heq
      subst hef
      obtain ⟨mw1, -, hexit, -⟩ := custom_endsfree_exit fuel al score score_mod mw hmw r.1 hplain
      obtain ⟨kq, -, -, h3, -, -, h6, -⟩ := hexit hdone
      rw [h6] at heq
      simp only [] at heq
      exact h3 (heq ▸ hnull)

/-- C15: when the M-wavefront of the slot is absent, the packed extension returns
0 and the custom extension returns false, for every flag combination; the log
is empty (no comparison, no call of the match predicate, no termination check)
and the aligner is returned as it was. -/
theorem null_wavefront_noop (al : wavefront_aligner_t) (score score_mod : Int)
    (endsfree compute_max : Bool) (fuel : Nat)
    (hnull : al.wf_components.mwavefronts score_mod = none) :
    wavefront_extend_matches_packed_traced al score score_mod endsfree compute_max =
        some ((al, 0), []) ∧
      wavefront_extend_matches_custom_traced fuel al score score_mod endsfree =
        some ((al, false), []) := by
  unfold wavefront_extend_matches_packed_traced wavefront_extend_matches_custom_traced
  rw [hnull]
  exact ⟨rfl, rfl⟩

/-! ## Witnesses of the log; the block arithmetic -/

/-- C11, witness: text "AAAA", pattern "AAAAXX", ends-free with pattern slack 2,
diagonals -1 and 1 inactive and diagonal 0 at offset 0: the log is one block
comparison and one ends-free check, both for diagonal 0, and diagonal -1 still
holds the sentinel. -/
theorem sentinel_skip_witness :
    (wavefront_extend_matches_packed_traced
        (scenario "AAAAXX" "AAAA" affine_matrix_M ⟨alignment_endsfree, 2, 0⟩
          (wavefront_of (-1) 1 [(0, 0)])) 0 0 true false).map
        (fun r => (r.2, (r.1.1.wf_components.mwavefronts 0).map
          (fun w => [w.offsets (-1), w.offsets 0, w.offsets 1]))) =
      some ([block_compare 0, endsfree_check 0 4],
        some [WAVEFRONT_OFFSET_NULL, 4, WAVEFRONT_OFFSET_NULL]) ∧
    (wavefront_extend_matches_custom_traced 17
        (scenario "AAAAXX" "AAAA" affine_matrix_M ⟨alignment_endsfree, 2, 0⟩
          (wavefront_of (-1) 1 [(0, 0)])) 0 0 true).map (fun r => r.2) =
      some [match_call 0 0 0, match_call 0 1 1, match_call 0 2 2, match_call 0 3 3,
        match_call 0 4 4, endsfree_check 0 4] ∧
    ∀ e ∈ ((wavefront_extend_matches_packed_traced
        (scenario "AAAAXX" "AAAA" affine_matrix_M ⟨alignment_endsfree, 2, 0⟩
          (wavefront_of (-1) 1 [(0, 0)])) 0 0 true false).getD
        ((scenario "AAAAXX" "AAAA" affine_matrix_M ⟨alignment_endsfree, 2, 0⟩
          (wavefront_of (-1) 1 [(0, 0)]), 0), [])).2, event_diagonal e ≠ some (-1) :=
  ⟨by decide, by decide,
    ((sentinel_skip
      (scenario "AAAAXX" "AAAA" affine_matrix_M ⟨alignment_endsfree, 2, 0⟩
        (wavefront_of (-1) 1 [(0, 0)])) 0 0 true false 17 (wavefront_of (-1) 1 [(0, 0)]) rfl
      (-1) (by decide)).1 _
      (option_eq_some_getD _
        ((scenario "AAAAXX" "AAAA" affine_matrix_M ⟨alignment_endsfree, 2, 0⟩
          (wavefront_of (-1) 1 [(0, 0)]), 0), []) (by decide))).2.1⟩

/-- C15, witness: the scenario aligner holds no M-wavefront at slot 5. -/
theorem null_wavefront_noop_witness :
    wavefront_extend_matches_packed_traced
        (scenario "AAAA" "AAAT" affine_matrix_M ⟨alignment_end2end, 0, 0⟩
          (wavefront_of 0 0 [(0, 0)])) 5 5 true false =
        some ((scenario "AAAA" "AAAT" affine_matrix_M ⟨alignment_end2end, 0, 0⟩
          (wavefront_of 0 0 [(0, 0)]), 0), []) ∧
      wavefront_extend_matches_custom_traced 17
        (scenario "AAAA" "AAAT" affine_matrix_M ⟨alignment_end2end, 0, 0⟩
          (wavefront_of 0 0 [(0, 0)])) 5 5 true =
        some ((scenario "AAAA" "AAAT" affine_matrix_M ⟨alignment_end2end, 0, 0⟩
          (wavefront_of 0 0 [(0, 0)]), false), []) :=
  null_wavefront_noop _ 5 5 true false 17 rfl

/-- C19: for two 8-byte blocks read as little-endian words, the exclusive-or is
zero exactly when all 8 bytes agree; when the words differ, the trailing-zero
count of the exclusive-or divided by 8 is the number of leading bytes on which
the blocks agree, it is at most 7, the blocks agree at every byte before that
index and differ at it; and a step of the block comparison moves 8 bytes on and
compares the next blocks when the exclusive-or is zero, and adds that number to
the offset otherwise. -/
theorem block_scanner_arithmetic (A B : List uint8_t) (hA : A.length = 8)
    (hB : B.length = 8) :
    (le_word A ^^^ le_word B = 0 ↔ A = B) ∧
    (le_word A ≠ le_word B →
      DIV_FLOOR (__builtin_ctzl (le_word A ^^^ le_word B)) 8 = lcp_length A B ∧
      lcp_length A B ≤ 7 ∧
      (∀ i, i < lcp_length A B → A[i]? = B[i]?) ∧
      A[lcp_length A B]? ≠ B[lcp_length A B]?) ∧
    (∀ (pattern text : List uint8_t) (fuel : Nat) (v h o : Int),
      load_block pattern v = some (le_word A) → load_block text h = some (le_word B) →
      scan_blocks pattern text (fuel + 1) v h o =
        if le_word A ^^^ le_word B = 0 then
          scan_blocks pattern text fuel (v + 8) (h + 8) (o + 8)
        else some (o + DIV_FLOOR (__builtin_ctzl (le_word A ^^^ le_word B)) 8)) := by
  refine ⟨?_, ?_, ?_⟩
  · constructor
    · intro h0
      exact le_word_inj _ _ (hA.trans hB.symm) (Nat.xor_eq_zero.mp h0)
    · intro hAB
      rw [hAB, Nat.xor_self]
  · intro hne
    have hAB : A ≠ B := fun hAB => hne (by rw [hAB])
    obtain ⟨h1, h2⟩ := block_mismatch A B (hA.trans hB.symm) hAB 0
    rw [hA] at h1 h2
    refine ⟨?_, by omega, ?_, ?_⟩
    · simp only [__builtin_ctzl, DIV_FLOOR]
      norm_num at h1
      exact h1
    · intro i hi
      obtain ⟨a, ha, hb⟩ := lcp_getElem A B i hi
      rw [ha, hb]
    · obtain ⟨a, b, ha, hb, hab⟩ := lcp_stop A B (by omega) (by omega)
      rw [ha, hb]
      intro heq
      exact hab (Option.some.inj heq)
  · intro pattern text fuel v h o hp ht
    rw [scan_blocks, hp, ht]

/-- C19, witness: the blocks "ACGTACGT" and "ACGTAGGT" agree on 5 leading bytes;
the blocks "ACGTACGT" and "TCGTACGT" on none. -/
theorem block_scanner_arithmetic_witness :
    DIV_FLOOR (__builtin_ctzl (le_word (bytes_of "ACGTACGT") ^^^
        le_word (bytes_of "ACGTAGGT"))) 8 = 5 ∧
      DIV_FLOOR (__builtin_ctzl (le_word (bytes_of "ACGTACGT") ^^^
        le_word (bytes_of "TCGTACGT"))) 8 = 0 ∧
      lcp_length (bytes_of "ACGTACGT") (bytes_of "ACGTAGGT") = 5 ∧
      (DIV_FLOOR (__builtin_ctzl (le_word (bytes_of "ACGTACGT") ^^^
          le_word (bytes_of "ACGTAGGT"))) 8 =
        lcp_length (bytes_of "ACGTACGT") (bytes_of "ACGTAGGT") ∧
      lcp_length (bytes_of "ACGTACGT") (bytes_of "ACGTAGGT") ≤ 7 ∧
      (∀ i, i < lcp_length (bytes_of "ACGTACGT") (bytes_of "ACGTAGGT") →
        (bytes_of "ACGTACGT")[i]? = (bytes_of "ACGTAGGT")[i]?) ∧
      (bytes_of "ACGTACGT")[lcp_length (bytes_of "ACGTACGT") (bytes_of "ACGTAGGT")]? ≠
        (bytes_of "ACGTAGGT")[lcp_length (bytes_of "ACGTACGT") (bytes_of "ACGTAGGT")]?) :=
  ⟨by decide, by decide, by decide,
    (block_scanner_arithmetic (bytes_of "ACGTACGT") (bytes_of "ACGTAGGT") (by decide)
      (by decide)).2.1 (by decide)⟩

/-! ## The orchestrators -/

/-- The packed extension writes the M-wavefront of its slot and the end
position, and nothing else of the aligner. -/
theorem packed_state (al : wavefront_aligner_t) (score score_mod : Int)
    (endsfree compute_max : Bool) (res : wavefront_aligner_t × Int)
    (h : wavefront_extend_matches_packed al score score_mod endsfree compute_max = some res) :
    ∃ c, res.1 = { al with
      alignment_end_pos := res.1.alignment_end_pos
      wf_components := { al.wf_components with
        mwavefronts := Function.update al.wf_components.mwavefronts score_mod c } } := by
  cases hmw : al.wf_components.mwavefronts score_mod with
  | none =>
    refine ⟨none, ?_⟩
    unfold wavefront_extend_matches_packed at h
    rw [hmw] at h
    simp only [Option.some.injEq] at h
    subst h
    rw [← hmw, Function.update_eq_self]
  | some mw =>
    obtain ⟨r, -, hr⟩ := packed_result al score score_mod endsfree compute_max mw hmw res h
    exact ⟨some r.2.1, hr⟩

/-- The custom extension writes the M-wavefront of its slot and the end
position, and nothing else of the aligner. -/
theorem custom_state (fuel : Nat) (al : wavefront_aligner_t) (score score_mod : Int)
    (endsfree : Bool) (res : wavefront_aligner_t × Bool)
    (h : wavefront_extend_matches_custom fuel al score score_mod endsfree = some res) :
    ∃ c, res.1 = { al with
      alignment_end_pos := res.1.alignment_end_pos
      wf_components := { al.wf_components with
        mwavefronts := Function.update al.wf_components.mwavefronts score_mod c } } := by
  cases hmw : al.wf_components.mwavefronts score_mod with
  | none =>
    refine ⟨none, ?_⟩
    unfold wavefront_extend_matches_custom at h
    rw [hmw] at h
    simp only [Option.some.injEq] at h
    subst h
    rw [← hmw, Function.update_eq_self]
  | some mw =>
    obtain ⟨r, -, hr⟩ := custom_result fuel al score score_mod endsfree mw hmw res h
    exact ⟨some r.2.1, hr⟩

/-- A run of the logged packed extension is a run of the packed extension. -/
theorem packed_traced_some (al : wavefront_aligner_t) (score score_mod : Int)
    (endsfree compute_max : Bool) (r : (wavefront_aligner_t × Int) × List engine_event)
    (h : wavefront_extend_matches_packed_traced al score score_mod endsfree compute_max =
      some r) :
    wavefront_extend_matches_packed al score score_mod endsfree compute_max = some r.1 := by
  rw [← packed_traced_erase, h]; rfl

/-- A run of the logged custom extension is a run of the custom extension. -/
theorem custom_traced_some (fuel : Nat) (al : wavefront_aligner_t) (score score_mod : Int)
    (endsfree : Bool) (r : (wavefront_aligner_t × Bool) × List engine_event)
    (h : wavefront_extend_matches_custom_traced fuel al score score_mod endsfree = some r) :
    wavefront_extend_matches_custom fuel al score score_mod endsfree = some r.1 := by
  rw [← custom_traced_erase, h]; rfl

/-- The log of the packed extension holds no consultation of the cutoff. -/
theorem packed_traced_no_cutoff (al : wavefront_aligner_t) (score score_mod : Int)
    (endsfree compute_max : Bool) (r : (wavefront_aligner_t × Int) × List engine_event)
    (h : wavefront_extend_matches_packed_traced al score score_mod endsfree compute_max =
      some r) :
    ∀ e ∈ r.2, ∀ s, e ≠ heuristic_cutoff s := by
  cases hmw : al.wf_components.mwavefronts score_mod with
  | none =>
    unfold wavefront_extend_matches_packed_traced at h
    rw [hmw] at h
    simp only [Option.some.injEq] at h
    subst h
    intro e he
    simp at he
  | some mw =>
    intro e he s hes
    subst hes
    rcases packed_traced_log al score score_mod endsfree compute_max mw hmw r h _ he with
      h1 | ⟨k, h1, -⟩
    · cases h1
    · simp [event_diagonal] at h1

/-- The log of the custom extension holds no consultation of the cutoff. -/
theorem custom_traced_no_cutoff (fuel : Nat) (al : wavefront_aligner_t) (score score_mod : Int)
    (endsfree : Bool) (r : (wavefront_aligner_t × Bool) × List engine_event)
    (h : wavefront_extend_matches_custom_traced fuel al score score_mod endsfree = some r) :
    ∀ e ∈ r.2, ∀ s, e ≠ heuristic_cutoff s := by
  cases hmw : al.wf_components.mwavefronts score_mod with
  | none =>
    unfold wavefront_extend_matches_custom_traced at h
    rw [hmw] at h
    simp only [Option.some.injEq] at h
    subst h
    intro e he
    simp at he
  | some mw =>
    intro e he s hes
    subst hes
    rcases custom_traced_log fuel al score score_mod endsfree mw hmw r h _ he with
      h1 | ⟨k, h1, -⟩
    · cases h1
    · simp [event_diagonal] at h1

/-- The steps an orchestrator takes after the extension meet the contract. -/
theorem orchestrator_steps
    (cutoff : wavefront_aligner_t → Int → wavefront_aligner_t × Bool)
    (al : wavefront_aligner_t) (score : Int) (al1 : wavefront_aligner_t) (done : Bool)
    (log : List engine_event)
    (hstatus : al1.align_status = al.align_status)
    (hheur : al1.heuristic = al.heuristic)
    (hlog : ∀ e ∈ log, ∀ s, e ≠ heuristic_cutoff s) :
    orchestrator_contract cutoff al score al1 done log
      (if done then some ({ al1 with align_status := WF_STATUS_SUCCESSFUL }, 1, log)
       else if al1.heuristic ≠ wf_heuristic_none then
         if (cutoff al1 score).2 then
           some ({ (cutoff al1 score).1 with align_status := WF_STATUS_HEURISTICALY_DROPPED },
             1, log ++ [heuristic_cutoff score])
         else some ((cutoff al1 score).1, 0, log ++ [heuristic_cutoff score])
       else some (al1, 0, log)) := by
  refine ⟨hstatus, hlog, ?_, ?_, ?_, ?_⟩
  · intro hd
    rw [if_pos hd]
  · intro hd hh hc
    rw [if_neg (by simp [hd]), if_pos (hheur ▸ hh), if_pos hc]
  · intro hd hh hc
    rw [if_neg (by simp [hd]), if_pos (hheur ▸ hh), if_neg (by simp [hc])]
  · intro hd hh
    rw [if_neg (by simp [hd]), if_neg (by rw [hheur]; exact not_not.mpr hh)]

/-- The orchestrator `wavefront_extend_end2end` meets the contract on the
outcome of the packed extension on the resolved slot. -/
theorem end2end_contract
    (cutoff : wavefront_aligner_t → Int → wavefront_aligner_t × Bool)
    (al : wavefront_aligner_t) (score : Int) (al1 : wavefront_aligner_t) (ret : Int)
    (log : List engine_event)
    (h : wavefront_extend_matches_packed_traced al score (resolved_slot al score) false false =
      some ((al1, ret), log)) :
    orchestrator_contract cutoff al score al1 (decide (ret ≠ 0)) log
      (wavefront_extend_end2end cutoff al score) := by
  obtain ⟨c, hc⟩ := packed_state al score _ _ _ _ (packed_traced_some al score _ _ _ _ h)
  have hlog := packed_traced_no_cutoff al score _ _ _ _ h
  have hst : al1.align_status = al.align_status := by
    simp only [] at hc; rw [hc]
  have hhe : al1.heuristic = al.heuristic := by
    simp only [] at hc; rw [hc]
  have key := orchestrator_steps cutoff al score al1 (decide (ret ≠ 0)) log hst hhe hlog
  unfold wavefront_extend_end2end
  unfold resolved_slot at h
  simp only [h]
  simpa using key

/-- The orchestrator `wavefront_extend_endsfree` meets the contract on the
outcome of the packed extension on the resolved slot. -/
theorem endsfree_contract
    (cutoff : wavefront_aligner_t → Int → wavefront_aligner_t × Bool)
    (al : wavefront_aligner_t) (score : Int) (al1 : wavefront_aligner_t) (ret : Int)
    (log : List engine_event)
    (h : wavefront_extend_matches_packed_traced al score (resolved_slot al score) true false =
      some ((al1, ret), log)) :
    orchestrator_contract cutoff al score al1 (decide (ret ≠ 0)) log
      (wavefront_extend_endsfree cutoff al score) := by
  obtain ⟨c, hc⟩ := packed_state al score _ _ _ _ (packed_traced_some al score _ _ _ _ h)
  have hlog := packed_traced_no_cutoff al score _ _ _ _ h
  have hst : al1.align_status = al.align_status := by
    simp only [] at hc; rw [hc]
  have hhe : al1.heuristic = al.heuristic := by
    simp only [] at hc; rw [hc]
  have key := orchestrator_steps cutoff al score al1 (decide (ret ≠ 0)) log hst hhe hlog
  unfold wavefront_extend_endsfree
  unfold resolved_slot at h
  simp only [h]
  simpa using key

/-- The orchestrator `wavefront_extend_custom` meets the contract on the outcome
of the custom extension on the resolved slot. -/
theorem custom_contract
    (cutoff : wavefront_aligner_t → Int → wavefront_aligner_t × Bool) (fuel : Nat)
    (al : wavefront_aligner_t) (score : Int) (al1 : wavefront_aligner_t) (done : Bool)
    (log : List engine_event)
    (h : wavefront_extend_matches_custom_traced fuel al score (resolved_slot al score)
      (decide (al.alignment_form.span = alignment_endsfree)) = some ((al1, done), log)) :
    orchestrator_contract cutoff al score al1 done log
      (wavefront_extend_custom cutoff fuel al score) := by
  obtain ⟨c, hc⟩ :=
    custom_state fuel al score _ _ _ (custom_traced_some fuel al score _ _ _ h)
  have hlog := custom_traced_no_cutoff fuel al score _ _ _ h
  have hst : al1.align_status = al.align_status := by
    simp only [] at hc; rw [hc]
  have hhe : al1.heuristic = al.heuristic := by
    simp only [] at hc; rw [hc]
  have key := orchestrator_steps cutoff al score al1 done log hst hhe hlog
  unfold wavefront_extend_custom
  unfold resolved_slot at h
  simp only [h]
  simpa using key

/-- C12: the orchestrators `wavefront_extend_end2end`, `wavefront_extend_endsfree`
and `wavefront_extend_custom` run the extension on the resolved slot and then
meet `orchestrator_contract`: the extension has not written the status; when it
reports done the status becomes successful, 1 is returned and the cutoff is not
consulted; otherwise, with a strategy other than "none", the cutoff is consulted
once and dropped gives status dropped and the value 1, not-dropped the value 0
with no status written; with strategy "none" the value is 0, the state is the
one the extension left and the cutoff is not consulted. -/
theorem orchestrator_verdict
    (cutoff : wavefront_aligner_t → Int → wavefront_aligner_t × Bool) (fuel : Nat)
    (al : wavefront_aligner_t) (score : Int) :
    (∀ al1 ret log,
      wavefront_extend_matches_packed_traced al score (resolved_slot al score) false false =
        some ((al1, ret), log) →
      orchestrator_contract cutoff al score al1 (decide (ret ≠ 0)) log
        (wavefront_extend_end2end cutoff al score)) ∧
    (∀ al1 ret log,
      wavefront_extend_matches_packed_traced al score (resolved_slot al score) true false =
        some ((al1, ret), log) →
      orchestrator_contract cutoff al score al1 (decide (ret ≠ 0)) log
        (wavefront_extend_endsfree cutoff al score)) ∧
    (∀ al1 done log,
      wavefront_extend_matches_custom_traced fuel al score (resolved_slot al score)
        (decide (al.alignment_form.span = alignment_endsfree)) = some ((al1, done), log) →
      orchestrator_contract cutoff al score al1 done log
        (wavefront_extend_custom cutoff fuel al score)) :=
  ⟨fun al1 ret log h => end2end_contract cutoff al score al1 ret log h,
    fun al1 ret log h => endsfree_contract cutoff al score al1 ret log h,
    fun al1 done log h => custom_contract cutoff fuel al score al1 done log h⟩

/-! ## Max tracking -/

/-- With `endsfree` off, every entry of the log of the loop of the packed
extension is a block comparison. -/
theorem packed_loop_traced_plain (score : Int) (compute_max : Bool) :
    ∀ (n : Nat) (k0 : Int) (al : wavefront_aligner_t) (w : wavefront_t) (mx : Int)
      (r : (wavefront_aligner_t × wavefront_t × Int × Bool) × List engine_event),
      packed_loop_traced score false compute_max n k0 al w mx = some r →
      ∀ e ∈ r.2, ∃ k, e = block_compare k := by
  intro n
  induction n with
  | zero =>
    intro k0 al w mx r h
    rw [packed_loop_traced] at h
    cases h
    intro e he
    simp at he
  | succ n ih =>
    intro k0 al w mx r h
    rw [packed_loop_traced] at h
    by_cases hnull : w.offsets k0 = WAVEFRONT_OFFSET_NULL
    · rw [if_pos hnull] at h
      exact ih _ _ _ _ _ h
    · rw [if_neg hnull] at h
      cases hscan : extend_packed_diagonal_traced al k0 (w.offsets k0) with
      | none => rw [hscan] at h; simp at h
      | some r1 =>
        obtain ⟨o1, log⟩ := r1
        rw [hscan] at h
        simp only [] at h
        have hlog : ∀ e ∈ log, ∃ k, e = block_compare k := by
          intro e he
          exact ⟨k0, scan_blocks_traced_log _ _ _ _ _ _ _ _ hscan e he⟩
        generalize (if compute_max = true ∧
          mx < wf_offset_wrap (WAVEFRONT_ANTIDIAGONAL k0 o1) then
          wf_offset_wrap (WAVEFRONT_ANTIDIAGONAL k0 o1) else mx) = mx1 at h
        simp only [Bool.false_eq_true, if_false] at h
        cases hl : packed_loop_traced score false compute_max n (k0 + 1) al
            { w with offsets := Function.update w.offsets k0 o1 } mx1 with
        | none => rw [hl] at h; simp at h
        | some r2 =>
          rw [hl] at h
          simp only [Option.map_some', Option.some.injEq] at h
          subst h
          intro e he
          simp only [List.mem_append] at he
          rcases he with he | he
          · exact hlog e he
          · exact ih _ _ _ _ _ hl e he

/-- With `endsfree` off and `compute_max` on, every entry of the log of the
packed extension is a block comparison: no termination check is run. -/
theorem packed_plain_max_log (al : wavefront_aligner_t) (score score_mod : Int)
    (r : (wavefront_aligner_t × Int) × List engine_event)
    (h : wavefront_extend_matches_packed_traced al score score_mod false true = some r) :
    ∀ e ∈ r.2, ∃ k, e = block_compare k := by
  unfold wavefront_extend_matches_packed_traced at h
  cases hmw : al.wf_components.mwavefronts score_mod with
  | none =>
    rw [hmw] at h
    simp only [Option.some.injEq] at h
    subst h
    intro e he
    simp at he
  | some mw =>
    rw [hmw] at h
    simp only [] at h
    cases hl : packed_loop_traced score false true (mw.hi + 1 - mw.lo).toNat mw.lo al mw 0 with
    | none => rw [hl] at h; simp at h
    | some r1 =>
      obtain ⟨⟨al1, w1, mx, q⟩, log⟩ := r1
      rw [hl] at h
      simp only [] at h
      have hlog := packed_loop_traced_plain _ _ _ _ _ _ _ _ hl
      split_ifs at h <;> cases h <;> exact hlog

/-- The packed extension with `endsfree` off and `compute_max` on: the loop runs
to its end, the aligner is the entry aligner with the new M-wavefront, every
active diagonal of `[lo,hi]` is extended, and the returned value is the largest
of 0 and the antidiagonals of the active diagonals as the 32-bit offset type
holds them. -/
theorem packed_max_result (al : wavefront_aligner_t) (score score_mod : Int)
    (mw : wavefront_t) (hmw : al.wf_components.mwavefronts score_mod = some mw)
    (res : wavefront_aligner_t × Int)
    (h : wavefront_extend_matches_packed al score score_mod false true = some res) :
    ∃ mw1, res.1 = store_mwavefront al score_mod mw1 ∧ mw1.lo = mw.lo ∧ mw1.hi = mw.hi ∧
      (∀ k, mw.offsets k = WAVEFRONT_OFFSET_NULL → mw1.offsets k = WAVEFRONT_OFFSET_NULL) ∧
      (∀ k, (k < mw.lo ∨ mw.hi < k) → mw1.offsets k = mw.offsets k) ∧
      (∀ k, mw.lo ≤ k → k ≤ mw.hi → mw.offsets k ≠ WAVEFRONT_OFFSET_NULL →
        extend_packed_diagonal al k (mw.offsets k) = some (mw1.offsets k)) ∧
      0 ≤ res.2 ∧
      (res.2 = 0 ∨ ∃ k, mw.lo ≤ k ∧ k ≤ mw.hi ∧ mw.offsets k ≠ WAVEFRONT_OFFSET_NULL ∧
        res.2 = wf_offset_wrap (WAVEFRONT_ANTIDIAGONAL k (mw1.offsets k))) ∧
      (∀ k, mw.lo ≤ k → k ≤ mw.hi → mw.offsets k ≠ WAVEFRONT_OFFSET_NULL →
        wf_offset_wrap (WAVEFRONT_ANTIDIAGONAL k (mw1.offsets k)) ≤ res.2) := by
  rw [packed_unfold al score score_mod false true mw hmw] at h
  cases hl : extend_loop (extend_packed_diagonal al) score false true
      (mw.hi + 1 - mw.lo).toNat mw.lo al mw 0 with
  | none => rw [hl] at h; simp at h
  | some r =>
    rw [hl] at h
    obtain ⟨h1, h2, h3, h4, h5, h6⟩ := extend_loop_spec _ _ _ _ _ _ _ _ _ _ hl
    obtain ⟨m1, m2, m3⟩ := extend_loop_max _ _ _ _ _ _ _ _ _ hl
    have hq : r.2.2.2 = false := by
      cases hq : r.2.2.2 with
      | false => rfl
      | true => exact absurd (h6 hq).1 (by simp)
    obtain ⟨h51, h52⟩ := h5 hq
    simp only [Option.map_some', Option.some.injEq, hq, Bool.false_eq_true, if_false,
      if_true] at h
    subst h
    rw [h51]
    refine ⟨r.2.1, rfl, h1, h2, h4, ?_, ?_, m1, ?_, ?_⟩
    · intro k hk
      exact h3 k (by omega)
    · intro k hk1 hk2 hk3
      exact (h52 k hk1 (by omega) hk3).1
    · rcases m2 with m2 | ⟨k, k1, k2, k3, k4⟩
      · exact Or.inl m2
      · exact Or.inr ⟨k, k1, by omega, k3, k4⟩
    · intro k hk1 hk2 hk3
      exact m3 hq k hk1 (by omega) hk3

/-- The packed extension with `endsfree` off and `compute_max` on writes neither
the end position nor the status. -/
theorem packed_plain_max_frame (al : wavefront_aligner_t) (score score_mod : Int)
    (res : wavefront_aligner_t × Int)
    (h : wavefront_extend_matches_packed al score score_mod false true = some res) :
    res.1.alignment_end_pos = al.alignment_end_pos ∧ res.1.align_status = al.align_status := by
  cases hmw : al.wf_components.mwavefronts score_mod with
  | none =>
    unfold wavefront_extend_matches_packed at h
    rw [hmw] at h
    simp only [Option.some.injEq] at h
    subst h
    exact ⟨rfl, rfl⟩
  | some mw =>
    obtain ⟨mw1, h1, -⟩ := packed_max_result al score score_mod mw hmw res h
    rw [h1]
    exact ⟨rfl, rfl⟩

/-- The outcome of `wavefront_extend_end2end_max` is the outcome of the logged
packed extension on the resolved slot. -/
theorem end2end_max_unfold (al : wavefront_aligner_t) (score : Int)
    (res : wavefront_aligner_t × Int × List engine_event)
    (h : wavefront_extend_end2end_max al score = some res) :
    wavefront_extend_matches_packed_traced al score (resolved_slot al score) false true =
      some ((res.1, res.2.1), res.2.2) := by
  unfold wavefront_extend_end2end_max at h
  unfold resolved_slot
  simp only [] at h
  cases hp : wavefront_extend_matches_packed_traced al score
      (if al.wf_components.memory_modular = true then
        Int.tmod score al.wf_components.max_score_scope else score) false true with
  | none => rw [hp] at h; simp at h
  | some r =>
    rw [hp] at h
    simp only [Option.map_some', Option.some.injEq] at h
    subst h
    rfl

/-- C13: when `wavefront_extend_end2end_max` returns, the alignment status and
the alignment end position are those of the entry state, and every entry of the
log is a block comparison: the heuristic cutoff is not invoked and no
termination check is run. -/
theorem end2end_max_frame (al : wavefront_aligner_t) (score : Int)
    (res : wavefront_aligner_t × Int × List engine_event)
    (h : wavefront_extend_end2end_max al score = some res) :
    res.1.align_status = al.align_status ∧
      res.1.alignment_end_pos = al.alignment_end_pos ∧
      ∀ e ∈ res.2.2, ∃ k, e = block_compare k := by
  have ht := end2end_max_unfold al score res h
  have hp := packed_traced_some al score _ _ _ _ ht
  obtain ⟨h1, h2⟩ := packed_plain_max_frame al score _ _ hp
  exact ⟨h2, h1, packed_plain_max_log al score _ _ ht⟩

/-- C13, witness: pattern "AAAA", text "AAAT", diagonal 0 at offset 0; the
max-tracking orchestrator returns the antidiagonal 6, the status is still "in
progress" and the end position is still the entry record. -/
theorem end2end_max_frame_witness :
    (wavefront_extend_end2end_max
        (scenario "AAAA" "AAAT" affine_matrix_M ⟨alignment_end2end, 0, 0⟩
          (wavefront_of 0 0 [(0, 0)])) 0).map
        (fun r => (r.2.1, r.1.align_status, r.1.alignment_end_pos, r.2.2)) =
      some (6, WF_STATUS_IN_PROGRESS, ⟨-1, 0, 0⟩, [block_compare 0]) ∧
    ((wavefront_extend_end2end_max
        (scenario "AAAA" "AAAT" affine_matrix_M ⟨alignment_end2end, 0, 0⟩
          (wavefront_of 0 0 [(0, 0)])) 0).getD
        (scenario "AAAA" "AAAT" affine_matrix_M ⟨alignment_end2end, 0, 0⟩
          (wavefront_of 0 0 [(0, 0)]), 0, [])).1.align_status = WF_STATUS_IN_PROGRESS :=
  ⟨by decide,
    (end2end_max_frame
      (scenario "AAAA" "AAAT" affine_matrix_M ⟨alignment_end2end, 0, 0⟩
        (wavefront_of 0 0 [(0, 0)])) 0 _
      (option_eq_some_getD _
        (scenario "AAAA" "AAAT" affine_matrix_M ⟨alignment_end2end, 0, 0⟩
          (wavefront_of 0 0 [(0, 0)]), 0, []) (by decide))).1⟩

/-! ## Slot resolution -/

/-- The packed extension keeps the offsets outside the M-wavefront of its
slot. -/
theorem packed_offsets_kept (al : wavefront_aligner_t) (score score_mod : Int)
    (endsfree compute_max : Bool) (res : wavefront_aligner_t × Int)
    (h : wavefront_extend_matches_packed al score score_mod endsfree compute_max = some res) :
    offsets_kept_outside score_mod al res.1 := by
  obtain ⟨c, hc⟩ := packed_state al score _ _ _ _ h
  rw [hc]
  refine ⟨?_, fun _ => rfl, fun _ => rfl⟩
  intro s hs
  simp only [Function.update_noteq hs]

/-- The custom extension keeps the offsets outside the M-wavefront of its
slot. -/
theorem custom_offsets_kept (fuel : Nat) (al : wavefront_aligner_t) (score score_mod : Int)
    (endsfree : Bool) (res : wavefront_aligner_t × Bool)
    (h : wavefront_extend_matches_custom fuel al score score_mod endsfree = some res) :
    offsets_kept_outside score_mod al res.1 := by
  obtain ⟨c, hc⟩ := custom_state fuel al score _ _ _ h
  rw [hc]
  refine ⟨?_, fun _ => rfl, fun _ => rfl⟩
  intro s hs
  simp only [Function.update_noteq hs]

/-- When the packed extension without max tracking returns a non-zero value, the
score of the end position is the score it was called with. -/
theorem packed_done_score (al : wavefront_aligner_t) (score score_mod : Int)
    (endsfree : Bool) (res : wavefront_aligner_t × Int)
    (h : wavefront_extend_matches_packed al score score_mod endsfree false = some res)
    (hd : res.2 ≠ 0) : res.1.alignment_end_pos.score = score := by
  cases hmw : al.wf_components.mwavefronts score_mod with
  | none =>
    unfold wavefront_extend_matches_packed at h
    rw [hmw] at h
    simp only [Option.some.injEq] at h
    subst h
    exact absurd rfl hd
  | some mw =>
    rw [packed_unfold al score score_mod endsfree false mw hmw] at h
    cases hl : extend_loop (extend_packed_diagonal al) score endsfree false
        (mw.hi + 1 - mw.lo).toNat mw.lo al mw 0 with
    | none => rw [hl] at h; simp at h
    | some r =>
      rw [hl] at h
      obtain ⟨-, -, -, -, -, h6⟩ := extend_loop_spec _ _ _ _ _ _ _ _ _ _ hl
      simp only [Option.map_some', Option.some.injEq] at h
      cases hq : r.2.2.2 with
      | true =>
        obtain ⟨-, kq, -, -, -, -, -, hal, -⟩ := h6 hq
        rw [hq] at h
        simp only [if_true] at h
        subst h
        simp only [store_mwavefront, hal]
      | false =>
        rw [hq] at h
        simp only [Bool.false_eq_true, if_false] at h
        cases hef : endsfree with
        | true =>
          rw [hef] at h
          simp only [Bool.not_true, Bool.false_eq_true, if_false] at h
          subst h
          exact absurd rfl hd
        | false =>
          rw [hef] at h
          simp only [Bool.not_false, if_true] at h
          rw [end2end_check_spec] at h
          by_cases hc : ∃ w, required_wavefront (store_mwavefront r.1 score_mod r.2.1) r.2.1
              score_mod = some w ∧ corner_reached (store_mwavefront r.1 score_mod r.2.1) w
          · rw [if_pos hc] at h
            subst h
            rfl
          · rw [if_neg hc] at h
            subst h
            exact absurd rfl hd

/-- When the custom extension reports done, the score of the end position is
the score it was called with. -/
theorem custom_done_score (fuel : Nat) (al : wavefront_aligner_t) (score score_mod : Int)
    (endsfree : Bool) (res : wavefront_aligner_t × Bool)
    (h : wavefront_extend_matches_custom fuel al score score_mod endsfree = some res)
    (hd : res.2 = true) : res.1.alignment_end_pos.score = score := by
  cases hmw : al.wf_components.mwavefronts score_mod with
  | none =>
    unfold wavefront_extend_matches_custom at h
    rw [hmw] at h
    simp only [Option.some.injEq] at h
    subst h
    simp at hd
  | some mw =>
    rw [custom_unfold fuel al score score_mod endsfree mw hmw] at h
    cases hl : extend_loop (custom_diagonal fuel al) score endsfree false
        (mw.hi + 1 - mw.lo).toNat mw.lo al mw 0 with
    | none => rw [hl] at h; simp at h
    | some r =>
      rw [hl] at h
      obtain ⟨-, -, -, -, -, h6⟩ := extend_loop_spec _ _ _ _ _ _ _ _ _ _ hl
      simp only [Option.map_some', Option.some.injEq] at h
      cases hq : r.2.2.2 with
      | true =>
        obtain ⟨-, kq, -, -, -, -, -, hal, -⟩ := h6 hq
        rw [hq] at h
        simp only [if_true] at h
        subst h
        simp only [store_mwavefront, hal]
      | false =>
        rw [hq] at h
        simp only [Bool.false_eq_true, if_false] at h
        cases hef : endsfree with
        | true =>
          rw [hef] at h
          simp only [Bool.not_true, Bool.false_eq_true, if_false] at h
          subst h
          simp at hd
        | false =>
          rw [hef] at h
          simp only [Bool.not_false, if_true] at h
          rw [end2end_check_spec] at h
          by_cases hc : ∃ w, required_wavefront (store_mwavefront r.1 score_mod r.2.1) r.2.1
              score_mod = some w ∧ corner_reached (store_mwavefront r.1 score_mod r.2.1) w
          · rw [if_pos hc] at h
            subst h
            rfl
          · rw [if_neg hc] at h
            subst h
            simp at hd

/-- The offsets kept by two successive steps are kept by both. -/
theorem offsets_kept_trans (slot : Int) (a b c : wavefront_aligner_t)
    (h1 : offsets_kept_outside slot a b) (h2 : offsets_kept_outside slot b c) :
    offsets_kept_outside slot a c :=
  ⟨fun s hs => (h2.1 s hs).trans (h1.1 s hs), fun s => (h2.2.1 s).trans (h1.2.1 s),
    fun s => (h2.2.2 s).trans (h1.2.2 s)⟩

/-- With a non-negative score and a positive scope the slot the orchestrators
compute is the slot of the rule. -/
theorem resolved_slot_eq (al : wavefront_aligner_t) (score : Int) (hscore : 0 ≤ score)
    (hscope : 0 < al.wf_components.max_score_scope) :
    resolved_slot al score = score_slot al score := by
  unfold resolved_slot score_slot
  split_ifs
  · exact Int.tmod_eq_emod hscore (le_of_lt hscope)
  · rfl

/-- C12, witness: pattern "AAAA", text "AAAT", diagonal 0 at offset 0, which
extends to offset 3 and does not reach the corner.  With strategy "none" the
end-to-end orchestrator returns 0 and the status stays "in progress", the cutoff
(here one that always reports dropped) is not consulted; with another strategy
and the same cutoff it returns 1 with status "dropped" after one consultation;
on text "AAAA" it returns 1 with status "successful" without consulting. -/
theorem orchestrator_verdict_witness :
    (wavefront_extend_end2end (fun a _ => (a, true))
        (scenario "AAAA" "AAAT" affine_matrix_M ⟨alignment_end2end, 0, 0⟩
          (wavefront_of 0 0 [(0, 0)])) 0).map (fun r => (r.2.1, r.1.align_status, r.2.2)) =
      some (0, WF_STATUS_IN_PROGRESS, [block_compare 0, end2end_check]) ∧
    (wavefront_extend_end2end (fun a _ => (a, true))
        { scenario "AAAA" "AAAT" affine_matrix_M ⟨alignment_end2end, 0, 0⟩
            (wavefront_of 0 0 [(0, 0)]) with heuristic := wf_heuristic_other } 0).map
        (fun r => (r.2.1, r.1.align_status, r.2.2)) =
      some (1, WF_STATUS_HEURISTICALY_DROPPED,
        [block_compare 0, end2end_check, heuristic_cutoff 0]) ∧
    (wavefront_extend_end2end (fun a _ => (a, true))
        { scenario "AAAA" "AAAA" affine_matrix_M ⟨alignment_end2end, 0, 0⟩
            (wavefront_of 0 0 [(0, 0)]) with heuristic := wf_heuristic_other } 0).map
        (fun r => (r.2.1, r.1.align_status, r.2.2)) =
      some (1, WF_STATUS_SUCCESSFUL, [block_compare 0, end2end_check]) ∧
    orchestrator_contract (fun a _ => (a, true))
      (scenario "AAAA" "AAAT" affine_matrix_M ⟨alignment_end2end, 0, 0⟩
        (wavefront_of 0 0 [(0, 0)])) 0
      ((wavefront_extend_matches_packed_traced
        (scenario "AAAA" "AAAT" affine_matrix_M ⟨alignment_end2end, 0, 0⟩
          (wavefront_of 0 0 [(0, 0)])) 0
        (resolved_slot (scenario "AAAA" "AAAT" affine_matrix_M ⟨alignment_end2end, 0, 0⟩
          (wavefront_of 0 0 [(0, 0)])) 0) false false).getD
        ((scenario "AAAA" "AAAT" affine_matrix_M ⟨alignment_end2end, 0, 0⟩
          (wavefront_of 0 0 [(0, 0)]), 0), [])).1.1
      (decide (((wavefront_extend_matches_packed_traced
        (scenario "AAAA" "AAAT" affine_matrix_M ⟨alignment_end2end, 0, 0⟩
          (wavefront_of 0 0 [(0, 0)])) 0
        (resolved_slot (scenario "AAAA" "AAAT" affine_matrix_M ⟨alignment_end2end, 0, 0⟩
          (wavefront_of 0 0 [(0, 0)])) 0) false false).getD
        ((scenario "AAAA" "AAAT" affine_matrix_M ⟨alignment_end2end, 0, 0⟩
          (wavefront_of 0 0 [(0, 0)]), 0), [])).1.2 ≠ 0))
      ((wavefront_extend_matches_packed_traced
        (scenario "AAAA" "AAAT" affine_matrix_M ⟨alignment_end2end, 0, 0⟩
          (wavefront_of 0 0 [(0, 0)])) 0
        (resolved_slot (scenario "AAAA" "AAAT" affine_matrix_M ⟨alignment_end2end, 0, 0⟩
          (wavefront_of 0 0 [(0, 0)])) 0) false false).getD
        ((scenario "AAAA" "AAAT" affine_matrix_M ⟨alignment_end2end, 0, 0⟩
          (wavefront_of 0 0 [(0, 0)]), 0), [])).2
      (wavefront_extend_end2end (fun a _ => (a, true))
        (scenario "AAAA" "AAAT" affine_matrix_M ⟨alignment_end2end, 0, 0⟩
          (wavefront_of 0 0 [(0, 0)])) 0) :=
  ⟨by decide, by decide, by decide,
    (orchestrator_verdict (fun a _ => (a, true)) 17
      (scenario "AAAA" "AAAT" affine_matrix_M ⟨alignment_end2end, 0, 0⟩
        (wavefront_of 0 0 [(0, 0)])) 0).1 _ _ _
      (option_eq_some_getD _
        ((scenario "AAAA" "AAAT" affine_matrix_M ⟨alignment_end2end, 0, 0⟩
          (wavefront_of 0 0 [(0, 0)]), 0), []) (by decide))⟩

/-! ## Running the extension again -/

/-- Under the padding contract, with every active diagonal of `[lo,hi]` in
bounds, the packed extension returns. -/
theorem packed_returns (al : wavefront_aligner_t) (ps ts : uint8_t)
    (hpad : padding_contract al ps ts) (score score_mod : Int) (endsfree compute_max : Bool)
    (mw : wavefront_t) (hmw : al.wf_components.mwavefronts score_mod = some mw)
    (hin : ∀ k, mw.lo ≤ k → k ≤ mw.hi → diagonal_in_bounds al mw k) :
    ∃ res, wavefront_extend_matches_packed al score score_mod endsfree compute_max =
      some res := by
  have hdiag : ∀ k, mw.lo ≤ k → k ≤ mw.hi → mw.offsets k ≠ WAVEFRONT_OFFSET_NULL →
      (extend_packed_diagonal al k (mw.offsets k)).isSome = true := by
    intro k h1 h2 h3
    obtain ⟨hh, hv⟩ := hin k h1 h2 h3
    rw [(packed_diagonal_padded al ps ts hpad k _ hh hv).1]
    rfl
  exact Option.isSome_iff_exists.mp
    (packed_some_of_loop al score score_mod endsfree compute_max mw hmw
      (packed_loop_some _ _ _ _ _ _ _ _ (fun k h1 h2 h3 => hdiag k h1 (by omega) h3)))

/-! ## Max tracking in the 32-bit offset type -/

/-- A value that fits in 32 bits is stored as it is. -/
theorem wf_offset_wrap_fits (x : Int) (h1 : -2147483648 ≤ x) (h2 : x ≤ INT32_MAX) :
    wf_offset_wrap x = x := by
  unfold INT32_MAX at h2
  unfold wf_offset_wrap
  omega

/-- A value from `2^31` up to below `2^32` is stored as a negative value. -/
theorem wf_offset_wrap_over (x : Int) (h1 : 2147483648 ≤ x) (h2 : x < 4294967296) :
    wf_offset_wrap x < 0 := by
  unfold wf_offset_wrap
  omega

/-- The long-sequence scenario meets the padding contract. -/
theorem uniform_padding (n : Nat) (a b ps ts : uint8_t) (w : wavefront_t)
    (h1 : a ≠ ts) (h2 : b ≠ ps) (h3 : ps ≠ ts) :
    padding_contract (uniform_scenario n a b ps ts w) ps ts := by
  unfold padding_contract uniform_scenario
  simp only [Int.toNat_ofNat]
  refine ⟨Int.ofNat_nonneg n, Int.ofNat_nonneg n, ?_, ?_, ?_, ?_, h3⟩
  · intro i hi
    rw [List.getElem?_append_right (by simp), List.length_replicate, Nat.add_sub_cancel_left,
      List.getElem?_replicate, if_pos hi]
  · intro i hi
    rw [List.getElem?_append_right (by simp), List.length_replicate, Nat.add_sub_cancel_left,
      List.getElem?_replicate, if_pos hi]
  · intro i hi
    rw [List.getElem?_append_left (by simpa using hi), List.getElem?_replicate, if_pos hi]
    intro heq
    exact h1 (Option.some.inj heq)
  · intro i hi
    rw [List.getElem?_append_left (by simpa using hi), List.getElem?_replicate, if_pos hi]
    intro heq
    exact h2 (Option.some.inj heq)

/-- In the long-sequence scenario the common run from the corner on is empty. -/
theorem uniform_corner_run (n : Nat) (a b ps ts : uint8_t) (w : wavefront_t)
    (h3 : ps ≠ ts) : diagonal_run (uniform_scenario n a b ps ts w) 0 n = 0 := by
  unfold diagonal_run uniform_scenario WAVEFRONT_V WAVEFRONT_H
  simp only [sub_zero, Int.toNat_ofNat]
  rw [List.drop_left' (List.length_replicate n a), List.drop_left' (List.length_replicate n b)]
  simp [List.replicate_succ, lcp_length, h3]

/-- A run of the packed extension is a run of the logged one. -/
theorem packed_traced_of_some (al : wavefront_aligner_t) (score score_mod : Int)
    (endsfree compute_max : Bool) (res : wavefront_aligner_t × Int)
    (h : wavefront_extend_matches_packed al score score_mod endsfree compute_max = some res) :
    ∃ log, wavefront_extend_matches_packed_traced al score score_mod endsfree compute_max =
      some (res, log) := by
  have he := packed_traced_erase al score score_mod endsfree compute_max
  rw [h] at he
  cases ht : wavefront_extend_matches_packed_traced al score score_mod endsfree
      compute_max with
  | none => rw [ht] at he; simp at he
  | some r =>
    rw [ht] at he
    simp only [Option.map_some', Option.some.injEq] at he
    exact ⟨r.2, by rw [← he]⟩

/-- The orchestrator `wavefront_extend_end2end_max` is the logged packed
extension on the resolved slot, with max tracking and no ends-free check. -/
theorem end2end_max_eq (al : wavefront_aligner_t) (score : Int) :
    wavefront_extend_end2end_max al score =
      (wavefront_extend_matches_packed_traced al score (resolved_slot al score) false
        true).map (fun r => (r.1.1, r.1.2, r.2)) := rfl

/-- The antidiagonal of diagonal 0 at an offset from `2^30` up to below `2^31`
is stored as a negative value. -/
theorem corner_antidiagonal_over (o : Int) (h1 : 2147483648 ≤ 2 * o)
    (h2 : 2 * o < 4294967296) : wf_offset_wrap (WAVEFRONT_ANTIDIAGONAL 0 o) < 0 := by
  unfold WAVEFRONT_ANTIDIAGONAL wf_offset_wrap
  omega

/-- In the long-sequence scenario with diagonal 0 at the corner, when twice the
length does not fit in 32 bits, `wavefront_extend_end2end_max` returns 0 and
leaves diagonal 0 at the corner. -/
theorem uniform_max_overflow (n : Nat) (a b ps ts : uint8_t)
    (h1 : a ≠ ts) (h2 : b ≠ ps) (h3 : ps ≠ ts)
    (ho1 : 2147483648 ≤ 2 * (n : Int)) (ho2 : 2 * (n : Int) < 4294967296) :
    (wavefront_extend_end2end_max
        (uniform_scenario n a b ps ts (wavefront_of 0 0 [(0, (n : Int))])) 0).map
        (fun r => (r.2.1, (r.1.wf_components.mwavefronts 0).map (fun w => w.offsets 0))) =
      some (0, some (n : Int)) := by
  have hpad := uniform_padding n a b ps ts (wavefront_of 0 0 [(0, (n : Int))]) h1 h2 h3
  have hmw : (uniform_scenario n a b ps ts (wavefront_of 0 0 [(0, (n : Int))])
      ).wf_components.mwavefronts 0 = some (wavefront_of 0 0 [(0, (n : Int))]) := rfl
  have hoff : (wavefront_of 0 0 [(0, (n : Int))]).offsets 0 = (n : Int) := rfl
  have hbh : 0 ≤ WAVEFRONT_H 0 (n : Int) ∧ WAVEFRONT_H 0 (n : Int) ≤
      (uniform_scenario n a b ps ts (wavefront_of 0 0 [(0, (n : Int))])).text_length := by
    unfold WAVEFRONT_H uniform_scenario
    exact ⟨Int.ofNat_nonneg n, le_refl _⟩
  have hbv : 0 ≤ WAVEFRONT_V 0 (n : Int) ∧ WAVEFRONT_V 0 (n : Int) ≤
      (uniform_scenario n a b ps ts (wavefront_of 0 0 [(0, (n : Int))])).pattern_length := by
    unfold WAVEFRONT_V uniform_scenario
    simp only [sub_zero]
    exact ⟨Int.ofNat_nonneg n, le_refl _⟩
  have hin : ∀ k, (wavefront_of 0 0 [(0, (n : Int))]).lo ≤ k →
      k ≤ (wavefront_of 0 0 [(0, (n : Int))]).hi →
      diagonal_in_bounds (uniform_scenario n a b ps ts (wavefront_of 0 0 [(0, (n : Int))]))
        (wavefront_of 0 0 [(0, (n : Int))]) k := by
    intro k k1 k2 _
    have hk : k = 0 := le_antisymm k2 k1
    subst hk
    rw [hoff]
    exact ⟨hbh, hbv⟩
  obtain ⟨res, hres⟩ := packed_returns _ ps ts hpad 0 0 false true _ hmw hin
  obtain ⟨mw1, m1, -, -, -, -, m6, m7, m8, -⟩ := packed_max_result _ 0 0 _ hmw res hres
  have hscan := m6 0 (le_refl _) (le_refl _) (by
    rw [hoff]
    intro hn
    have := Int.ofNat_nonneg n
    rw [hn] at this
    unfold WAVEFRONT_OFFSET_NULL at this
    omega)
  rw [hoff, (packed_diagonal_padded _ ps ts hpad 0 (n : Int) hbh hbv).1,
    uniform_corner_run n a b ps ts _ h3] at hscan
  have hfinal : mw1.offsets 0 = (n : Int) := by
    have := Option.some.inj hscan
    rw [← this]; simp
  have hret : res.2 = 0 := by
    rcases m8 with m8 | ⟨k, k1, k2, -, k4⟩
    · exact m8
    · have hk : k = 0 := le_antisymm k2 k1
      subst hk
      rw [hfinal] at k4
      have hneg : res.2 < 0 := k4 ▸ corner_antidiagonal_over (n : Int) ho1 ho2
      exact absurd m7 (not_le.mpr hneg)
  obtain ⟨log, hlog⟩ := packed_traced_of_some _ 0 0 false true res hres
  have hslot : resolved_slot
      (uniform_scenario n a b ps ts (wavefront_of 0 0 [(0, (n : Int))])) 0 = 0 := rfl
  rw [end2end_max_eq, hslot, hlog]
  simp only [Option.map_some', hret, m1, store_mwavefront_slot, hfinal]

/-- C14, counterexample: a pattern of `2^30` symbols A and a text of `2^30`
symbols C, each with its 8 bytes of padding, the lengths `2^30`, diagonal 0 at
the corner (offset `2^30`, text and pattern index `2^30`).  The state meets the
padding contract and is in bounds.  The antidiagonal of diagonal 0 is `2^31`,
which does not fit in the 32-bit offset type: stored there it is negative, the
maximum stays at its initial value, and `wavefront_extend_end2end_max` returns
0 with diagonal 0 still at offset `2^30`. -/
theorem max_tracking_overflows :
    (wavefront_extend_end2end_max
        (uniform_scenario 1073741824 65 67 63 33
          (wavefront_of 0 0 [(0, ((1073741824 : Nat) : Int))])) 0).map
        (fun r => (r.2.1, (r.1.wf_components.mwavefronts 0).map (fun w => w.offsets 0))) =
      some (0, some ((1073741824 : Nat) : Int)) ∧
    padding_contract
      (uniform_scenario 1073741824 65 67 63 33
        (wavefront_of 0 0 [(0, ((1073741824 : Nat) : Int))])) 63 33 ∧
    WAVEFRONT_H 0 ((1073741824 : Nat) : Int) = 1073741824 ∧
    WAVEFRONT_V 0 ((1073741824 : Nat) : Int) = 1073741824 ∧
    WAVEFRONT_ANTIDIAGONAL 0 ((1073741824 : Nat) : Int) = 2147483648 ∧
    wf_offset_wrap 2147483648 = -2147483648 :=
  ⟨uniform_max_overflow 1073741824 65 67 63 33 (by decide) (by decide) (by decide)
      (by decide) (by decide),
    uniform_padding 1073741824 65 67 63 33 _ (by decide) (by decide) (by decide),
    by decide, by decide, by decide, by decide⟩

/-- The antidiagonal of a diagonal the block comparison has extended is not
negative. -/
theorem scanned_antidiagonal_nonneg (al : wavefront_aligner_t) (k o o1 : Int)
    (hs : extend_packed_diagonal al k o = some o1) : 0 ≤ WAVEFRONT_ANTIDIAGONAL k o1 := by
  obtain ⟨h1, h2, h3, -⟩ := packed_diagonal_result al k o o1 hs
  unfold WAVEFRONT_V at h1
  unfold WAVEFRONT_H at h2
  unfold WAVEFRONT_ANTIDIAGONAL
  omega

/-- C14, amended: when the M-wavefront of the resolved slot is present, has an
active diagonal in `[lo,hi]`, its active diagonals have non-negative text and
pattern indices, and the antidiagonal of every extended diagonal is at most
`INT32_MAX`, the value `wavefront_extend_end2end_max` returns is the maximum of
the antidiagonals of the active diagonals of `[lo,hi]` of the M-wavefront the
call leaves at the slot, whose offsets are the extended ones. -/
theorem max_tracking_returns_max (al : wavefront_aligner_t) (score : Int)
    (mw : wavefront_t)
    (hmw : al.wf_components.mwavefronts (resolved_slot al score) = some mw)
    (hact : ∃ k, mw.lo ≤ k ∧ k ≤ mw.hi ∧ mw.offsets k ≠ WAVEFRONT_OFFSET_NULL)
    (hpos : ∀ k, mw.lo ≤ k → k ≤ mw.hi → mw.offsets k ≠ WAVEFRONT_OFFSET_NULL →
      0 ≤ WAVEFRONT_H k (mw.offsets k) ∧ 0 ≤ WAVEFRONT_V k (mw.offsets k))
    (hfit : ∀ k, mw.lo ≤ k → k ≤ mw.hi → mw.offsets k ≠ WAVEFRONT_OFFSET_NULL →
      ∀ o1, extend_packed_diagonal al k (mw.offsets k) = some o1 →
        WAVEFRONT_ANTIDIAGONAL k o1 ≤ INT32_MAX)
    (res : wavefront_aligner_t × Int × List engine_event)
    (h : wavefront_extend_end2end_max al score = some res) :
    ∃ mw1, res.1.wf_components.mwavefronts (resolved_slot al score) = some mw1 ∧
      (∀ k, mw.lo ≤ k → k ≤ mw.hi → mw.offsets k ≠ WAVEFRONT_OFFSET_NULL →
        extend_packed_diagonal al k (mw.offsets k) = some (mw1.offsets k)) ∧
      is_max_antidiagonal mw1 res.2.1 := by
  have hp := packed_traced_some al score _ _ _ _ (end2end_max_unfold al score res h)
  obtain ⟨mw1, h1, h2, h3, h4, h5, h6, h7, h8, h9⟩ :=
    packed_max_result al score _ mw hmw _ hp
  simp only [] at h1 h7 h8 h9
  have hwrap : ∀ k, mw.lo ≤ k → k ≤ mw.hi → mw.offsets k ≠ WAVEFRONT_OFFSET_NULL →
      wf_offset_wrap (WAVEFRONT_ANTIDIAGONAL k (mw1.offsets k)) =
        WAVEFRONT_ANTIDIAGONAL k (mw1.offsets k) ∧
      0 ≤ WAVEFRONT_ANTIDIAGONAL k (mw1.offsets k) := by
    intro k k1 k2 k3
    have hs := h6 k k1 k2 k3
    have hnn := scanned_antidiagonal_nonneg al k _ _ hs
    exact ⟨wf_offset_wrap_fits _ (by omega) (hfit k k1 k2 k3 _ hs), hnn⟩
  have hge : ∀ k, mw.lo ≤ k → k ≤ mw.hi → mw.offsets k ≠ WAVEFRONT_OFFSET_NULL →
      0 ≤ mw.offsets k ∧ mw.offsets k ≤ mw1.offsets k := by
    intro k k1 k2 k3
    obtain ⟨-, -, hrun, -⟩ := packed_diagonal_result al k _ _ (h6 k k1 k2 k3)
    obtain ⟨p1, -⟩ := hpos k k1 k2 k3
    unfold WAVEFRONT_H at p1
    omega
  have hactive : ∀ k, mw.lo ≤ k → k ≤ mw.hi →
      (mw1.offsets k ≠ WAVEFRONT_OFFSET_NULL ↔ mw.offsets k ≠ WAVEFRONT_OFFSET_NULL) := by
    intro k k1 k2
    constructor
    · intro hn hnull
      exact hn (h4 k hnull)
    · intro hn hnull
      obtain ⟨g1, g2⟩ := hge k k1 k2 hn
      rw [hnull] at g2
      unfold WAVEFRONT_OFFSET_NULL at g2
      omega
  refine ⟨mw1, by rw [h1]; exact store_mwavefront_slot _ _ _, h6, ?_, ?_⟩
  · rcases h8 with h8 | ⟨k, k1, k2, k3, k4⟩
    · obtain ⟨k, k1, k2, k3⟩ := hact
      refine ⟨k, by omega, by omega, (hactive k k1 k2).mpr k3, ?_⟩
      obtain ⟨w1, w2⟩ := hwrap k k1 k2 k3
      have hle := h9 k k1 k2 k3
      rw [w1, h8] at hle
      rw [h8]
      omega
    · exact ⟨k, by omega, by omega, (hactive k k1 k2).mpr k3,
        k4.trans (hwrap k k1 k2 k3).1⟩
  · intro k k1 k2 k3
    rw [h2] at k1
    rw [h3] at k2
    have k3m := (hactive k k1 k2).mp k3
    rw [← (hwrap k k1 k2 k3m).1]
    exact h9 k k1 k2 k3m

/-- C14, witness: pattern "AAAA", text "AAAT", diagonal 0 at offset 0 and
diagonal 1 at offset 1, diagonal -1 inactive: the offsets become 3 and 3, the
antidiagonals 6 and 5, and the returned value is 6. -/
theorem max_tracking_returns_max_witness :
    (wavefront_extend_end2end_max
        (scenario "AAAA" "AAAT" affine_matrix_M ⟨alignment_end2end, 0, 0⟩
          (wavefront_of (-1) 1 [(0, 0), (1, 1)])) 0).map
        (fun r => (r.2.1, (r.1.wf_components.mwavefronts 0).map
          (fun w => [w.offsets (-1), w.offsets 0, w.offsets 1]))) =
      some (6, some [WAVEFRONT_OFFSET_NULL, 3, 3]) ∧
    ∃ mw1, ((wavefront_extend_end2end_max
        (scenario "AAAA" "AAAT" affine_matrix_M ⟨alignment_end2end, 0, 0⟩
          (wavefront_of (-1) 1 [(0, 0), (1, 1)])) 0).getD
        (scenario "AAAA" "AAAT" affine_matrix_M ⟨alignment_end2end, 0, 0⟩
          (wavefront_of (-1) 1 [(0, 0), (1, 1)]), 0, [])).1.wf_components.mwavefronts
          (resolved_slot (scenario "AAAA" "AAAT" affine_matrix_M ⟨alignment_end2end, 0, 0⟩
            (wavefront_of (-1) 1 [(0, 0), (1, 1)])) 0) = some mw1 ∧
      (∀ k, (wavefront_of (-1) 1 [(0, 0), (1, 1)]).lo ≤ k →
        k ≤ (wavefront_of (-1) 1 [(0, 0), (1, 1)]).hi →
        (wavefront_of (-1) 1 [(0, 0), (1, 1)]).offsets k ≠ WAVEFRONT_OFFSET_NULL →
        extend_packed_diagonal
          (scenario "AAAA" "AAAT" affine_matrix_M ⟨alignment_end2end, 0, 0⟩
            (wavefront_of (-1) 1 [(0, 0), (1, 1)])) k
          ((wavefront_of (-1) 1 [(0, 0), (1, 1)]).offsets k) = some (mw1.offsets k)) ∧
      is_max_antidiagonal mw1
        ((wavefront_extend_end2end_max
          (scenario "AAAA" "AAAT" affine_matrix_M ⟨alignment_end2end, 0, 0⟩
            (wavefront_of (-1) 1 [(0, 0), (1, 1)])) 0).getD
          (scenario "AAAA" "AAAT" affine_matrix_M ⟨alignment_end2end, 0, 0⟩
            (wavefront_of (-1) 1 [(0, 0), (1, 1)]), 0, [])).2.1 :=
  ⟨by decide,
    max_tracking_returns_max
      (scenario "AAAA" "AAAT" affine_matrix_M ⟨alignment_end2end, 0, 0⟩
        (wavefront_of (-1) 1 [(0, 0), (1, 1)])) 0 (wavefront_of (-1) 1 [(0, 0), (1, 1)]) rfl
      ⟨0, by decide, by decide, by decide⟩
      (by
        intro k k1 k2 k3
        have hk : k = -1 ∨ k = 0 ∨ k = 1 := by
          change (-1 : Int) ≤ k at k1
          change k ≤ (1 : Int) at k2
          omega
        rcases hk with hk | hk | hk <;> subst hk
        · exact absurd rfl k3
        · decide
        · decide)
      (by
        intro k k1 k2 k3 o1 ho1
        have hk : k = -1 ∨ k = 0 ∨ k = 1 := by
          change (-1 : Int) ≤ k at k1
          change k ≤ (1 : Int) at k2
          omega
        rcases hk with hk | hk | hk <;> subst hk
        · exact absurd rfl k3
        · have e : extend_packed_diagonal
              (scenario "AAAA" "AAAT" affine_matrix_M ⟨alignment_end2end, 0, 0⟩
                (wavefront_of (-1) 1 [(0, 0), (1, 1)])) 0
              ((wavefront_of (-1) 1 [(0, 0), (1, 1)]).offsets 0) = some 3 := by decide
          rw [e] at ho1
          cases ho1
          decide
        · have e : extend_packed_diagonal
              (scenario "AAAA" "AAAT" affine_matrix_M ⟨alignment_end2end, 0, 0⟩
                (wavefront_of (-1) 1 [(0, 0), (1, 1)])) 1
              ((wavefront_of (-1) 1 [(0, 0), (1, 1)]).offsets 1) = some 3 := by decide
          rw [e] at ho1
          cases ho1
          decide)
      _
      (option_eq_some_getD _
        (scenario "AAAA" "AAAT" affine_matrix_M ⟨alignment_end2end, 0, 0⟩
          (wavefront_of (-1) 1 [(0, 0), (1, 1)]), 0, []) (by decide))⟩

/-- C17, counterexample: the packed extension called with `endsfree` and
`compute_max` both on, pattern "AAAAXX" with 2 free trailing symbols, text
"AAAA", diagonal 0 at offset 0 and diagonal 1 at offset 1.  Diagonal 0 extends
to offset 4 (antidiagonal 8) and the ends-free check, which is run, succeeds:
the call returns 1, not 8, the end position becomes `{0, 0, 4}`, and diagonal 1
keeps its offset 1 although its run would take it to 4. -/
theorem max_tracking_early_exit :
    (wavefront_extend_matches_packed_traced
        (scenario "AAAAXX" "AAAA" affine_matrix_M ⟨alignment_endsfree, 2, 0⟩
          (wavefront_of 0 1 [(0, 0), (1, 1)])) 0 0 true true).map
        (fun r => (r.1.2, r.1.1.alignment_end_pos,
          (r.1.1.wf_components.mwavefronts 0).map (fun w => [w.offsets 0, w.offsets 1]),
          r.2)) =
      some (1, ⟨0, 0, 4⟩, some [4, 1], [block_compare 0, endsfree_check 0 4]) ∧
    (scenario "AAAAXX" "AAAA" affine_matrix_M ⟨alignment_endsfree, 2, 0⟩
      (wavefront_of 0 1 [(0, 0), (1, 1)])).alignment_end_pos = ⟨-1, 0, 0⟩ ∧
    extend_packed_diagonal
      (scenario "AAAAXX" "AAAA" affine_matrix_M ⟨alignment_endsfree, 2, 0⟩
        (wavefront_of 0 1 [(0, 0), (1, 1)])) 1 1 = some 4 ∧
    WAVEFRONT_ANTIDIAGONAL 0 4 = 8 := by
  decide

/-- C17, amended: the packed extension called with `endsfree` off and
`compute_max` on runs block comparisons only (no termination check), leaves the
end position as it was, extends every active diagonal of `[lo,hi]`, and returns
the largest of 0 and the antidiagonals of the active diagonals as the 32-bit
offset type holds them; when the antidiagonal of every extended diagonal is at
most `INT32_MAX`, these are the antidiagonals themselves. -/
theorem max_tracking_no_check (al : wavefront_aligner_t) (score score_mod : Int)
    (mw : wavefront_t) (hmw : al.wf_components.mwavefronts score_mod = some mw)
    (r : (wavefront_aligner_t × Int) × List engine_event)
    (h : wavefront_extend_matches_packed_traced al score score_mod false true = some r) :
    (∀ e ∈ r.2, ∃ k, e = block_compare k) ∧
      r.1.1.alignment_end_pos = al.alignment_end_pos ∧
      ∃ mw1, r.1.1.wf_components.mwavefronts score_mod = some mw1 ∧
        (∀ k, mw.lo ≤ k → k ≤ mw.hi → mw.offsets k ≠ WAVEFRONT_OFFSET_NULL →
          extend_packed_diagonal al k (mw.offsets k) = some (mw1.offsets k)) ∧
        0 ≤ r.1.2 ∧
        (r.1.2 = 0 ∨ ∃ k, mw.lo ≤ k ∧ k ≤ mw.hi ∧ mw.offsets k ≠ WAVEFRONT_OFFSET_NULL ∧
          r.1.2 = wf_offset_wrap (WAVEFRONT_ANTIDIAGONAL k (mw1.offsets k))) ∧
        (∀ k, mw.lo ≤ k → k ≤ mw.hi → mw.offsets k ≠ WAVEFRONT_OFFSET_NULL →
          wf_offset_wrap (WAVEFRONT_ANTIDIAGONAL k (mw1.offsets k)) ≤ r.1.2) ∧
        ((∀ k, mw.lo ≤ k → k ≤ mw.hi → mw.offsets k ≠ WAVEFRONT_OFFSET_NULL →
            WAVEFRONT_ANTIDIAGONAL k (mw1.offsets k) ≤ INT32_MAX) →
          (r.1.2 = 0 ∨ ∃ k, mw.lo ≤ k ∧ k ≤ mw.hi ∧ mw.offsets k ≠ WAVEFRONT_OFFSET_NULL ∧
            r.1.2 = WAVEFRONT_ANTIDIAGONAL k (mw1.offsets k)) ∧
          ∀ k, mw.lo ≤ k → k ≤ mw.hi → mw.offsets k ≠ WAVEFRONT_OFFSET_NULL →
            WAVEFRONT_ANTIDIAGONAL k (mw1.offsets k) ≤ r.1.2) := by
  have hp := packed_traced_some al score _ _ _ _ h
  obtain ⟨mw1, h1, -, -, -, -, h6, h7, h8, h9⟩ := packed_max_result al score _ mw hmw _ hp
  refine ⟨packed_plain_max_log al score _ _ h, (packed_plain_max_frame al score _ _ hp).1,
    mw1, by rw [h1]; exact store_mwavefront_slot _ _ _, h6, h7, h8, h9, ?_⟩
  intro hfit
  have hwrap : ∀ k, mw.lo ≤ k → k ≤ mw.hi → mw.offsets k ≠ WAVEFRONT_OFFSET_NULL →
      wf_offset_wrap (WAVEFRONT_ANTIDIAGONAL k (mw1.offsets k)) =
        WAVEFRONT_ANTIDIAGONAL k (mw1.offsets k) := by
    intro k k1 k2 k3
    have hnn := scanned_antidiagonal_nonneg al k _ _ (h6 k k1 k2 k3)
    exact wf_offset_wrap_fits _ (by omega) (hfit k k1 k2 k3)
  constructor
  · rcases h8 with h8 | ⟨k, k1, k2, k3, k4⟩
    · exact Or.inl h8
    · exact Or.inr ⟨k, k1, k2, k3, k4.trans (hwrap k k1 k2 k3)⟩
  · intro k k1 k2 k3
    rw [← hwrap k k1 k2 k3]
    exact h9 k k1 k2 k3

/-- C17, witness: with `endsfree` off the same wavefront on pattern "AAAA", text
"AAAT" is extended on both diagonals and the call returns the antidiagonal 6. -/
theorem max_tracking_no_check_witness :
    (wavefront_extend_matches_packed_traced
        (scenario "AAAA" "AAAT" affine_matrix_M ⟨alignment_end2end, 0, 0⟩
          (wavefront_of 0 1 [(0, 0), (1, 1)])) 0 0 false true).map
        (fun r => (r.1.2, r.1.1.alignment_end_pos,
          (r.1.1.wf_components.mwavefronts 0).map (fun w => [w.offsets 0, w.offsets 1]),
          r.2)) =
      some (6, ⟨-1, 0, 0⟩, some [3, 3], [block_compare 0, block_compare 1]) ∧
    ∀ e ∈ ((wavefront_extend_matches_packed_traced
        (scenario "AAAA" "AAAT" affine_matrix_M ⟨alignment_end2end, 0, 0⟩
          (wavefront_of 0 1 [(0, 0), (1, 1)])) 0 0 false true).getD
        ((scenario "AAAA" "AAAT" affine_matrix_M ⟨alignment_end2end, 0, 0⟩
          (wavefront_of 0 1 [(0, 0), (1, 1)]), 0), [])).2, ∃ k, e = block_compare k :=
  ⟨by decide,
    (max_tracking_no_check
      (scenario "AAAA" "AAAT" affine_matrix_M ⟨alignment_end2end, 0, 0⟩
        (wavefront_of 0 1 [(0, 0), (1, 1)])) 0 0 (wavefront_of 0 1 [(0, 0), (1, 1)]) rfl _
      (option_eq_some_getD _
        ((scenario "AAAA" "AAAT" affine_matrix_M ⟨alignment_end2end, 0, 0⟩
          (wavefront_of 0 1 [(0, 0), (1, 1)]), 0), []) (by decide))).1⟩

/-! ## Running the extension a second time -/

/-- The verdict of the packed extension in end-to-end mode is that of the
end-to-end check read from the slot it is called with. -/
theorem packed_end2end_verdict (al : wavefront_aligner_t) (score score_mod : Int)
    (res : wavefront_aligner_t × Int)
    (h : wavefront_extend_matches_packed al score score_mod false false = some res) :
    end2end_verdict_at al score_mod res.1 (decide (res.2 ≠ 0)) := by
  constructor
  · intro hnone
    unfold wavefront_extend_matches_packed at h
    rw [hnone] at h
    simp only [Option.some.injEq] at h
    subst h
    simp
  · intro mw hmw
    rw [packed_unfold al score score_mod false false mw hmw] at h
    cases hl : extend_loop (extend_packed_diagonal al) score false false
        (mw.hi + 1 - mw.lo).toNat mw.lo al mw 0 with
    | none => rw [hl] at h; simp at h
    | some r =>
      rw [hl] at h
      obtain ⟨-, -, -, -, h5, h6⟩ := extend_loop_spec _ _ _ _ _ _ _ _ _ _ hl
      have hq : r.2.2.2 = false := by
        cases hq : r.2.2.2 with
        | false => rfl
        | true => exact absurd (h6 hq).1 (by simp)
      have hal : r.1 = al := (h5 hq).1
      simp only [Option.map_some', Option.some.injEq, hq, Bool.false_eq_true, if_false,
        Bool.not_false, if_true, hal] at h
      rw [end2end_check_spec] at h
      refine ⟨r.2.1, ?_, ?_⟩
      · rw [← h]
        by_cases hc : ∃ w, required_wavefront (store_mwavefront al score_mod r.2.1) r.2.1
            score_mod = some w ∧ corner_reached (store_mwavefront al score_mod r.2.1) w
        · rw [if_pos hc]; exact store_mwavefront_slot _ _ _
        · rw [if_neg hc]; exact store_mwavefront_slot _ _ _
      · have hiff : (∃ w, required_wavefront (store_mwavefront al score_mod r.2.1) r.2.1
            score_mod = some w ∧ corner_reached (store_mwavefront al score_mod r.2.1) w) ↔
            ∃ w, required_wavefront al r.2.1 score_mod = some w ∧ corner_reached al w :=
          Iff.rfl
        rw [← hiff, ← h]
        by_cases hc : ∃ w, required_wavefront (store_mwavefront al score_mod r.2.1) r.2.1
            score_mod = some w ∧ corner_reached (store_mwavefront al score_mod r.2.1) w
        · rw [if_pos hc]; simp [hc]
        · rw [if_neg hc]; simp [hc]

/-- The verdict of the custom extension in end-to-end mode is that of the
end-to-end check read from the slot it is called with. -/
theorem custom_end2end_verdict (fuel : Nat) (al : wavefront_aligner_t)
    (score score_mod : Int) (res : wavefront_aligner_t × Bool)
    (h : wavefront_extend_matches_custom fuel al score score_mod false = some res) :
    end2end_verdict_at al score_mod res.1 res.2 := by
  constructor
  · intro hnone
    unfold wavefront_extend_matches_custom at h
    rw [hnone] at h
    simp only [Option.some.injEq] at h
    subst h
    rfl
  · intro mw hmw
    rw [custom_unfold fuel al score score_mod false mw hmw] at h
    cases hl : extend_loop (custom_diagonal fuel al) score false false
        (mw.hi + 1 - mw.lo).toNat mw.lo al mw 0 with
    | none => rw [hl] at h; simp at h
    | some r =>
      rw [hl] at h
      obtain ⟨-, -, -, -, h5, h6⟩ := extend_loop_spec _ _ _ _ _ _ _ _ _ _ hl
      have hq : r.2.2.2 = false := by
        cases hq : r.2.2.2 with
        | false => rfl
        | true => exact absurd (h6 hq).1 (by simp)
      have hal : r.1 = al := (h5 hq).1
      simp only [Option.map_some', Option.some.injEq, hq, Bool.false_eq_true, if_false,
        Bool.not_false, if_true, hal] at h
      rw [end2end_check_spec] at h
      refine ⟨r.2.1, ?_, ?_⟩
      · rw [← h]
        by_cases hc : ∃ w, required_wavefront (store_mwavefront al score_mod r.2.1) r.2.1
            score_mod = some w ∧ corner_reached (store_mwavefront al score_mod r.2.1) w
        · rw [if_pos hc]; exact store_mwavefront_slot _ _ _
        · rw [if_neg hc]; exact store_mwavefront_slot _ _ _
      · have hiff : (∃ w, required_wavefront (store_mwavefront al score_mod r.2.1) r.2.1
            score_mod = some w ∧ corner_reached (store_mwavefront al score_mod r.2.1) w) ↔
            ∃ w, required_wavefront al r.2.1 score_mod = some w ∧ corner_reached al w :=
          Iff.rfl
        rw [← hiff, ← h]
        by_cases hc : ∃ w, required_wavefront (store_mwavefront al score_mod r.2.1) r.2.1
            score_mod = some w ∧ corner_reached (store_mwavefront al score_mod r.2.1) w
        · rw [if_pos hc]; simp [hc]
        · rw [if_neg hc]; simp [hc]

/-- An orchestrator that meets the contract on the outcome of an extension that
keeps the offsets outside its slot and records the score on done, meets
`slot_outcome`. -/
theorem slot_outcome_of_contract
    (cutoff : wavefront_aligner_t → Int → wavefront_aligner_t × Bool)
    (al : wavefront_aligner_t) (score slot : Int) (al1 : wavefront_aligner_t) (done : Bool)
    (log : List engine_event)
    (out : Option (wavefront_aligner_t × Int × List engine_event))
    (hc : orchestrator_contract cutoff al score al1 done log out)
    (hk : offsets_kept_outside slot al al1)
    (hs : done = true → al1.alignment_end_pos.score = score) :
    slot_outcome cutoff al score slot al1 done log out := by
  refine ⟨hc, hs, ?_⟩
  obtain ⟨-, -, c1, c2, c3, c4⟩ := hc
  cases hd : done with
  | true =>
    refine ⟨_, c1 hd, fun _ => hs hd, fun _ => hk⟩
  | false =>
    by_cases hh : al.heuristic = wf_heuristic_none
    · refine ⟨_, c4 hd hh, fun hdt => by simp at hdt, fun _ => hk⟩
    · cases hv : (cutoff al1 score).2 with
      | true =>
        refine ⟨_, c2 hd hh hv, fun hdt => by simp at hdt, ?_⟩
        intro hor
        rcases hor with hor | hor | hor
        · simp at hor
        · exact absurd hor hh
        · exact offsets_kept_trans slot _ _ _ hk hor
      | false =>
        refine ⟨_, c3 hd hh hv, fun hdt => by simp at hdt, ?_⟩
        intro hor
        rcases hor with hor | hor | hor
        · simp at hor
        · exact absurd hor hh
        · exact offsets_kept_trans slot _ _ _ hk hor

/-- C16, counterexample: pattern "AAAA", text "AAAT", a strategy other than
"none", and a cutoff that stores an I-wavefront with offset 7 at every slot and
reports not-dropped.  The extension does not reach the corner, so
`wavefront_extend_end2end` consults the cutoff and returns 0; after the call the
I-wavefront of slot 5, absent on entry, holds offset 7, while the state the
extension itself leaves still has no I-wavefront there. -/
theorem cutoff_rewrites_other_slot :
    (wavefront_extend_end2end
        (fun a _ => ({ a with wf_components := { a.wf_components with
          i1wavefronts := fun _ => some (wavefront_of 0 0 [(0, 7)]) } }, false))
        { scenario "AAAA" "AAAT" affine_matrix_M ⟨alignment_end2end, 0, 0⟩
            (wavefront_of 0 0 [(0, 0)]) with heuristic := wf_heuristic_other } 0).map
        (fun r => (r.2.1, (r.1.wf_components.i1wavefronts 5).map (fun w => w.offsets 0),
          r.2.2)) =
      some (0, some 7, [block_compare 0, end2end_check, heuristic_cutoff 0]) ∧
    (({ scenario "AAAA" "AAAT" affine_matrix_M ⟨alignment_end2end, 0, 0⟩
          (wavefront_of 0 0 [(0, 0)]) with heuristic := wf_heuristic_other } :
        wavefront_aligner_t).wf_components.i1wavefronts 5).map (fun w => w.offsets 0) =
      none ∧
    (wavefront_extend_matches_packed
        { scenario "AAAA" "AAAT" affine_matrix_M ⟨alignment_end2end, 0, 0⟩
            (wavefront_of 0 0 [(0, 0)]) with heuristic := wf_heuristic_other } 0 0 false
        false).map
        (fun r => (r.2, (r.1.wf_components.i1wavefronts 5).map (fun w => w.offsets 0))) =
      some (0, none) := by
  decide

/-- C16, amended: for a score that is not negative and a scope that is
positive, the slot the four orchestrators compute is the score modulo the scope
under modular memory and the score otherwise.  `wavefront_extend_end2end_max` is
the packed extension on that slot.  The packed and the custom extension on that
slot keep the offsets of the M-wavefronts of the other slots and of every I- and
D-wavefront.  Each of the other three orchestrators is the extension on that
slot followed by the steps of the contract: it returns; on done the end position
holds the score itself, not the slot; the state it returns keeps those offsets
when the cutoff is not consulted or keeps them; and in end-to-end mode the
verdict is that of the end-to-end check on the wavefront of the ending component
stored at that slot. -/
theorem slot_resolution_frame
    (cutoff : wavefront_aligner_t → Int → wavefront_aligner_t × Bool) (fuel : Nat)
    (al : wavefront_aligner_t) (score : Int) (hscore : 0 ≤ score)
    (hscope : 0 < al.wf_components.max_score_scope) :
    resolved_slot al score = score_slot al score ∧
    wavefront_extend_end2end_max al score =
      (wavefront_extend_matches_packed_traced al score (score_slot al score) false
        true).map (fun r => (r.1.1, r.1.2, r.2)) ∧
    (∀ endsfree compute_max r,
      wavefront_extend_matches_packed_traced al score (score_slot al score) endsfree
        compute_max = some r →
      offsets_kept_outside (score_slot al score) al r.1.1) ∧
    (∀ endsfree r,
      wavefront_extend_matches_custom_traced fuel al score (score_slot al score) endsfree =
        some r →
      offsets_kept_outside (score_slot al score) al r.1.1) ∧
    (∀ al1 ret log,
      wavefront_extend_matches_packed_traced al score (score_slot al score) false false =
        some ((al1, ret), log) →
      slot_outcome cutoff al score (score_slot al score) al1 (decide (ret ≠ 0)) log
        (wavefront_extend_end2end cutoff al score) ∧
      end2end_verdict_at al (score_slot al score) al1 (decide (ret ≠ 0))) ∧
    (∀ al1 ret log,
      wavefront_extend_matches_packed_traced al score (score_slot al score) true false =
        some ((al1, ret), log) →
      slot_outcome cutoff al score (score_slot al score) al1 (decide (ret ≠ 0)) log
        (wavefront_extend_endsfree cutoff al score)) ∧
    (∀ al1 done log,
      wavefront_extend_matches_custom_traced fuel al score (score_slot al score)
        (decide (al.alignment_form.span = alignment_endsfree)) = some ((al1, done), log) →
      slot_outcome cutoff al score (score_slot al score) al1 done log
        (wavefront_extend_custom cutoff fuel al score) ∧
      (al.alignment_form.span ≠ alignment_endsfree →
        end2end_verdict_at al (score_slot al score) al1 done)) := by
  have hs := resolved_slot_eq al score hscore hscope
  refine ⟨hs, ?_, ?_, ?_, ?_, ?_, ?_⟩
  · rw [end2end_max_eq, hs]
  · intro endsfree compute_max r h
    exact packed_offsets_kept al score _ _ _ _ (packed_traced_some al score _ _ _ _ h)
  · intro endsfree r h
    exact custom_offsets_kept fuel al score _ _ _ (custom_traced_some fuel al score _ _ _ h)
  · intro al1 ret log h
    have hp := packed_traced_some al score _ _ _ _ h
    rw [← hs] at h
    refine ⟨slot_outcome_of_contract cutoff al score _ al1 _ log _
      (end2end_contract cutoff al score al1 ret log h)
      (packed_offsets_kept al score _ _ _ _ hp) ?_, packed_end2end_verdict al score _ _ hp⟩
    intro hd
    exact packed_done_score al score _ _ _ hp (by simpa using hd)
  · intro al1 ret log h
    have hp := packed_traced_some al score _ _ _ _ h
    rw [← hs] at h
    refine slot_outcome_of_contract cutoff al score _ al1 _ log _
      (endsfree_contract cutoff al score al1 ret log h)
      (packed_offsets_kept al score _ _ _ _ hp) ?_
    intro hd
    exact packed_done_score al score _ _ _ hp (by simpa using hd)
  · intro al1 done log h
    have hp := custom_traced_some fuel al score _ _ _ h
    rw [← hs] at h
    refine ⟨slot_outcome_of_contract cutoff al score _ al1 _ log _
      (custom_contract cutoff fuel al score al1 done log h)
      (custom_offsets_kept fuel al score _ _ _ hp)
      (fun hd => custom_done_score fuel al score _ _ _ hp hd), ?_⟩
    intro hspan
    have hef : decide (al.alignment_form.span = alignment_endsfree) = false := by
      simpa using hspan
    rw [hef] at hp
    exact custom_end2end_verdict fuel al score _ _ hp

/-- C16, witness: modular memory with scope 3, pattern and text "AAAA", the
alignment ending in I, the M-wavefront (diagonal 0 at offset 0) and the
I-wavefront (diagonal 0 at the corner offset 4) stored at slot 1 only, score 4.
The resolved slot is 1.  Each orchestrator extends the M-wavefront of slot 1 to
offset 4; `wavefront_extend_end2end` and `wavefront_extend_custom` find the
I-wavefront of slot 1 at the corner (slot 4 holds none) and return 1 with the
score 4 in the end position; `wavefront_extend_endsfree` returns 1 likewise;
`wavefront_extend_end2end_max` returns the antidiagonal 8.  At score 3 (slot 0,
no wavefront) `wavefront_extend_end2end` returns 0 and slot 1 keeps offset 0. -/
theorem slot_resolution_frame_witness :
    resolved_slot
        (modular_affine_scenario "AAAA" "AAAA" affine_matrix_I ⟨alignment_end2end, 0, 0⟩ 3 1
          (wavefront_of 0 0 [(0, 0)]) (wavefront_of 0 0 [(0, 4)])) 4 = 1 ∧
    (wavefront_extend_end2end (fun a _ => (a, false))
        (modular_affine_scenario "AAAA" "AAAA" affine_matrix_I ⟨alignment_end2end, 0, 0⟩ 3 1
          (wavefront_of 0 0 [(0, 0)]) (wavefront_of 0 0 [(0, 4)])) 4).map
        (fun r => (r.2.1, r.1.alignment_end_pos,
          (r.1.wf_components.mwavefronts 1).map (fun w => w.offsets 0),
          (r.1.wf_components.i1wavefronts 4).map (fun w => w.offsets 0))) =
      some (1, ⟨4, 0, 4⟩, some 4, none) ∧
    (wavefront_extend_end2end_max
        (modular_affine_scenario "AAAA" "AAAA" affine_matrix_I ⟨alignment_end2end, 0, 0⟩ 3 1
          (wavefront_of 0 0 [(0, 0)]) (wavefront_of 0 0 [(0, 4)])) 4).map
        (fun r => (r.2.1, r.1.alignment_end_pos,
          (r.1.wf_components.mwavefronts 1).map (fun w => w.offsets 0))) =
      some (8, ⟨-1, 0, 0⟩, some 4) ∧
    (wavefront_extend_endsfree (fun a _ => (a, false))
        (modular_affine_scenario "AAAA" "AAAA" affine_matrix_I ⟨alignment_end2end, 0, 0⟩ 3 1
          (wavefront_of 0 0 [(0, 0)]) (wavefront_of 0 0 [(0, 4)])) 4).map
        (fun r => (r.2.1, r.1.alignment_end_pos,
          (r.1.wf_components.mwavefronts 1).map (fun w => w.offsets 0))) =
      some (1, ⟨4, 0, 4⟩, some 4) ∧
    (wavefront_extend_custom (fun a _ => (a, false)) 17
        (modular_affine_scenario "AAAA" "AAAA" affine_matrix_I ⟨alignment_end2end, 0, 0⟩ 3 1
          (wavefront_of 0 0 [(0, 0)]) (wavefront_of 0 0 [(0, 4)])) 4).map
        (fun r => (r.2.1, r.1.alignment_end_pos,
          (r.1.wf_components.mwavefronts 1).map (fun w => w.offsets 0))) =
      some (1, ⟨4, 0, 4⟩, some 4) ∧
    (wavefront_extend_end2end (fun a _ => (a, false))
        (modular_affine_scenario "AAAA" "AAAA" affine_matrix_I ⟨alignment_end2end, 0, 0⟩ 3 1
          (wavefront_of 0 0 [(0, 0)]) (wavefront_of 0 0 [(0, 4)])) 3).map
        (fun r => (r.2.1, r.1.alignment_end_pos,
          (r.1.wf_components.mwavefronts 1).map (fun w => w.offsets 0))) =
      some (0, ⟨-1, 0, 0⟩, some 0) ∧
    resolved_slot
        (modular_affine_scenario "AAAA" "AAAA" affine_matrix_I ⟨alignment_end2end, 0, 0⟩ 3 1
          (wavefront_of 0 0 [(0, 0)]) (wavefront_of 0 0 [(0, 4)])) 4 = score_slot
        (modular_affine_scenario "AAAA" "AAAA" affine_matrix_I ⟨alignment_end2end, 0, 0⟩ 3 1
          (wavefront_of 0 0 [(0, 0)]) (wavefront_of 0 0 [(0, 4)])) 4 :=
  ⟨by decide, by decide, by decide, by decide, by decide, by decide,
    (slot_resolution_frame (fun a _ => (a, false)) 17
        (modular_affine_scenario "AAAA" "AAAA" affine_matrix_I ⟨alignment_end2end, 0, 0⟩ 3 1
          (wavefront_of 0 0 [(0, 0)]) (wavefront_of 0 0 [(0, 4)])) 4 (by decide) (by decide)).1⟩

end WFA
